import Mathlib

/-! Connect-4 variant with rotation and uplift: board, position queue and game logic.

A shallow embedding of `pos.c`, `board.c` and `logic.c`.

* `unsigned int` values are natural numbers below `2 ^ 32`; every arithmetic operation of
  the source on them is written with the explicit wrap (`uadd`, `usub`, `umul`).
* `int` values are integers; the conversions between the two are `toInt32` and `toUInt32`.
* Heap storage is a list; an access outside the allocated storage (undefined behaviour in C)
  makes the operation return `none`.
* A `for` loop is `for_loop`, a counter running upwards over a fixed number of iterations.
-/

namespace Connect4

/-! ## Machine integers -/

/-- The number of values of an `unsigned int`. -/
def UINT_SIZE : Nat := 4294967296

/-- Unsigned 32-bit addition. -/
def uadd (a b : Nat) : Nat := (a + b) % UINT_SIZE

/-- Unsigned 32-bit subtraction, for operands below `2 ^ 32`. -/
def usub (a b : Nat) : Nat := (a + UINT_SIZE - b % UINT_SIZE) % UINT_SIZE

/-- Unsigned 32-bit multiplication. -/
def umul (a b : Nat) : Nat := (a * b) % UINT_SIZE

/-- Conversion of an `unsigned int` to `int` (two's complement). -/
def toInt32 (n : Nat) : Int :=
  if n % UINT_SIZE < 2147483648 then ((n % UINT_SIZE : Nat) : Int)
  else ((n % UINT_SIZE : Nat) : Int) - 4294967296

/-- Conversion of an `int` to `unsigned int`. -/
def toUInt32 (i : Int) : Nat := (i % 4294967296).toNat

/-- Result of an `int` operation brought back into the range of `int` (two's complement). -/
def wrapInt32 (i : Int) : Int := toInt32 (toUInt32 i)

/-- Bitwise complement of a 32-bit word. -/
def unot (a : Nat) : Nat := (a % UINT_SIZE) ^^^ 4294967295

/-- The loop `for (i = i0; i < i0 + n; i++) s = body(i, s)`, which stops with `none` as soon as
the body does. -/
def for_loop {σ : Type} (body : Nat → σ → Option σ) : Nat → Nat → σ → Option σ
  | 0, _, s => some s
  | n + 1, i, s => (body i s).bind (for_loop body n (i + 1))

/-! ## pos.h, pos.c -/

/-- The `struct pos`. -/
structure pos where
  r : Nat
  c : Nat
  deriving DecidableEq, Repr

/-- The function `make_pos`. -/
def make_pos (r c : Nat) : pos := { r := r, c := c }

/-- The `struct posqueue`: the entries linked from `head` to `tail`, oldest first. The field
`len` counts the linked entries and is their number. The pointers themselves are modelled by
`linked_posqueue` below, which holds these lists while it has fewer than `2^32` entries. -/
structure posqueue where
  entries : List pos
  deriving DecidableEq, Repr

/-- The field `len` of a queue. -/
def posqueue.len (q : posqueue) : Nat := q.entries.length

/-- The function `posqueue_new`. -/
def posqueue_new : posqueue := { entries := [] }

/-- The function `pos_enqueue`: the new entry is linked behind the tail. -/
def pos_enqueue (q : posqueue) (p : pos) : posqueue := { entries := q.entries ++ [p] }

/-- The function `pos_dequeue`: the returned position and the queue afterwards. On an empty
queue the position `(0, 0)` is returned and the queue is left as it is. -/
def pos_dequeue (q : posqueue) : pos × posqueue :=
  match q.entries with
  | [] => (make_pos 0 0, q)
  | p :: rest => (p, { entries := rest })

/-! ### The linked representation of the queue -/

/-- The `struct pq_entry`: the position and the pointer `next`, which is `NULL` (`none`) or the
address of an entry. -/
structure pq_entry where
  p : pos
  next : Option Nat
  deriving DecidableEq, Repr

/-- The `struct posqueue` as pos.h declares it, with the heap its entries are allocated in: the
address `a` holds `heap[a]`, which is `none` once the entry is freed. `malloc` returns the first
address behind the heap. The field `len` is an `unsigned int`. -/
structure linked_posqueue where
  heap : List (Option pq_entry)
  head : Option Nat
  tail : Option Nat
  len : Nat
  deriving DecidableEq, Repr

/-- The function `posqueue_new` on the linked representation. -/
def linked_posqueue_new : linked_posqueue := { heap := [], head := none, tail := none, len := 0 }

/-- The assignment `a->next = n`: undefined when `a` is `NULL` or not the address of a live
entry. -/
def set_next (heap : List (Option pq_entry)) (a : Option Nat) (n : Option Nat) :
    Option (List (Option pq_entry)) :=
  match a with
  | none => none
  | some t =>
    match heap[t]? with
    | some (some e) => some (heap.set t (some { p := e.p, next := n }))
    | _ => none

/-- The function `pos_enqueue` on the linked representation. -/
def linked_pos_enqueue (q : linked_posqueue) (p : pos) : Option linked_posqueue :=
  let entry_p := q.heap.length
  let heap1 := q.heap ++ [some { p := p, next := none }]
  if q.len = 0 then
    some { heap := heap1, head := some entry_p, tail := some entry_p, len := uadd q.len 1 }
  else
    (set_next heap1 q.tail (some entry_p)).bind fun heap2 =>
      some { heap := heap2, head := q.head, tail := some entry_p, len := uadd q.len 1 }

/-- The function `pos_dequeue` on the linked representation: the returned position and the queue
afterwards. -/
def linked_pos_dequeue (q : linked_posqueue) : Option (pos × linked_posqueue) :=
  if q.len = 0 then some (make_pos 0 0, q)
  else
    match q.head with
    | none => none
    | some h =>
      match q.heap[h]? with
      | some (some e) =>
        some (e.p,
          { heap := q.heap.set h none, head := e.next,
            tail := if usub q.len 1 = 0 then none else q.tail, len := usub q.len 1 })
      | _ => none

/-! ## board.h, board.c -/

/-- The `enum cell`. -/
inductive cell where
  | EMPTY
  | BLACK
  | WHITE
  deriving DecidableEq, Repr

/-- The `enum type`. -/
inductive type where
  | MATRIX
  | BITS
  deriving DecidableEq, Repr

/-- The `union board_rep` together with the tag that selects it: the rows of a matrix, or the
words of a bit vector. -/
inductive board_rep where
  | matrix (m : List (List cell))
  | bits (b : List Nat)
  deriving DecidableEq, Repr

/-- The `struct board`. -/
structure board where
  width : Nat
  height : Nat
  u : board_rep
  deriving DecidableEq, Repr

/-- The field `type` of a board. -/
def board.type (b : board) : type :=
  match b.u with
  | board_rep.matrix _ => type.MATRIX
  | board_rep.bits _ => type.BITS

/-- The function `board_new`. For a bit vector the number of words is computed in
`unsigned int`. For a matrix the storage is the one the two loops of the function leave when
all their writes lie inside it, `height` rows of `width` cells `EMPTY`; the loops themselves,
whose counters are `int`, are `init_matrix` below, and they end in this storage when the width
and the height are at most `2 ^ 31` (`init_matrix_eq`). Above that the loops write outside the
storage and the definition does not follow them. -/
def board_new (width height : Nat) (t : type) : board :=
  match t with
  | type.BITS =>
    let num_cells := umul width height
    let num_unsignedints := usub (uadd num_cells 16) 1 / 16
    { width := width, height := height, u := board_rep.bits (List.replicate num_unsignedints 0) }
  | type.MATRIX =>
    { width := width, height := height,
      u := board_rep.matrix (List.replicate height (List.replicate width cell.EMPTY)) }

/-- The loop `for (int j = 0; j < width; j++) matrix[i][j] = EMPTY` of `board_new` on the row of
`width` cells that `malloc` has just returned: a cell is `none` until it is written. The counter
`j` is an `int` that is compared with the `unsigned int` width; it is given here by its value as
an `unsigned int`, and the write at `matrix[i][j]` lies before the row, outside the storage,
when the counter is negative as an `int`. -/
def init_row (width : Nat) : Option (List (Option cell)) :=
  for_loop (fun j row =>
      if 0 ≤ toInt32 j ∧ j < row.length then some (row.set j (some cell.EMPTY)) else none)
    width 0 (List.replicate width none)

/-- The two loops of the matrix branch of `board_new`: the array of `height` row pointers, none
of them set at first (`none`), then for each `int i` with `i < height` a row that `init_row`
fills. The result is `none` when a write lies outside the storage. -/
def init_matrix (width height : Nat) : Option (List (Option (List (Option cell)))) :=
  for_loop (fun i rows =>
      if 0 ≤ toInt32 i ∧ i < rows.length then
        (init_row width).bind fun row => some (rows.set i (some row))
      else none)
    height 0 (List.replicate height none)

/-- The bit index `(p.r * b->width + p.c) * 2` of a position in a bit vector board of the
given width. -/
def bit_index (width : Nat) (p : pos) : Nat := umul (uadd (umul p.r width) p.c) 2

/-- The cell `board_get` returns for the two bits `cell_bits` read from a word. -/
def cell_of_bits (cell_bits : Nat) : cell :=
  if cell_bits = 0 then cell.EMPTY
  else if cell_bits = 1 then cell.BLACK
  else if cell_bits = 2 then cell.WHITE
  else cell.EMPTY

/-- The function `board_get`; `none` when the access lies outside the storage. -/
def board_get (b : board) (p : pos) : Option cell :=
  match b.u with
  | board_rep.bits ws =>
    let uint_index := bit_index b.width p / 32
    let remain := bit_index b.width p % 32
    match ws[uint_index]? with
    | none => none
    | some w => some (cell_of_bits ((w >>> remain) &&& 3))
  | board_rep.matrix m =>
    match m[p.r]? with
    | none => none
    | some row => row[p.c]?

/-- The value written for a cell in a bit vector board. -/
def cell_value (c : cell) : Nat :=
  match c with
  | cell.EMPTY => 0
  | cell.BLACK => 1
  | cell.WHITE => 2

/-- The function `board_set`; `none` when the access lies outside the storage. -/
def board_set (b : board) (p : pos) (c : cell) : Option board :=
  match b.u with
  | board_rep.bits ws =>
    if p.r > b.height ∧ p.c > b.width then some b
    else
      let uint_index := bit_index b.width p / 32
      let remain := bit_index b.width p % 32
      let value := cell_value c
      match ws[uint_index]? with
      | none => none
      | some w =>
        let w1 := w &&& unot (3 <<< remain)
        let w2 := w1 ||| ((value <<< remain) % UINT_SIZE)
        some { b with u := board_rep.bits (ws.set uint_index w2) }
  | board_rep.matrix m =>
    if p.r > b.height ∧ p.c > b.width then some b
    else
      match m[p.r]? with
      | none => none
      | some row =>
        if p.c < row.length then
          some { b with u := board_rep.matrix (m.set p.r (row.set p.c c)) }
        else none

/-! ## logic.h, logic.c -/

/-- The `enum turn`. -/
inductive turn where
  | BLACKS_TURN
  | WHITES_TURN
  deriving DecidableEq, Repr

/-- The `enum outcome`. -/
inductive outcome where
  | IN_PROGRESS
  | BLACK_WIN
  | WHITE_WIN
  | DRAW
  deriving DecidableEq, Repr

/-- The `enum rotation`. -/
inductive rotation where
  | NO_ROTATION
  | CLOCKWISE
  | COUNTERCLOCKWISE
  deriving DecidableEq, Repr

/-- The `struct game`. -/
structure game where
  run : Nat
  b : board
  black_queue : posqueue
  white_queue : posqueue
  player : turn
  last_rotation : rotation
  deriving DecidableEq, Repr

/-- The function `new_game`; `none` is the `NULL` result. -/
def new_game (run width height : Nat) (t : type) : Option game :=
  if run > width ∧ run > height then none
  else
    some { run := run, b := board_new width height t, black_queue := posqueue_new,
           white_queue := posqueue_new, player := turn.BLACKS_TURN,
           last_rotation := rotation.NO_ROTATION }

/-- The function `place_piece`: the returned flag and the game afterwards; `none` when a
board access lies outside the storage. -/
def place_piece (g : game) (p : pos) : Option (Bool × game) :=
  (board_get g.b p).bind fun v =>
    if v ≠ cell.EMPTY then some (false, g)
    else if g.player = turn.WHITES_TURN then
      (board_set g.b p cell.WHITE).bind fun b1 =>
        some (true, { g with b := b1, white_queue := pos_enqueue g.white_queue p,
                             player := turn.BLACKS_TURN,
                             last_rotation := rotation.NO_ROTATION })
    else
      (board_set g.b p cell.BLACK).bind fun b1 =>
        some (true, { g with b := b1, black_queue := pos_enqueue g.black_queue p,
                             player := turn.WHITES_TURN,
                             last_rotation := rotation.NO_ROTATION })

/-- The position a cell is moved to by a rotation of a board of the given width and height:
`(c, height - 1 - r)` clockwise and `(width - 1 - c, r)` counterclockwise, in `unsigned int`
arithmetic. -/
def rotate_pos (clockwise : Bool) (width height : Nat) (p : pos) : pos :=
  if clockwise then make_pos p.c (usub (usub height 1) p.r)
  else make_pos (usub (usub width 1) p.c) p.r

/-- The function `rotate_row` for the row `r` of the board `b` of the game: the board `n_board`
after the cells of the row are written to it. -/
def rotate_row (b : board) (clockwise : Bool) (r : Nat) (n_board : board) : Option board :=
  for_loop (fun c nb =>
      let o_pos := make_pos r c
      let n_pos := rotate_pos clockwise b.width b.height o_pos
      (board_get b o_pos).bind fun value => board_set nb n_pos value)
    b.width 0 n_board

/-- The loop of `rotate` for a bit vector board, which reads and writes the board of the game
itself. -/
def rotate_bits (b : board) (clockwise : Bool) : Option board :=
  let g_width := b.width
  let g_height := b.height
  for_loop (fun row b1 =>
      for_loop (fun col b2 =>
          let old_pos := make_pos row col
          let n_pos := rotate_pos clockwise g_width g_height old_pos
          (board_get b2 old_pos).bind fun value => board_set b2 n_pos value)
        g_width 0 b1)
    g_height 0 b

/-- The loop `while (q->len > 0)` of `rotate` that empties a queue into a new one; the first
argument bounds the number of iterations and is the length of the queue. -/
def remap_queue (n_board : board) (clockwise : Bool) : Nat → posqueue → posqueue → posqueue
  | 0, _, nq => nq
  | fuel + 1, q, nq =>
    if q.len > 0 then
      let p := (pos_dequeue q).1
      let np :=
        if clockwise then make_pos p.c (usub (usub n_board.width 1) p.r)
        else make_pos (usub (usub n_board.height 1) p.c) p.r
      remap_queue n_board clockwise fuel (pos_dequeue q).2 (pos_enqueue nq np)
    else nq

/-- The turn after a move. -/
def flip_player (t : turn) : turn :=
  if t = turn.WHITES_TURN then turn.BLACKS_TURN else turn.WHITES_TURN

/-- The part of `rotate` that builds the new board: `n_board` is allocated as a matrix with
the width and the height exchanged; for a matrix board each thread runs `rotate_row` on it, the
threads being run one after the other in the order of their rows; for a bit vector board the
loop reads and writes the board of the game. The result is the board `n_board` that `rotate`
installs in the game. The arrays `threads` and `data` that `rotate` puts on the stack and its
calls of `pthread_create` and `pthread_join` are not part of the definition: it gives the board
the threads leave once every one of them has been started and joined, and does not say that
they can be. -/
def rotate_board (b : board) (clockwise : Bool) : Option board :=
  let n_board := board_new b.height b.width type.MATRIX
  match b.type with
  | type.MATRIX => for_loop (fun i nb => rotate_row b clockwise i nb) b.height 0 n_board
  | type.BITS => (rotate_bits b clockwise).bind fun _ => some n_board

/-- The function `rotate`: the returned flag and the game afterwards; `none` when a board
access lies outside the storage. -/
def rotate (g : game) (clockwise : Bool) : Option (Bool × game) :=
  if (clockwise = true ∧ g.last_rotation = rotation.COUNTERCLOCKWISE) ∨
      (clockwise = false ∧ g.last_rotation = rotation.CLOCKWISE) then some (false, g)
  else
    (rotate_board g.b clockwise).bind fun nb =>
      some (true,
        { run := g.run, b := nb,
          black_queue := remap_queue nb clockwise g.black_queue.len g.black_queue posqueue_new,
          white_queue := remap_queue nb clockwise g.white_queue.len g.white_queue posqueue_new,
          player := if g.player = turn.BLACKS_TURN then turn.WHITES_TURN else turn.BLACKS_TURN,
          last_rotation := if clockwise then rotation.CLOCKWISE else rotation.COUNTERCLOCKWISE })

/-- The loop `while (up.r > 0 && board_get(g->b, make_pos(up.r - 1, up.c)) == EMPTY) up.r--`
of `uplift`, started at row `r` of column `c`: the row it ends at. -/
def uplift_slide (b : board) (c : Nat) : Nat → Option Nat
  | 0 => some 0
  | r + 1 =>
    (board_get b (make_pos r c)).bind fun v =>
      if v = cell.EMPTY then uplift_slide b c r else some (r + 1)

/-- The queue of `uplift` for a colour: the black queue for `BLACK`, the white queue otherwise. -/
def uplift_queue (g : game) (c : cell) : posqueue :=
  if c = cell.BLACK then g.black_queue else g.white_queue

/-- Assignment to the queue `uplift` uses for a colour. -/
def set_uplift_queue (g : game) (c : cell) (q : posqueue) : game :=
  if c = cell.BLACK then { g with black_queue := q } else { g with white_queue := q }

/-- The function `uplift`: the returned flag and the game afterwards. -/
def uplift (g : game) (c : cell) : Option (Bool × game) :=
  if (c = cell.BLACK ∧ g.black_queue.len = 0) ∨ (c = cell.WHITE ∧ g.white_queue.len = 0) then
    some (false, g)
  else
    let up := (pos_dequeue (uplift_queue g c)).1
    let g1 := set_uplift_queue g c (pos_dequeue (uplift_queue g c)).2
    let moved : Option game :=
      if up.r = 0 then
        some (set_uplift_queue g1 c (pos_enqueue (uplift_queue g1 c) up))
      else
        let original := up
        (uplift_slide g1.b up.c up.r).bind fun r1 =>
          let up1 := make_pos r1 up.c
          (board_set g1.b original cell.EMPTY).bind fun b1 =>
            (board_set b1 up1 c).bind fun b2 =>
              let g2 := { g1 with b := b2 }
              some (set_uplift_queue g2 c (pos_enqueue (uplift_queue g2 c) up1))
    moved.bind fun g3 =>
      some (true, { g3 with player := flip_player g3.player,
                            last_rotation := rotation.NO_ROTATION })

/-- The loop of `check_run` from the index `i` on, for `n` more iterations: whether all the
cells read have the colour. -/
def check_run_loop (b : board) (p : pos) (color : cell) (dr dc : Int) :
    Nat → Nat → Option Bool
  | 0, _ => some true
  | n + 1, i =>
    (board_get b (make_pos (uadd p.r (toUInt32 ((i : Int) * dr)))
        (uadd p.c (toUInt32 ((i : Int) * dc))))).bind fun v =>
      if v ≠ color then some false else check_run_loop b p color dr dc n (i + 1)

/-- The function `check_run`; the loop `for (int i = 0; i < run; i++)` runs `run` times, and
not at all when `run` is negative. -/
def check_run (b : board) (p : pos) (color : cell) (dr dc : Int) (run : Int) : Option outcome :=
  (check_run_loop b p color dr dc run.toNat 0).bind fun all_equal =>
    if all_equal = false then some outcome.IN_PROGRESS
    else if color = cell.BLACK then some outcome.BLACK_WIN
    else some outcome.WHITE_WIN

/-- A loop `for (i = i0; i < i0 + n; i++)` whose body can return from the function: the body
yields `some (some a)` to return `a` and `some none` to go on with the next iteration; the loop
yields `some none` when it ends without a return. -/
def for_return {α : Type} (body : Nat → Option (Option α)) : Nat → Nat → Option (Option α)
  | 0, _ => some none
  | n + 1, i =>
    (body i).bind fun res =>
      match res with
      | some a => some (some a)
      | none => for_return body n (i + 1)

/-- One of the four guarded calls of `check_run` in `game_outcome`, with the test
`check != IN_PROGRESS` that follows it: `some (some check)` when `check` is returned. -/
def try_run (guard : Bool) (b : board) (p : pos) (color : cell) (dr dc : Int) (run : Int) :
    Option (Option outcome) :=
  if guard then
    (check_run b p color dr dc run).bind fun check =>
      if check ≠ outcome.IN_PROGRESS then some (some check) else some none
  else some none

/-- The body of the first pair of loops of `game_outcome` at the cell `(r, c)`. The counters
`r` and `c` are given by their values as `unsigned int`. -/
def scan_cell (g : game) (r c : Nat) : Option (Option outcome) :=
  let run : Int := toInt32 g.run
  let p := make_pos r c
  (board_get g.b p).bind fun color =>
    if color = cell.EMPTY then some none
    else
      let fits_w : Bool := toUInt32 (wrapInt32 (toInt32 c + run)) ≤ g.b.width
      let fits_h : Bool := toUInt32 (wrapInt32 (toInt32 r + run)) ≤ g.b.height
      let fits_up : Bool := 0 ≤ wrapInt32 (wrapInt32 (toInt32 r - run) + 1)
      (try_run fits_w g.b p color 0 1 run).bind fun res1 =>
      match res1 with
      | some check => some (some check)
      | none =>
      (try_run fits_h g.b p color 1 0 run).bind fun res2 =>
      match res2 with
      | some check => some (some check)
      | none =>
      (try_run (fits_w && fits_h) g.b p color 1 1 run).bind fun res3 =>
      match res3 with
      | some check => some (some check)
      | none => try_run (fits_w && fits_up) g.b p color (-1) 1 run

/-- The body of the second pair of loops of `game_outcome` at the cell `(r, c)`. -/
def empty_cell (g : game) (r c : Nat) : Option (Option outcome) :=
  (board_get g.b (make_pos r c)).bind fun v =>
    if v = cell.EMPTY then some (some outcome.IN_PROGRESS) else some none

/-- The function `game_outcome`. -/
def game_outcome (g : game) : Option outcome :=
  (for_return (fun r => for_return (fun c => scan_cell g r c) g.b.width 0) g.b.height 0).bind
    fun res1 =>
      match res1 with
      | some check => some check
      | none =>
        (for_return (fun r => for_return (fun c => empty_cell g r c) g.b.width 0)
            g.b.height 0).bind fun res2 =>
          match res2 with
          | some o => some o
          | none => some outcome.DRAW

/-! ## Vocabulary of the statements -/

/-- The position lies on the board: its row is below the height and its column below the
width. -/
def in_bounds (b : board) (p : pos) : Prop := p.r < b.height ∧ p.c < b.width

instance (b : board) (p : pos) : Decidable (in_bounds b p) :=
  inferInstanceAs (Decidable (p.r < b.height ∧ p.c < b.width))

/-- The storage has the size `board_new` allocates for the width and the height of the board:
`height` rows of `width` cells for a matrix, and the number of words computed by `board_new`
for a bit vector. -/
def storage_ok (width height : Nat) : board_rep → Prop
  | board_rep.matrix m => m.length = height ∧ ∀ row ∈ m, row.length = width
  | board_rep.bits ws => ws.length = usub (uadd (umul width height) 16) 1 / 16

instance (width height : Nat) : (u : board_rep) → Decidable (storage_ok width height u)
  | board_rep.matrix m =>
    inferInstanceAs (Decidable (m.length = height ∧ ∀ row ∈ m, row.length = width))
  | board_rep.bits ws =>
    inferInstanceAs (Decidable (ws.length = usub (uadd (umul width height) 16) 1 / 16))

/-- A board whose storage has the size `board_new` gives it. -/
def board.wf (b : board) : Prop := storage_ok b.width b.height b.u

instance (b : board) : Decidable b.wf :=
  inferInstanceAs (Decidable (storage_ok b.width b.height b.u))

/-- The bit index of every cell of a bit vector board is below `2 ^ 32`: the board has at most
`2 ^ 31` cells. A matrix board has no such bound. -/
def board.fits (b : board) : Prop := b.type = type.BITS → b.width * b.height ≤ 2147483648

instance (b : board) : Decidable b.fits :=
  inferInstanceAs (Decidable (b.type = type.BITS → b.width * b.height ≤ 2147483648))

/-- The state of the new board of a rotation of the matrix board `b` when the first `k` cells
of `b`, in the order of the rows, have been copied: it has the width and the height of `b`
exchanged, and every one of these cells is read at its rotated position. -/
def rotated_upto (b : board) (clockwise : Bool) (k : Nat) (nb : board) : Prop :=
  nb.width = b.height ∧ nb.height = b.width ∧ nb.type = type.MATRIX ∧ nb.wf ∧
  ∀ p : pos, p.r < b.height → p.c < b.width → p.r * b.width + p.c < k →
    board_get nb (rotate_pos clockwise b.width b.height p) = board_get b p

/-- The colour of the pieces of the player whose turn it is. -/
def player_cell (t : turn) : cell :=
  if t = turn.WHITES_TURN then cell.WHITE else cell.BLACK

/-- The queue `uplift` leaves alone for a colour: the white queue for `BLACK`, the black queue
otherwise. -/
def other_queue (g : game) (c : cell) : posqueue :=
  if c = cell.BLACK then g.white_queue else g.black_queue

/-- The outcome `check_run` returns for a run of the colour: `BLACK_WIN` for `BLACK` and
`WHITE_WIN` otherwise. -/
def win_of (c : cell) : outcome :=
  if c = cell.BLACK then outcome.BLACK_WIN else outcome.WHITE_WIN

/-- The `n` positions `cells 0`, ..., `cells (n - 1)` are in-bounds and their cells have the
colour `col`. -/
def run_along (b : board) (n : Nat) (col : cell) (cells : Nat → pos) : Prop :=
  ∀ i, i < n → in_bounds b (cells i) ∧ board_get b (cells i) = some col

/-- A run of `n` cells of the colour `col` starts at `(r, c)`: along the row to the right, along
the column downwards, along the diagonal down and to the right, or along the diagonal up and to
the right. -/
def starts_run (b : board) (n : Nat) (col : cell) (r c : Nat) : Prop :=
  run_along b n col (fun i => make_pos r (c + i)) ∨
  run_along b n col (fun i => make_pos (r + i) c) ∨
  run_along b n col (fun i => make_pos (r + i) (c + i)) ∨
  (n ≤ r + 1 ∧ run_along b n col (fun i => make_pos (r - i) (c + i)))

instance (b : board) (n : Nat) (col : cell) (cells : Nat → pos) :
    Decidable (run_along b n col cells) :=
  inferInstanceAs
    (Decidable (∀ i, i < n → in_bounds b (cells i) ∧ board_get b (cells i) = some col))

instance (b : board) (n : Nat) (col : cell) (r c : Nat) : Decidable (starts_run b n col r c) :=
  inferInstanceAs (Decidable (
    run_along b n col (fun i => make_pos r (c + i)) ∨
    run_along b n col (fun i => make_pos (r + i) c) ∨
    run_along b n col (fun i => make_pos (r + i) (c + i)) ∨
    (n ≤ r + 1 ∧ run_along b n col (fun i => make_pos (r - i) (c + i)))))

/-- The board contains `n` consecutive in-bounds cells of the colour `col` along a row, a column
or a diagonal. -/
def has_run (b : board) (n : Nat) (col : cell) : Prop := ∃ r c, starts_run b n col r c

/-- Every cell of the board can be read: the reads of in-bounds positions lie inside the
storage. -/
def board_readable (b : board) : Prop := ∀ p, in_bounds b p → ∃ v, board_get b p = some v

/-- Some cell of the board is `EMPTY`. -/
def has_empty (b : board) : Prop := ∃ p, in_bounds b p ∧ board_get b p = some cell.EMPTY

/-- The calls `pos_enqueue(q, p1); ...; pos_enqueue(q, pn)`. -/
def enqueue_all : linked_posqueue → List pos → Option linked_posqueue
  | q, [] => some q
  | q, p :: ps => (linked_pos_enqueue q p).bind fun q1 => enqueue_all q1 ps

/-- The results of `n` calls `pos_dequeue(q)` in the order of the calls, and the queue
afterwards. -/
def dequeue_all : Nat → linked_posqueue → Option (List pos × linked_posqueue)
  | 0, q => some ([], q)
  | n + 1, q =>
    (linked_pos_dequeue q).bind fun r =>
      (dequeue_all n r.2).bind fun s => some (r.1 :: s.1, s.2)

/-- The entries at the addresses `addrs` hold the positions `xs` in this order, each one linked
to the next and the last one to `NULL`. -/
def linked_at (heap : List (Option pq_entry)) : List Nat → List pos → Prop
  | [], [] => True
  | a :: rest, x :: xs =>
    heap[a]? = some (some { p := x, next := rest.head? }) ∧ linked_at heap rest xs
  | _, _ => False

/-- The queue holds the positions `xs`, oldest first: `head` points to a chain of distinct live
entries with these positions, `tail` to the last of them, and `len` is their number. -/
def holds (q : linked_posqueue) (xs : List pos) : Prop :=
  ∃ addrs : List Nat, addrs.Nodup ∧ linked_at q.heap addrs xs ∧ q.head = addrs.head? ∧
    q.tail = addrs.getLast? ∧ q.len = xs.length ∧ xs.length < UINT_SIZE

/-- The calls of `rotate_row` for the rows of the list, one after the other in the order of
the list, on the new board `n_board`. -/
def rotate_rows (b : board) (clockwise : Bool) : List Nat → board → Option board
  | [], n_board => some n_board
  | r :: rest, n_board =>
    (rotate_row b clockwise r n_board).bind fun nb => rotate_rows b clockwise rest nb

/-- The state of the new board of a rotation of the matrix board `b` when `rotate_row` has run
for the rows that satisfy `done`: it has the width and the height of `b` exchanged, and every
cell of these rows is read at its rotated position. -/
def rows_done (b : board) (clockwise : Bool) (done : Nat → Prop) (nb : board) : Prop :=
  nb.width = b.height ∧ nb.height = b.width ∧ nb.type = type.MATRIX ∧ nb.wf ∧
  ∀ p : pos, in_bounds b p → done p.r →
    board_get nb (rotate_pos clockwise b.width b.height p) = board_get b p

/-- The states of a game on a matrix board that the calls of the interface reach: `new_game`
with `unsigned int` arguments, then `place_piece` at in-bounds positions, `rotate`, and `uplift`
of `BLACK` or `WHITE`, whatever they return. -/
inductive reachable : game → Prop where
  | start (run width height : Nat) (g : game) (hw : width < UINT_SIZE)
      (hh : height < UINT_SIZE) (hnew : new_game run width height type.MATRIX = some g) :
      reachable g
  | place (g g1 : game) (p : pos) (ok : Bool) (hg : reachable g) (hp : in_bounds g.b p)
      (hcall : place_piece g p = some (ok, g1)) : reachable g1
  | turned (g g1 : game) (clockwise ok : Bool) (hg : reachable g)
      (hcall : rotate g clockwise = some (ok, g1)) : reachable g1
  | lifted (g g1 : game) (c : cell) (ok : Bool) (hg : reachable g)
      (hc : c = cell.BLACK ∨ c = cell.WHITE) (hcall : uplift g c = some (ok, g1)) :
      reachable g1

/-- The queue holds no position twice, and its positions are the in-bounds positions of the
board whose cell has the colour. -/
def tracks (q : posqueue) (b : board) (col : cell) : Prop :=
  q.entries.Nodup ∧ ∀ p, p ∈ q.entries ↔ in_bounds b p ∧ board_get b p = some col

/-- The in-bounds positions of the board, in the order of the rows. -/
def all_positions (b : board) : List pos :=
  (List.range b.height).flatMap fun r => (List.range b.width).map fun c => make_pos r c

/-- The in-bounds positions of the board whose cell has the colour, in the order of the
rows. -/
def pieces (b : board) (col : cell) : List pos :=
  (all_positions b).filter fun p => board_get b p = some col

/-- The consistency of a game on a matrix board: the board is a matrix with its storage and
`unsigned int` width and height, and each queue tracks the cells of its colour. -/
def consistent (g : game) : Prop :=
  g.b.type = type.MATRIX ∧ g.b.wf ∧ g.b.width < UINT_SIZE ∧ g.b.height < UINT_SIZE ∧
  tracks g.black_queue g.b cell.BLACK ∧ tracks g.white_queue g.b cell.WHITE

/-! ## Games used as examples -/

/-- The bit vector board of width `1` and height `2 ^ 31`, with the `2 ^ 27` words `board_new`
allocates for it, all `0` but the first, which is `w0`. -/
def tall_board (w0 : Nat) : board :=
  { width := 1, height := 2147483648,
    u := board_rep.bits ((List.replicate 134217728 0).set 0 w0) }

/-- The game `new_game(2147483648, 1, 2147483648, BITS)` after `place_piece` at `(0, 0)`: one
black piece, and a run length of `2 ^ 31`. -/
def tall_game_one : game :=
  { run := 2147483648, b := tall_board 1, black_queue := { entries := [make_pos 0 0] },
    white_queue := posqueue_new, player := turn.WHITES_TURN,
    last_rotation := rotation.NO_ROTATION }

/-- The game `new_game(2147483648, 1, 2147483648, BITS)` after `place_piece` at `(0, 0)` and at
`(1, 0)`: a black piece above a white piece, and a run length of `2 ^ 31`. -/
def tall_game_two : game :=
  { run := 2147483648, b := tall_board 9, black_queue := { entries := [make_pos 0 0] },
    white_queue := { entries := [make_pos 1 0] }, player := turn.BLACKS_TURN,
    last_rotation := rotation.NO_ROTATION }

/-- The game `new_game(4, 65536, 32769, BITS)`: a bit vector board of `65536 * 32769` cells,
more than `2 ^ 31`. -/
def wide_game_new : game :=
  { run := 4, b := board_new 65536 32769 type.BITS, black_queue := posqueue_new,
    white_queue := posqueue_new, player := turn.BLACKS_TURN,
    last_rotation := rotation.NO_ROTATION }

/-- The game `new_game(4, 65536, 32769, BITS)` after `place_piece` at `(32768, 0)`, which writes
the bits `0` and `1` of the word `0`, and at `(32766, 0)`, which writes the bits `0` and `1` of
the word `134209536`. -/
def wide_game_two : game :=
  { run := 4,
    b := { width := 65536, height := 32769,
           u := board_rep.bits (((List.replicate 134221824 0).set 0 1).set 134209536 2) },
    black_queue := { entries := [make_pos 32768 0] },
    white_queue := { entries := [make_pos 32766 0] },
    player := turn.BLACKS_TURN, last_rotation := rotation.NO_ROTATION }

/-- A game on a matrix board of width `3` and height `2`: `new_game(3, 3, 2, MATRIX)` after
`place_piece` at `(0, 0)`, `(0, 1)` and `(1, 1)`. -/
def demo_matrix_game : game :=
  { run := 3,
    b := { width := 3, height := 2,
           u := board_rep.matrix [[cell.BLACK, cell.WHITE, cell.EMPTY],
                                  [cell.EMPTY, cell.BLACK, cell.EMPTY]] },
    black_queue := { entries := [make_pos 0 0, make_pos 1 1] },
    white_queue := { entries := [make_pos 0 1] },
    player := turn.WHITES_TURN, last_rotation := rotation.NO_ROTATION }

/-- The game `demo_matrix_game` rotated clockwise. -/
def demo_matrix_game_cw : game :=
  { run := 3,
    b := { width := 2, height := 3,
           u := board_rep.matrix [[cell.EMPTY, cell.BLACK],
                                  [cell.BLACK, cell.WHITE],
                                  [cell.EMPTY, cell.EMPTY]] },
    black_queue := { entries := [make_pos 0 1, make_pos 1 0] },
    white_queue := { entries := [make_pos 1 1] },
    player := turn.BLACKS_TURN, last_rotation := rotation.CLOCKWISE }

/-- The game `demo_matrix_game` rotated counterclockwise. -/
def demo_matrix_game_ccw : game :=
  { run := 3,
    b := { width := 2, height := 3,
           u := board_rep.matrix [[cell.EMPTY, cell.EMPTY],
                                  [cell.WHITE, cell.BLACK],
                                  [cell.BLACK, cell.EMPTY]] },
    black_queue := { entries := [make_pos 2 0, make_pos 1 1] },
    white_queue := { entries := [make_pos 1 0] },
    player := turn.BLACKS_TURN, last_rotation := rotation.COUNTERCLOCKWISE }

/-- The game of the test `rotate, test1_clock` before the rotation: `new_game(3, 3, 3, BITS)`
after `place_piece` at `(0, 0)`, `(0, 1)` and `(1, 1)`. -/
def demo_bits_game : game :=
  { run := 3, b := { width := 3, height := 3, u := board_rep.bits [265] },
    black_queue := { entries := [make_pos 0 0, make_pos 1 1] },
    white_queue := { entries := [make_pos 0 1] },
    player := turn.WHITES_TURN, last_rotation := rotation.NO_ROTATION }

/-- The game `rotate` makes of `demo_bits_game`, clockwise. -/
def demo_bits_game_cw : game :=
  { run := 3,
    b := { width := 3, height := 3,
           u := board_rep.matrix [[cell.EMPTY, cell.EMPTY, cell.EMPTY],
                                  [cell.EMPTY, cell.EMPTY, cell.EMPTY],
                                  [cell.EMPTY, cell.EMPTY, cell.EMPTY]] },
    black_queue := { entries := [make_pos 0 2, make_pos 1 1] },
    white_queue := { entries := [make_pos 1 2] },
    player := turn.BLACKS_TURN, last_rotation := rotation.CLOCKWISE }

/-- The game of the test `uplift, easy` before the uplift: `new_game(3, 3, 3, BITS)` after
`place_piece` at `(2, 2)` and `(0, 0)`. -/
def demo_uplift_game : game :=
  { run := 3, b := { width := 3, height := 3, u := board_rep.bits [65538] },
    black_queue := { entries := [make_pos 2 2] },
    white_queue := { entries := [make_pos 0 0] },
    player := turn.BLACKS_TURN, last_rotation := rotation.NO_ROTATION }

/-- The game `uplift` of `BLACK` makes of `demo_uplift_game`. -/
def demo_uplift_game_up : game :=
  { run := 3, b := { width := 3, height := 3, u := board_rep.bits [18] },
    black_queue := { entries := [make_pos 0 2] },
    white_queue := { entries := [make_pos 0 0] },
    player := turn.WHITES_TURN, last_rotation := rotation.NO_ROTATION }

/-- The game of the test `game_outcome, horizontal`: `new_game(3, 3, 3, BITS)` after
`place_piece` at `(0, 0)`, `(1, 0)`, `(0, 1)`, `(1, 1)` and `(0, 2)`. -/
def demo_win_game : game :=
  { run := 3, b := { width := 3, height := 3, u := board_rep.bits [661] },
    black_queue := { entries := [make_pos 0 0, make_pos 0 1, make_pos 0 2] },
    white_queue := { entries := [make_pos 1 0, make_pos 1 1] },
    player := turn.WHITES_TURN, last_rotation := rotation.NO_ROTATION }

/-- The game `new_game(3, 3, 3, MATRIX)`. -/
def demo_new_game : game :=
  { run := 3, b := board_new 3 3 type.MATRIX, black_queue := posqueue_new,
    white_queue := posqueue_new, player := turn.BLACKS_TURN,
    last_rotation := rotation.NO_ROTATION }

/-- A game on a square matrix board: `new_game(3, 3, 3, MATRIX)` after `place_piece` at
`(0, 0)` and `(0, 1)`. -/
def demo_square_game : game :=
  { run := 3,
    b := { width := 3, height := 3,
           u := board_rep.matrix [[cell.BLACK, cell.WHITE, cell.EMPTY],
                                  [cell.EMPTY, cell.EMPTY, cell.EMPTY],
                                  [cell.EMPTY, cell.EMPTY, cell.EMPTY]] },
    black_queue := { entries := [make_pos 0 0] },
    white_queue := { entries := [make_pos 0 1] },
    player := turn.BLACKS_TURN, last_rotation := rotation.NO_ROTATION }

/-- The game `demo_square_game` rotated counterclockwise. -/
def demo_square_game_ccw : game :=
  { run := 3,
    b := { width := 3, height := 3,
           u := board_rep.matrix [[cell.EMPTY, cell.EMPTY, cell.EMPTY],
                                  [cell.WHITE, cell.EMPTY, cell.EMPTY],
                                  [cell.BLACK, cell.EMPTY, cell.EMPTY]] },
    black_queue := { entries := [make_pos 2 0] },
    white_queue := { entries := [make_pos 1 0] },
    player := turn.WHITES_TURN, last_rotation := rotation.COUNTERCLOCKWISE }

/-- A queue of two entries: `posqueue_new` after `pos_enqueue` of `(1, 2)` and `(3, 4)`. -/
def demo_linked_queue : linked_posqueue :=
  { heap := [some { p := make_pos 1 2, next := some 1 }, some { p := make_pos 3 4, next := none }],
    head := some 0, tail := some 1, len := 2 }

/-- A queue of one entry: `posqueue_new` after `pos_enqueue` of `(0, 0)`. -/
def demo_origin_queue : linked_posqueue :=
  { heap := [some { p := make_pos 0 0, next := none }], head := some 0, tail := some 0,
    len := 1 }

/-- The matrix board of height `2 ^ 31` whose first row is `first` and whose other rows are all
`row`. -/
def tall_matrix (width : Nat) (first row : List cell) : board :=
  { width := width, height := 2147483648,
    u := board_rep.matrix ((List.replicate 2147483648 row).set 0 first) }

/-- The game `new_game(2147483648, 2147483648, 1, MATRIX)` after `place_piece` at `(0, 0)`: one
black piece on a matrix board of width `2 ^ 31` and height `1`, and a run length of `2 ^ 31`. -/
def wide_lone_game : game :=
  { run := 2147483648,
    b := { width := 2147483648, height := 1,
           u := board_rep.matrix [(List.replicate 2147483648 cell.EMPTY).set 0 cell.BLACK] },
    black_queue := { entries := [make_pos 0 0] }, white_queue := posqueue_new,
    player := turn.WHITES_TURN, last_rotation := rotation.NO_ROTATION }

/-- The games `demo_square_game` becomes by one, two, three and four clockwise calls of
`rotate`. -/
def demo_square_turn1 : game :=
  { run := 3,
    b := { width := 3, height := 3,
           u := board_rep.matrix [[cell.EMPTY, cell.EMPTY, cell.BLACK],
                                  [cell.EMPTY, cell.EMPTY, cell.WHITE],
                                  [cell.EMPTY, cell.EMPTY, cell.EMPTY]] },
    black_queue := { entries := [make_pos 0 2] },
    white_queue := { entries := [make_pos 1 2] },
    player := turn.WHITES_TURN, last_rotation := rotation.CLOCKWISE }

def demo_square_turn2 : game :=
  { run := 3,
    b := { width := 3, height := 3,
           u := board_rep.matrix [[cell.EMPTY, cell.EMPTY, cell.EMPTY],
                                  [cell.EMPTY, cell.EMPTY, cell.EMPTY],
                                  [cell.EMPTY, cell.WHITE, cell.BLACK]] },
    black_queue := { entries := [make_pos 2 2] },
    white_queue := { entries := [make_pos 2 1] },
    player := turn.BLACKS_TURN, last_rotation := rotation.CLOCKWISE }

def demo_square_turn3 : game :=
  { run := 3,
    b := { width := 3, height := 3,
           u := board_rep.matrix [[cell.EMPTY, cell.EMPTY, cell.EMPTY],
                                  [cell.WHITE, cell.EMPTY, cell.EMPTY],
                                  [cell.BLACK, cell.EMPTY, cell.EMPTY]] },
    black_queue := { entries := [make_pos 2 0] },
    white_queue := { entries := [make_pos 1 0] },
    player := turn.WHITES_TURN, last_rotation := rotation.CLOCKWISE }

def demo_square_turn4 : game :=
  { run := 3,
    b := { width := 3, height := 3,
           u := board_rep.matrix [[cell.BLACK, cell.WHITE, cell.EMPTY],
                                  [cell.EMPTY, cell.EMPTY, cell.EMPTY],
                                  [cell.EMPTY, cell.EMPTY, cell.EMPTY]] },
    black_queue := { entries := [make_pos 0 0] },
    white_queue := { entries := [make_pos 0 1] },
    player := turn.BLACKS_TURN, last_rotation := rotation.CLOCKWISE }

/-- A full board without a run of three: `new_game(3, 3, 3, MATRIX)` after nine calls of
`place_piece`, black at `(0, 0)`, `(0, 2)`, `(1, 0)`, `(2, 1)`, `(2, 2)` and white at `(0, 1)`,
`(1, 1)`, `(1, 2)`, `(2, 0)`. -/
def demo_draw_game : game :=
  { run := 3,
    b := { width := 3, height := 3,
           u := board_rep.matrix [[cell.BLACK, cell.WHITE, cell.BLACK],
                                  [cell.BLACK, cell.WHITE, cell.WHITE],
                                  [cell.WHITE, cell.BLACK, cell.BLACK]] },
    black_queue := { entries := [make_pos 0 0, make_pos 0 2, make_pos 1 0, make_pos 2 1,
                                 make_pos 2 2] },
    white_queue := { entries := [make_pos 0 1, make_pos 1 1, make_pos 1 2, make_pos 2 0] },
    player := turn.WHITES_TURN, last_rotation := rotation.NO_ROTATION }

theorem usub_of_le {a b : Nat} (hb : b ≤ a) (ha : a < UINT_SIZE) : usub a b = a - b := by
  simp only [usub, UINT_SIZE] at *
  omega

theorem three_testBit (i : Nat) : Nat.testBit 3 i = decide (i < 2) := by
  have h := Nat.testBit_two_pow_sub_one 2 i
  simpa using h

theorem testBit_small {v : Nat} (hv : v < 4) {j : Nat} (hj : 2 ≤ j) : Nat.testBit v j = false := by
  apply Nat.testBit_lt_two_pow
  calc v < 4 := hv
    _ = 2 ^ 2 := by norm_num
    _ ≤ 2 ^ j := Nat.pow_le_pow_right (by norm_num) hj

/-- The bits of the word written by `board_set`. -/
theorem set_word_testBit (w v rem i : Nat) :
    Nat.testBit ((w &&& unot (3 <<< rem)) ||| ((v <<< rem) % UINT_SIZE)) i =
      (decide (i < 32) &&
        ((Nat.testBit w i && !(decide (rem ≤ i) && decide (i - rem < 2))) ||
          (decide (rem ≤ i) && Nat.testBit v (i - rem)))) := by
  have h32 : UINT_SIZE = 2 ^ 32 := by norm_num [UINT_SIZE]
  simp only [unot, h32, Nat.testBit_lor, Nat.testBit_land, Nat.testBit_xor,
    Nat.testBit_mod_two_pow, Nat.testBit_shiftLeft, three_testBit]
  have hm : Nat.testBit (2 ^ 32 - 1) i = decide (i < 32) := Nat.testBit_two_pow_sub_one 32 i
  norm_num at hm ⊢
  rw [hm]
  by_cases h1 : i < 32 <;> by_cases h2 : rem ≤ i <;> by_cases h3 : i - rem < 2 <;>
    cases Nat.testBit w i <;> cases Nat.testBit v (i - rem) <;> simp [h1, h2, h3]

theorem read_word_same (w v rem : Nat) (hv : v < 4) (hrem : rem ≤ 30) :
    (((w &&& unot (3 <<< rem)) ||| ((v <<< rem) % UINT_SIZE)) >>> rem) &&& 3 = v := by
  apply Nat.eq_of_testBit_eq
  intro j
  rw [Nat.testBit_land, Nat.testBit_shiftRight, set_word_testBit, three_testBit]
  by_cases hj : j < 2
  · have h1 : rem + j < 32 := by omega
    have h2 : rem + j - rem = j := by omega
    simp [h1, h2, hj]
  · have h2 : Nat.testBit v j = false := testBit_small hv (by omega)
    simp [hj, h2]

theorem read_word_other (w v rem rem1 : Nat) (hv : v < 4) (hrem1 : rem1 ≤ 30)
    (he : rem % 2 = 0) (he1 : rem1 % 2 = 0) (hne : rem ≠ rem1) :
    (((w &&& unot (3 <<< rem)) ||| ((v <<< rem) % UINT_SIZE)) >>> rem1) &&& 3 =
      (w >>> rem1) &&& 3 := by
  apply Nat.eq_of_testBit_eq
  intro j
  rw [Nat.testBit_land, Nat.testBit_shiftRight, set_word_testBit, three_testBit,
    Nat.testBit_land, Nat.testBit_shiftRight, three_testBit]
  by_cases hj : j < 2
  · have h1 : rem1 + j < 32 := by omega
    by_cases h2 : rem ≤ rem1 + j
    · have h3 : ¬ (rem1 + j - rem < 2) := by omega
      have h4 : Nat.testBit v (rem1 + j - rem) = false := testBit_small hv (by omega)
      simp [h1, h2, h3, h4, hj]
    · simp [h1, h2, hj]
  · simp [hj]

theorem toInt32_of_lt {n : Nat} (h : n < 2147483648) : toInt32 n = (n : Int) := by
  unfold toInt32 UINT_SIZE
  have h1 : n % 4294967296 = n := Nat.mod_eq_of_lt (by omega)
  rw [h1, if_pos h]

theorem toUInt32_ofNat {n : Nat} (h : n < 4294967296) : toUInt32 (n : Int) = n := by
  unfold toUInt32
  omega

theorem wrapInt32_of_range {x : Int} (h1 : -2147483648 ≤ x) (h2 : x < 2147483648) :
    wrapInt32 x = x := by
  unfold wrapInt32 toInt32 toUInt32 UINT_SIZE
  split <;> omega

theorem toUInt32_wrapInt32 (x : Int) : toUInt32 (wrapInt32 x) = toUInt32 x := by
  unfold wrapInt32 toInt32 toUInt32 UINT_SIZE
  split <;> omega

theorem toInt32_toNat {n : Nat} (hn : n < 2147483648) : (toInt32 n).toNat = n := by
  rw [toInt32_of_lt hn]
  omega

/-! ## Loops -/

/-- An invariant of the body of a `for` loop that has run to its end holds after the loop. -/
theorem for_loop_inv {σ : Type} (body : Nat → σ → Option σ) (P : Nat → σ → Prop) :
    ∀ (n i : Nat) (s s1 : σ), for_loop body n i s = some s1 → P i s →
      (∀ j t t1, i ≤ j → j < i + n → P j t → body j t = some t1 → P (j + 1) t1) →
      P (i + n) s1 := by
  intro n
  induction n with
  | zero =>
    intro i s s1 h h0 _
    simp only [for_loop, Option.some.injEq] at h
    subst h
    exact h0
  | succ n ih =>
    intro i s s1 h h0 hstep
    simp only [for_loop] at h
    cases hb : body i s with
    | none => rw [hb] at h; simp at h
    | some t =>
      rw [hb] at h
      simp only [Option.some_bind] at h
      have h1 : P (i + 1) t := hstep i s t (Nat.le_refl i) (by omega) h0 hb
      have := ih (i + 1) t s1 h h1 (fun j u u1 hj hj1 => hstep j u u1 (by omega) (by omega))
      have e : i + 1 + n = i + (n + 1) := by omega
      rw [e] at this
      exact this

/-- A `for` loop whose body succeeds on every state that satisfies an invariant, and keeps the
invariant, runs to its end. -/
theorem for_loop_total {σ : Type} (body : Nat → σ → Option σ) (P : Nat → σ → Prop) :
    ∀ (n i : Nat) (s : σ), P i s →
      (∀ j t, i ≤ j → j < i + n → P j t → ∃ t1, body j t = some t1 ∧ P (j + 1) t1) →
      ∃ s1, for_loop body n i s = some s1 ∧ P (i + n) s1 := by
  intro n
  induction n with
  | zero =>
    intro i s h0 _
    exact ⟨s, rfl, h0⟩
  | succ n ih =>
    intro i s h0 hstep
    obtain ⟨t, hb, ht⟩ := hstep i s (Nat.le_refl i) (by omega) h0
    obtain ⟨s1, hs1, hP⟩ := ih (i + 1) t ht (fun j u hj hj1 => hstep j u (by omega) (by omega))
    refine ⟨s1, ?_, ?_⟩
    · simp only [for_loop, hb, Option.some_bind]
      exact hs1
    · have e : i + 1 + n = i + (n + 1) := by omega
      rw [← e]
      exact hP

theorem for_return_first {α : Type} (body : Nat → Option (Option α)) (n i : Nat) (a : α)
    (h : body i = some (some a)) : for_return body (n + 1) i = some (some a) := by
  simp only [for_return, h, Option.some_bind]

/-- A loop with returns whose body never fails either ends without a return, every iteration
going on, or returns at the first iteration that returns. -/
theorem for_return_spec {α : Type} (body : Nat → Option (Option α)) :
    ∀ n i, (∀ j, i ≤ j → j < i + n → ∃ x, body j = some x) →
      (for_return body n i = some none ∧ ∀ j, i ≤ j → j < i + n → body j = some none) ∨
      (∃ k a, i ≤ k ∧ k < i + n ∧ body k = some (some a) ∧
        (∀ j, i ≤ j → j < k → body j = some none) ∧
        for_return body n i = some (some a)) := by
  intro n
  induction n with
  | zero =>
    intro i _
    exact Or.inl ⟨rfl, fun j h1 h2 => by omega⟩
  | succ n ih =>
    intro i htot
    obtain ⟨x, hx⟩ := htot i (Nat.le_refl i) (by omega)
    cases x with
    | some a =>
      refine Or.inr ⟨i, a, Nat.le_refl i, by omega, hx, fun j h1 h2 => by omega, ?_⟩
      simp only [for_return, hx, Option.some_bind]
    | none =>
      have hfr : for_return body (n + 1) i = for_return body n (i + 1) := by
        simp only [for_return, hx, Option.some_bind]
      rcases ih (i + 1) (fun j h1 h2 => htot j (by omega) (by omega)) with ⟨h1, h2⟩ | h
      · refine Or.inl ⟨hfr.trans h1, ?_⟩
        intro j hj1 hj2
        by_cases hj : j = i
        · rw [hj]; exact hx
        · exact h2 j (by omega) (by omega)
      · obtain ⟨k, a, hk1, hk2, hk3, hk4, hk5⟩ := h
        refine Or.inr ⟨k, a, by omega, by omega, hk3, ?_, hfr.trans hk5⟩
        intro j hj1 hj2
        by_cases hj : j = i
        · rw [hj]; exact hx
        · exact hk4 j (by omega) hj2

/-- The pair of nested loops over the rows and the columns: it ends without a return when no
cell returns, and returns what the first cell that returns, in the order of the rows, does. -/
theorem for_return_nested {α : Type} (cellbody : Nat → Nat → Option (Option α)) (w h : Nat)
    (htot : ∀ r c, r < h → c < w → ∃ x, cellbody r c = some x) :
    (for_return (fun r => for_return (fun c => cellbody r c) w 0) h 0 = some none ∧
      ∀ r c, r < h → c < w → cellbody r c = some none) ∨
    (∃ r c a, r < h ∧ c < w ∧ cellbody r c = some (some a) ∧
      (∀ r1 c1, r1 < h → c1 < w → (r1 < r ∨ (r1 = r ∧ c1 < c)) → cellbody r1 c1 = some none) ∧
      for_return (fun r => for_return (fun c => cellbody r c) w 0) h 0 = some (some a)) := by
  have hrow : ∀ r, r < h →
      (for_return (fun c => cellbody r c) w 0 = some none ∧
        ∀ c, c < w → cellbody r c = some none) ∨
      (∃ c a, c < w ∧ cellbody r c = some (some a) ∧
        (∀ c1, c1 < c → cellbody r c1 = some none) ∧
        for_return (fun c => cellbody r c) w 0 = some (some a)) := by
    intro r hr
    rcases for_return_spec (fun c => cellbody r c) w 0
      (fun j _ hj => htot r j hr (by omega)) with ⟨h1, h2⟩ | ⟨k, a, _, hk2, hk3, hk4, hk5⟩
    · exact Or.inl ⟨h1, fun c hc => h2 c (Nat.zero_le c) (by omega)⟩
    · exact Or.inr ⟨k, a, by omega, hk3, fun c1 hc1 => hk4 c1 (Nat.zero_le c1) hc1, hk5⟩
  rcases for_return_spec (fun r => for_return (fun c => cellbody r c) w 0) h 0
    (fun j _ hj => by
      rcases hrow j (by omega) with ⟨h1, _⟩ | ⟨_, a, _, _, _, h5⟩
      · exact ⟨_, h1⟩
      · exact ⟨_, h5⟩) with ⟨h1, h2⟩ | ⟨k, a, _, hk2, hk3, hk4, hk5⟩
  · refine Or.inl ⟨h1, ?_⟩
    intro r c hr hc
    have hnone := h2 r (Nat.zero_le r) (by omega)
    rcases hrow r hr with ⟨_, h4⟩ | ⟨_, a, _, _, _, h5⟩
    · exact h4 c hc
    · simp only [] at hnone
      rw [h5] at hnone
      cases hnone
  · have hk : k < h := by omega
    rcases hrow k hk with ⟨h3, _⟩ | ⟨c, a1, hc, hcell, hbefore, h5⟩
    · rw [h3] at hk3
      cases hk3
    · rw [h5] at hk3
      cases hk3
      refine Or.inr ⟨k, c, a, hk, hc, hcell, ?_, hk5⟩
      intro r1 c1 hr1 hc1 hlt
      rcases hlt with hlt | ⟨hlt1, hlt2⟩
      · have hnone := hk4 r1 (Nat.zero_le r1) hlt
        rcases hrow r1 hr1 with ⟨_, h4⟩ | ⟨_, a2, _, _, _, h6⟩
        · exact h4 c1 hc1
        · simp only [] at hnone
          rw [h6] at hnone
          cases hnone
      · rw [hlt1]
        exact hbefore c1 hlt2

/-! ## Boards: `board_get` and `board_set` -/

theorem in_bounds_mk {b : board} {r c : Nat} : in_bounds b (make_pos r c) ↔ r < b.height ∧ c < b.width :=
  Iff.rfl

theorem bit_index_eq {b : board} {p : pos} (hfit : b.width * b.height ≤ 2147483648)
    (hp : in_bounds b p) : bit_index b.width p = (p.r * b.width + p.c) * 2 := by
  obtain ⟨hr, hc⟩ := hp
  have h1 : p.r * b.width + p.c < b.width * b.height := by
    calc p.r * b.width + p.c < p.r * b.width + b.width := by omega
      _ = (p.r + 1) * b.width := by ring
      _ ≤ b.height * b.width := Nat.mul_le_mul_right _ hr
      _ = b.width * b.height := by ring
  have h2 : p.r * b.width ≤ p.r * b.width + p.c := Nat.le_add_right _ _
  simp only [bit_index, umul, uadd, UINT_SIZE]
  rw [Nat.mod_eq_of_lt (a := p.r * b.width) (by omega),
    Nat.mod_eq_of_lt (a := p.r * b.width + p.c) (by omega), Nat.mod_eq_of_lt (by omega)]

theorem words_eq {w h : Nat} (hfit : w * h ≤ 2147483648) :
    usub (uadd (umul w h) 16) 1 / 16 = (w * h + 15) / 16 := by
  simp only [usub, uadd, umul, UINT_SIZE]
  rw [Nat.mod_eq_of_lt (a := w * h) (by omega)]
  omega

theorem cell_index_inj {b : board} {p q : pos} (hp : in_bounds b p) (hq : in_bounds b q)
    (h : p.r * b.width + p.c = q.r * b.width + q.c) : p = q := by
  obtain ⟨_, hpc⟩ := hp
  obtain ⟨_, hqc⟩ := hq
  have hw : 0 < b.width := by omega
  have h1 : (p.r * b.width + p.c) / b.width = p.r := by
    rw [Nat.add_comm, Nat.add_mul_div_right _ _ hw, Nat.div_eq_of_lt hpc, Nat.zero_add]
  have h2 : (q.r * b.width + q.c) / b.width = q.r := by
    rw [Nat.add_comm, Nat.add_mul_div_right _ _ hw, Nat.div_eq_of_lt hqc, Nat.zero_add]
  have hr : p.r = q.r := by rw [← h1, ← h2, h]
  have hc : p.c = q.c := by rw [hr] at h; omega
  cases p; cases q; simp_all

theorem cell_value_lt (c : cell) : cell_value c < 4 := by
  cases c <;> simp [cell_value]

theorem cell_of_bits_value (c : cell) : cell_of_bits (cell_value c) = c := by
  cases c <;> simp [cell_value, cell_of_bits]

theorem board_set_matrix {w h : Nat} {m : List (List cell)} {p : pos} (v : cell)
    (hwf : storage_ok w h (board_rep.matrix m)) (hr : p.r < h) (hc : p.c < w) :
    ∃ row, m[p.r]? = some row ∧ row.length = w ∧
      board_set ⟨w, h, board_rep.matrix m⟩ p v =
        some ⟨w, h, board_rep.matrix (m.set p.r (row.set p.c v))⟩ := by
  obtain ⟨hlen, hrows⟩ := hwf
  have hr1 : p.r < m.length := by omega
  have hrow : (m[p.r]).length = w := hrows _ (List.getElem_mem hr1)
  refine ⟨m[p.r], List.getElem?_eq_getElem hr1, hrow, ?_⟩
  have hg : ¬ (p.r > h ∧ p.c > w) := by omega
  simp only [board_set, hg, if_false, List.getElem?_eq_getElem hr1, hrow, hc, if_true]

theorem storage_ok_set_matrix {w h : Nat} {m : List (List cell)} {row : List cell} (i j : Nat)
    (v : cell) (hwf : storage_ok w h (board_rep.matrix m)) (hrow : row.length = w) :
    storage_ok w h (board_rep.matrix (m.set i (row.set j v))) := by
  obtain ⟨hlen, hrows⟩ := hwf
  refine ⟨by simpa using hlen, ?_⟩
  intro r hmem
  rcases List.mem_or_eq_of_mem_set hmem with h1 | h1
  · exact hrows r h1
  · rw [h1]; simpa using hrow

theorem board_get_set_matrix {w h : Nat} {m : List (List cell)} {row : List cell} {p : pos}
    (v : cell) (hrow : m[p.r]? = some row) (hc : p.c < row.length) (q : pos) :
    board_get ⟨w, h, board_rep.matrix (m.set p.r (row.set p.c v))⟩ q =
      if q = p then some v else board_get ⟨w, h, board_rep.matrix m⟩ q := by
  obtain ⟨hr1, hrow1⟩ := List.getElem?_eq_some.mp hrow
  by_cases hqr : q.r = p.r
  · by_cases hqc : q.c = p.c
    · have hqp : q = p := by cases q; cases p; simp_all
      subst hqp
      simp [board_get, List.getElem?_set_self hr1, List.getElem?_set_self hc]
    · have hqp : q ≠ p := fun e => hqc (by rw [e])
      simp only [board_get, hqr, List.getElem?_set_self hr1, hrow, if_neg hqp]
      rw [List.getElem?_set_ne (fun e => hqc e.symm)]
  · have hqp : q ≠ p := fun e => hqr (by rw [e])
    simp only [board_get, if_neg hqp]
    rw [List.getElem?_set_ne (fun e => hqr e.symm)]

theorem word_index_lt {w h : Nat} {ws : List Nat} {p : pos}
    (hwf : storage_ok w h (board_rep.bits ws)) (hfit : w * h ≤ 2147483648)
    (hr : p.r < h) (hc : p.c < w) :
    bit_index w p / 32 < ws.length := by
  have hlen : ws.length = (w * h + 15) / 16 := by
    have := hwf
    simp only [storage_ok] at this
    rw [this, words_eq hfit]
  rw [bit_index_eq (b := ⟨w, h, board_rep.bits ws⟩) hfit ⟨hr, hc⟩, hlen]
  simp only
  have h1 : p.r * w + p.c < w * h := by
    calc p.r * w + p.c < p.r * w + w := by omega
      _ = (p.r + 1) * w := by ring
      _ ≤ h * w := Nat.mul_le_mul_right _ hr
      _ = w * h := by ring
  omega

theorem board_set_bits {w h : Nat} {ws : List Nat} {p : pos} (v : cell)
    (hwf : storage_ok w h (board_rep.bits ws)) (hfit : w * h ≤ 2147483648)
    (hr : p.r < h) (hc : p.c < w) :
    ∃ word, ws[bit_index w p / 32]? = some word ∧
      board_set ⟨w, h, board_rep.bits ws⟩ p v =
        some ⟨w, h, board_rep.bits (ws.set (bit_index w p / 32)
          ((word &&& unot (3 <<< (bit_index w p % 32))) |||
            ((cell_value v <<< (bit_index w p % 32)) % UINT_SIZE)))⟩ := by
  have hlt := word_index_lt hwf hfit hr hc
  refine ⟨ws[bit_index w p / 32], List.getElem?_eq_getElem hlt, ?_⟩
  have hg : ¬ (p.r > h ∧ p.c > w) := by omega
  simp only [board_set, hg, if_false, List.getElem?_eq_getElem hlt]

theorem board_get_set_bits {w h : Nat} {ws : List Nat} {p : pos} {word : Nat} (v : cell)
    (hfit : w * h ≤ 2147483648) (hp : in_bounds ⟨w, h, board_rep.bits ws⟩ p)
    (hword : ws[bit_index w p / 32]? = some word)
    (q : pos) (hq : in_bounds ⟨w, h, board_rep.bits ws⟩ q) :
    board_get ⟨w, h, board_rep.bits (ws.set (bit_index w p / 32)
          ((word &&& unot (3 <<< (bit_index w p % 32))) |||
            ((cell_value v <<< (bit_index w p % 32)) % UINT_SIZE)))⟩ q =
      if q = p then some v else board_get ⟨w, h, board_rep.bits ws⟩ q := by
  obtain ⟨hlt, hword1⟩ := List.getElem?_eq_some.mp hword
  have hbp := bit_index_eq (b := ⟨w, h, board_rep.bits ws⟩) hfit hp
  have hbq := bit_index_eq (b := ⟨w, h, board_rep.bits ws⟩) hfit hq
  simp only at hbp hbq
  by_cases hqp : q = p
  · subst hqp
    simp only [board_get, if_true]
    rw [List.getElem?_set_self hlt]
    simp only []
    rw [read_word_same _ _ _ (cell_value_lt v) (by omega), cell_of_bits_value]
  · have hne : q.r * w + q.c ≠ p.r * w + p.c := fun e =>
      hqp (cell_index_inj (b := ⟨w, h, board_rep.bits ws⟩) hq hp e)
    simp only [board_get, if_neg hqp]
    by_cases hidx : bit_index w p / 32 = bit_index w q / 32
    · rw [← hidx, List.getElem?_set_self hlt, hword]
      simp only []
      rw [read_word_other _ _ _ _ (cell_value_lt v) (by omega) (by omega) (by omega) (by omega)]
    · rw [List.getElem?_set_ne hidx]

theorem storage_ok_set_bits {w h : Nat} {ws : List Nat} (i x : Nat)
    (hwf : storage_ok w h (board_rep.bits ws)) :
    storage_ok w h (board_rep.bits (ws.set i x)) := by
  simp only [storage_ok, List.length_set] at hwf ⊢
  exact hwf

theorem fits_of_matrix {b : board} (h : b.type = type.MATRIX) : b.fits := by
  intro h1
  rw [h] at h1
  cases h1

theorem fits_of_same_shape {b b1 : board} (h : b.fits) (hw : b1.width = b.width)
    (hh : b1.height = b.height) (ht : b1.type = b.type) : b1.fits := by
  intro h1
  rw [hw, hh]
  exact h (ht ▸ h1)

/-- Writing a cell of a well-formed board succeeds, keeps the shape of the board, and changes
what is read at the written position only. -/
theorem board_set_spec (b : board) (p : pos) (v : cell) (hwf : b.wf) (hfit : b.fits)
    (hp : in_bounds b p) :
    ∃ b1, board_set b p v = some b1 ∧ b1.width = b.width ∧ b1.height = b.height ∧
      b1.type = b.type ∧ b1.wf ∧
      ∀ q, in_bounds b q → board_get b1 q = if q = p then some v else board_get b q := by
  obtain ⟨w, h, u⟩ := b
  obtain ⟨hr, hc⟩ := hp
  simp only at hr hc
  have hwf : storage_ok w h u := hwf
  cases u with
  | matrix m =>
    obtain ⟨row, hrow, hlen, hset⟩ := board_set_matrix v hwf hr hc
    refine ⟨_, hset, rfl, rfl, rfl, storage_ok_set_matrix _ _ v hwf hlen, ?_⟩
    intro q _
    exact board_get_set_matrix v hrow (by omega) q
  | bits ws =>
    have hfit1 : w * h ≤ 2147483648 := hfit rfl
    obtain ⟨word, hword, hset⟩ := board_set_bits v hwf hfit1 hr hc
    refine ⟨_, hset, rfl, rfl, rfl, storage_ok_set_bits _ _ hwf, ?_⟩
    intro q hq
    exact board_get_set_bits v hfit1 ⟨hr, hc⟩ hword q hq

/-- Every cell of a well-formed board can be read. -/
theorem board_get_some (b : board) (q : pos) (hwf : b.wf) (hfit : b.fits)
    (hq : in_bounds b q) : ∃ v, board_get b q = some v := by
  obtain ⟨w, h, u⟩ := b
  obtain ⟨hr, hc⟩ := hq
  simp only at hr hc
  have hwf : storage_ok w h u := hwf
  cases u with
  | matrix m =>
    obtain ⟨hlen, hrows⟩ := hwf
    have hr1 : q.r < m.length := by omega
    have hrow : (m[q.r]).length = w := hrows _ (List.getElem_mem hr1)
    refine ⟨(m[q.r])[q.c], ?_⟩
    simp only [board_get, List.getElem?_eq_getElem hr1]
    exact List.getElem?_eq_getElem (by omega)
  | bits ws =>
    have hlt := word_index_lt hwf (hfit rfl) hr hc
    simp only [board_get, List.getElem?_eq_getElem hlt]
    exact ⟨_, rfl⟩

/-- Every cell of a board whose storage has the size `board_new` gives it, with at most
`2 ^ 31` cells when it is a bit vector, can be read. -/
theorem board_readable_of_wf {b : board} (hwf : b.wf) (hfit : b.fits) : board_readable b :=
  fun p hp => board_get_some b p hwf hfit hp

theorem board_set_dims {b b1 : board} {p : pos} {v : cell} (h : board_set b p v = some b1) :
    b1.width = b.width ∧ b1.height = b.height := by
  unfold board_set at h
  split at h
  · split at h
    · cases h; exact ⟨rfl, rfl⟩
    · simp only [] at h
      split at h
      · cases h
      · cases h; exact ⟨rfl, rfl⟩
  · split at h
    · cases h; exact ⟨rfl, rfl⟩
    · split at h
      · cases h
      · split at h
        · cases h; exact ⟨rfl, rfl⟩
        · cases h

theorem board_new_matrix_wf (w h : Nat) : (board_new w h type.MATRIX).wf := by
  show storage_ok w h (board_rep.matrix _)
  refine ⟨by simp, ?_⟩
  intro row hrow
  rw [List.mem_replicate] at hrow
  rw [hrow.2]
  simp

theorem get_on_bits (w h : Nat) (ws : List Nat) (w0 i k : Nat) (p : pos) (v : cell)
    (hi : bit_index w p / 32 = i) (hk : bit_index w p % 32 = k)
    (h0 : ws[i]? = some w0) (hv : cell_of_bits ((w0 >>> k) &&& 3) = v) :
    board_get ⟨w, h, board_rep.bits ws⟩ p = some v := by
  simp only [board_get, hi, hk, h0, hv]

theorem place_on_bits (w h : Nat) (ws : List Nat) (w0 i k x : Nat) (p : pos) (v : cell)
    (hg : ¬ (p.r > h ∧ p.c > w)) (hi : bit_index w p / 32 = i) (hk : bit_index w p % 32 = k)
    (h0 : ws[i]? = some w0)
    (hx : (w0 &&& unot (3 <<< k)) ||| ((cell_value v <<< k) % UINT_SIZE) = x) :
    board_set ⟨w, h, board_rep.bits ws⟩ p v = some ⟨w, h, board_rep.bits (ws.set i x)⟩ := by
  simp only [board_set, hg, if_false, hi, hk, h0, hx]

theorem get_on_matrix (w h : Nat) (m : List (List cell)) (row : List cell) (p : pos) (v : cell)
    (hrow : m[p.r]? = some row) (hv : row[p.c]? = some v) :
    board_get ⟨w, h, board_rep.matrix m⟩ p = some v := by
  simp only [board_get, hrow, hv]

theorem place_on_matrix (w h : Nat) (m : List (List cell)) (row : List cell) (p : pos)
    (v : cell) (hg : ¬ (p.r > h ∧ p.c > w)) (hrow : m[p.r]? = some row)
    (hc : p.c < row.length) :
    board_set ⟨w, h, board_rep.matrix m⟩ p v =
      some ⟨w, h, board_rep.matrix (m.set p.r (row.set p.c v))⟩ := by
  simp only [board_set, hg, if_false, hrow, hc, if_true]

theorem wide_board_new : board_new 65536 32769 type.BITS =
    ⟨65536, 32769, board_rep.bits (List.replicate 134221824 0)⟩ := by
  have hn : usub (uadd (umul 65536 32769) 16) 1 / 16 = 134221824 := by decide
  simp only [board_new, hn]

/-- On a bit vector board of width `65536` and height `32769` whose first word is `0`, writing
`BLACK` at `(32768, 0)` changes what is read at `(0, 0)` from `EMPTY` to `BLACK`. -/
theorem wrapped_write (ws : List Nat) (h0 : ws[0]? = some 0) :
    board_get ⟨65536, 32769, board_rep.bits ws⟩ ⟨0, 0⟩ = some cell.EMPTY ∧
    ∃ b1, board_set ⟨65536, 32769, board_rep.bits ws⟩ ⟨32768, 0⟩ cell.BLACK = some b1 ∧
      board_get b1 ⟨0, 0⟩ = some cell.BLACK := by
  have hi1 : bit_index 65536 ⟨32768, 0⟩ = 0 := by decide
  have hi0 : bit_index 65536 ⟨0, 0⟩ = 0 := by decide
  have hlt : 0 < ws.length := (List.getElem?_eq_some.mp h0).1
  have hg : ¬ ((32768 : Nat) > 32769 ∧ (0 : Nat) > 65536) := by omega
  refine ⟨?_, ⟨65536, 32769, board_rep.bits (ws.set 0 1)⟩, ?_, ?_⟩
  · simp only [board_get, hi0, h0]
    decide
  · simp only [board_set, hi1, h0, hg, if_false]
    rfl
  · simp only [board_get, hi0]
    rw [List.getElem?_set_self hlt]
    decide

/-- C10 (amended): on a board whose storage has the size `board_new` gives it (a matrix board, or
a bit vector board of at most `2 ^ 31` cells) and for in-bounds positions `p` and `q`,
`board_set b p v` succeeds and afterwards `board_get` at `q` returns `v` if `q = p` and what it
returned before, which is a cell value, if `q` differs from `p`. -/
theorem board_set_then_get (b : board) (p q : pos) (v : cell) (hwf : b.wf) (hfit : b.fits)
    (hp : in_bounds b p) (hq : in_bounds b q) :
    ∃ b1, board_set b p v = some b1 ∧
      board_get b1 q = (if q = p then some v else board_get b q) ∧
      ∃ old, board_get b q = some old := by
  obtain ⟨b1, hset, _, _, _, _, hget⟩ := board_set_spec b p v hwf hfit hp
  exact ⟨b1, hset, hget q hq, board_get_some b q hwf hfit hq⟩

theorem board_set_then_get_witness :
    (board_new 3 3 type.BITS).wf ∧ (board_new 3 3 type.BITS).fits ∧
    in_bounds (board_new 3 3 type.BITS) ⟨1, 2⟩ ∧ in_bounds (board_new 3 3 type.BITS) ⟨2, 1⟩ ∧
    ∃ b1, board_set (board_new 3 3 type.BITS) ⟨1, 2⟩ cell.BLACK = some b1 ∧
      board_get b1 ⟨2, 1⟩ =
        (if (⟨2, 1⟩ : pos) = ⟨1, 2⟩ then some cell.BLACK
          else board_get (board_new 3 3 type.BITS) ⟨2, 1⟩) ∧
      ∃ old, board_get (board_new 3 3 type.BITS) ⟨2, 1⟩ = some old :=
  have hwf : (board_new 3 3 type.BITS).wf := by
    show storage_ok 3 3 (board_rep.bits _); simp [storage_ok, board_new]
  have hfit : (board_new 3 3 type.BITS).fits := fun _ => by decide
  have hp : in_bounds (board_new 3 3 type.BITS) ⟨1, 2⟩ := by decide
  have hq : in_bounds (board_new 3 3 type.BITS) ⟨2, 1⟩ := by decide
  ⟨hwf, hfit, hp, hq, board_set_then_get _ _ _ cell.BLACK hwf hfit hp hq⟩

/-- C10 (as stated) fails on a bit vector board of `65536 * 32769` cells, which `board_new`
builds with the right number of words: the in-bounds positions `(32768, 0)` and `(0, 0)` have
the same bit index `0`, because `(32768 * 65536 + 0) * 2` is `2 ^ 32`, so that writing `BLACK` at
`(32768, 0)` changes what is read at `(0, 0)` from `EMPTY` to `BLACK`. -/
theorem packed_index_wraps_on_set :
    (board_new 65536 32769 type.BITS).wf ∧
    in_bounds (board_new 65536 32769 type.BITS) ⟨32768, 0⟩ ∧
    in_bounds (board_new 65536 32769 type.BITS) ⟨0, 0⟩ ∧
    (⟨0, 0⟩ : pos) ≠ ⟨32768, 0⟩ ∧
    board_get (board_new 65536 32769 type.BITS) ⟨0, 0⟩ = some cell.EMPTY ∧
    ∃ b1, board_set (board_new 65536 32769 type.BITS) ⟨32768, 0⟩ cell.BLACK = some b1 ∧
      board_get b1 ⟨0, 0⟩ = some cell.BLACK := by
  have hn : usub (uadd (umul 65536 32769) 16) 1 / 16 = 134221824 := by decide
  have hb : board_new 65536 32769 type.BITS =
      ⟨65536, 32769, board_rep.bits (List.replicate 134221824 0)⟩ := by
    simp only [board_new, hn]
  have h0 : (List.replicate 134221824 0)[0]? = some 0 :=
    List.getElem?_replicate_of_lt (by norm_num)
  rw [hb]
  refine ⟨?_, ⟨by norm_num, by norm_num⟩, ⟨by norm_num, by norm_num⟩, by decide,
    wrapped_write _ h0⟩
  show storage_ok _ _ _
  simp only [storage_ok, List.length_replicate, hn]

/-! ## `place_piece` -/

/-- The game `place_piece` leaves when it has written the board `b1`. -/
theorem place_piece_of_set {g : game} {p : pos} {b1 : board}
    (he : board_get g.b p = some cell.EMPTY)
    (hset : board_set g.b p (player_cell g.player) = some b1) :
    ∃ g1, place_piece g p = some (true, g1) ∧ g1.b = b1 ∧ g1.run = g.run ∧
      (g.player = turn.BLACKS_TURN →
        g1.black_queue = pos_enqueue g.black_queue p ∧ g1.white_queue = g.white_queue) ∧
      (g.player = turn.WHITES_TURN →
        g1.white_queue = pos_enqueue g.white_queue p ∧ g1.black_queue = g.black_queue) ∧
      g1.player = flip_player g.player ∧ g1.last_rotation = rotation.NO_ROTATION := by
  cases hpl : g.player with
  | BLACKS_TURN =>
    rw [hpl] at hset
    simp only [player_cell] at hset
    simp only [place_piece, he, Option.some_bind, ne_eq, not_true_eq_false, if_false, hpl]
    simp only [reduceCtorEq, if_false] at hset ⊢
    rw [hset]
    simp [flip_player, hpl]
  | WHITES_TURN =>
    rw [hpl] at hset
    simp only [player_cell] at hset
    simp only [place_piece, he, Option.some_bind, ne_eq, not_true_eq_false, if_false, hpl]
    simp only [if_true] at hset ⊢
    rw [hset]
    simp [flip_player, hpl]

theorem place_piece_black (g : game) (b1 : board) (p : pos) (hp : g.player = turn.BLACKS_TURN)
    (hget : board_get g.b p = some cell.EMPTY)
    (hset : board_set g.b p cell.BLACK = some b1) :
    place_piece g p =
      some (true, { g with b := b1, black_queue := pos_enqueue g.black_queue p,
                           player := turn.WHITES_TURN,
                           last_rotation := rotation.NO_ROTATION }) := by
  simp only [place_piece, hget, Option.some_bind, ne_eq, not_true_eq_false, if_false, hp,
    reduceCtorEq, hset]

theorem place_piece_white (g : game) (b1 : board) (p : pos) (hp : g.player = turn.WHITES_TURN)
    (hget : board_get g.b p = some cell.EMPTY)
    (hset : board_set g.b p cell.WHITE = some b1) :
    place_piece g p =
      some (true, { g with b := b1, white_queue := pos_enqueue g.white_queue p,
                           player := turn.BLACKS_TURN,
                           last_rotation := rotation.NO_ROTATION }) := by
  simp only [place_piece, hget, Option.some_bind, ne_eq, not_true_eq_false, if_false, hp,
    if_true, hset]

/-- The game `wide_game_new` is the one `new_game` builds. -/
theorem wide_game_new_reached : new_game 4 65536 32769 type.BITS = some wide_game_new := by
  have hguard : ¬ ((4 : Nat) > 65536 ∧ (4 : Nat) > 32769) := by omega
  unfold new_game
  rw [if_neg hguard]
  rfl

/-- C9: when the cell read at a position (in particular at an in-bounds position) is not
`EMPTY`, `place_piece` returns `false` and the game is the one before the call: the board, both
queues, the player and the last rotation are unchanged. -/
theorem place_piece_occupied (g : game) (p : pos) (v : cell)
    (hv : board_get g.b p = some v) (hne : v ≠ cell.EMPTY) :
    place_piece g p = some (false, g) := by
  simp only [place_piece, hv, Option.some_bind, hne, ne_eq, not_false_eq_true, if_true]

theorem place_piece_occupied_witness :
    board_get demo_uplift_game.b (make_pos 0 0) = some cell.WHITE ∧ cell.WHITE ≠ cell.EMPTY ∧
    place_piece demo_uplift_game (make_pos 0 0) = some (false, demo_uplift_game) :=
  ⟨by decide, by decide,
    place_piece_occupied demo_uplift_game (make_pos 0 0) cell.WHITE (by decide) (by decide)⟩

/-- C8 (amended): on a game whose board has the storage `board_new` gives it and, when it is a
bit vector, at most `2 ^ 31` cells, for an in-bounds position whose cell is `EMPTY`,
`place_piece` returns `true`; afterwards the cell at the position holds the colour of the player
who was to move, every other cell is unchanged, the position is appended at the back of the
queue of that colour, the other queue is unchanged, the player is flipped and the last rotation
is `NO_ROTATION`. -/
theorem place_piece_empty (g : game) (p : pos) (hwf : g.b.wf) (hfit : g.b.fits)
    (hp : in_bounds g.b p) (he : board_get g.b p = some cell.EMPTY) :
    ∃ g1, place_piece g p = some (true, g1) ∧
      board_get g1.b p = some (player_cell g.player) ∧
      (∀ q, in_bounds g.b q → q ≠ p → board_get g1.b q = board_get g.b q) ∧
      (g.player = turn.BLACKS_TURN →
        g1.black_queue.entries = g.black_queue.entries ++ [p] ∧
        g1.white_queue = g.white_queue) ∧
      (g.player = turn.WHITES_TURN →
        g1.white_queue.entries = g.white_queue.entries ++ [p] ∧
        g1.black_queue = g.black_queue) ∧
      g1.player = flip_player g.player ∧ g1.last_rotation = rotation.NO_ROTATION := by
  obtain ⟨b1, hset, _, _, _, _, hget⟩ :=
    board_set_spec g.b p (player_cell g.player) hwf hfit hp
  obtain ⟨g1, hpl, hb, _, hbl, hwh, hflip, hrot⟩ := place_piece_of_set he hset
  refine ⟨g1, hpl, ?_, ?_, ?_, ?_, hflip, hrot⟩
  · rw [hb, hget p hp, if_pos rfl]
  · intro q hq hne
    rw [hb, hget q hq, if_neg hne]
  · intro h
    obtain ⟨h1, h2⟩ := hbl h
    exact ⟨by rw [h1]; rfl, h2⟩
  · intro h
    obtain ⟨h1, h2⟩ := hwh h
    exact ⟨by rw [h1]; rfl, h2⟩

theorem place_piece_empty_witness :
    demo_uplift_game.b.wf ∧ demo_uplift_game.b.fits ∧
    in_bounds demo_uplift_game.b (make_pos 1 1) ∧
    board_get demo_uplift_game.b (make_pos 1 1) = some cell.EMPTY ∧
    ∃ g1, place_piece demo_uplift_game (make_pos 1 1) = some (true, g1) ∧
      board_get g1.b (make_pos 1 1) = some (player_cell demo_uplift_game.player) ∧
      (∀ q, in_bounds demo_uplift_game.b q → q ≠ make_pos 1 1 →
        board_get g1.b q = board_get demo_uplift_game.b q) ∧
      (demo_uplift_game.player = turn.BLACKS_TURN →
        g1.black_queue.entries = demo_uplift_game.black_queue.entries ++ [make_pos 1 1] ∧
        g1.white_queue = demo_uplift_game.white_queue) ∧
      (demo_uplift_game.player = turn.WHITES_TURN →
        g1.white_queue.entries = demo_uplift_game.white_queue.entries ++ [make_pos 1 1] ∧
        g1.black_queue = demo_uplift_game.black_queue) ∧
      g1.player = flip_player demo_uplift_game.player ∧
      g1.last_rotation = rotation.NO_ROTATION :=
  ⟨by decide, by decide, by decide, by decide,
    place_piece_empty demo_uplift_game (make_pos 1 1) (by decide) (by decide) (by decide)
      (by decide)⟩

/-- C8 (as stated) fails on the game `new_game(4, 65536, 32769, BITS)`: the in-bounds position
`(32768, 0)` is `EMPTY` and `place_piece` returns `true` there, but afterwards the other
in-bounds cell `(0, 0)`, which was `EMPTY`, reads `BLACK`: the two positions have the same bit
index, `(32768 * 65536 + 0) * 2` being `2 ^ 32`. -/
theorem packed_place_changes_other_cell :
    in_bounds wide_game_new.b (make_pos 32768 0) ∧
    board_get wide_game_new.b (make_pos 32768 0) = some cell.EMPTY ∧
    in_bounds wide_game_new.b (make_pos 0 0) ∧ make_pos 0 0 ≠ make_pos 32768 0 ∧
    board_get wide_game_new.b (make_pos 0 0) = some cell.EMPTY ∧
    ∃ g1, place_piece wide_game_new (make_pos 32768 0) = some (true, g1) ∧
      board_get g1.b (make_pos 0 0) = some cell.BLACK := by
  have h0 : (List.replicate 134221824 0)[0]? = some 0 :=
    List.getElem?_replicate_of_lt (Nat.zero_lt_succ _)
  have hb : wide_game_new.b = ⟨65536, 32769, board_rep.bits (List.replicate 134221824 0)⟩ :=
    wide_board_new
  have hget1 : board_get wide_game_new.b (make_pos 32768 0) = some cell.EMPTY := by
    rw [hb]
    exact get_on_bits _ _ _ 0 0 0 _ _ (by decide) (by decide) h0 (by decide)
  have hget0 : board_get wide_game_new.b (make_pos 0 0) = some cell.EMPTY := by
    rw [hb]
    exact get_on_bits _ _ _ 0 0 0 _ _ (by decide) (by decide) h0 (by decide)
  have hset : board_set wide_game_new.b (make_pos 32768 0) cell.BLACK =
      some ⟨65536, 32769, board_rep.bits ((List.replicate 134221824 0).set 0 1)⟩ := by
    rw [hb]
    exact place_on_bits _ _ _ 0 0 0 1 _ _ (by decide) (by decide) (by decide) h0 (by decide)
  refine ⟨?_, hget1, ?_, by decide, hget0, _,
    place_piece_black wide_game_new _ (make_pos 32768 0) rfl hget1 hset, ?_⟩
  · rw [hb]; exact ⟨by decide, by decide⟩
  · rw [hb]; exact ⟨by decide, by decide⟩
  · exact get_on_bits _ _ _ 1 0 0 _ _ (by decide) (by decide)
      (List.getElem?_set_self (by rw [List.length_replicate]; exact Nat.zero_lt_succ _))
      (by decide)

/-! ## `rotate` -/

theorem rotate_pos_eq {w h : Nat} (cw : Bool) (hw : w < UINT_SIZE) (hh : h < UINT_SIZE)
    {p : pos} (hr : p.r < h) (hc : p.c < w) :
    rotate_pos cw w h p = if cw then make_pos p.c (h - 1 - p.r) else make_pos (w - 1 - p.c) p.r := by
  cases cw
  · simp only [rotate_pos, Bool.false_eq_true, if_false]
    rw [usub_of_le (by omega) hw, usub_of_le (by omega) (by omega)]
  · simp only [rotate_pos, if_true]
    rw [usub_of_le (by omega) hh, usub_of_le (by omega) (by omega)]

theorem rotate_pos_in_bounds {w h : Nat} (cw : Bool) (hw : w < UINT_SIZE) (hh : h < UINT_SIZE)
    {p : pos} (hr : p.r < h) (hc : p.c < w) :
    (rotate_pos cw w h p).r < w ∧ (rotate_pos cw w h p).c < h := by
  rw [rotate_pos_eq cw hw hh hr hc]
  cases cw
  · simp only [Bool.false_eq_true, if_false, make_pos]; omega
  · simp only [if_true, make_pos]; omega

theorem rotate_pos_inj {w h : Nat} (cw : Bool) (hw : w < UINT_SIZE) (hh : h < UINT_SIZE)
    {p q : pos} (hpr : p.r < h) (hpc : p.c < w) (hqr : q.r < h) (hqc : q.c < w)
    (e : rotate_pos cw w h p = rotate_pos cw w h q) : p = q := by
  rw [rotate_pos_eq cw hw hh hpr hpc, rotate_pos_eq cw hw hh hqr hqc] at e
  obtain ⟨pr, pc⟩ := p
  obtain ⟨qr, qc⟩ := q
  cases cw
  · simp only [Bool.false_eq_true, if_false, make_pos, pos.mk.injEq] at e hpr hpc hqr hqc ⊢
    omega
  · simp only [if_true, make_pos, pos.mk.injEq] at e hpr hpc hqr hqc ⊢
    omega

theorem rotated_upto_step {b : board} {cw : Bool} {i c : Nat} {nb nb1 : board} {value : cell}
    (hw : b.width < UINT_SIZE) (hh : b.height < UINT_SIZE) (hi : i < b.height)
    (hc : c < b.width) (hinv : rotated_upto b cw (i * b.width + c) nb)
    (hget : board_get b (make_pos i c) = some value)
    (hset : board_set nb (rotate_pos cw b.width b.height (make_pos i c)) value = some nb1) :
    rotated_upto b cw (i * b.width + c + 1) nb1 := by
  obtain ⟨h1, h2, h3, h4, h5⟩ := hinv
  have hdest := rotate_pos_in_bounds cw hw hh (p := make_pos i c) hi hc
  have hin : in_bounds nb (rotate_pos cw b.width b.height (make_pos i c)) := by
    unfold in_bounds
    rw [h1, h2]
    exact hdest
  obtain ⟨b2, hset2, e1, e2, e3, e4, e5⟩ :=
    board_set_spec nb _ value h4 (fits_of_matrix h3) hin
  rw [hset] at hset2
  cases hset2
  refine ⟨e1.trans h1, e2.trans h2, e3.trans h3, e4, ?_⟩
  intro p hpr hpc hlt
  have hpin : in_bounds nb (rotate_pos cw b.width b.height p) := by
    unfold in_bounds
    rw [h1, h2]
    exact rotate_pos_in_bounds cw hw hh hpr hpc
  rw [e5 _ hpin]
  by_cases hp : p = make_pos i c
  · subst hp
    simp only [if_true, hget]
  · have hne : rotate_pos cw b.width b.height p ≠ rotate_pos cw b.width b.height (make_pos i c) :=
      fun e => hp (rotate_pos_inj cw hw hh hpr hpc hi hc e)
    rw [if_neg hne]
    apply h5 p hpr hpc
    have hidx : p.r * b.width + p.c ≠ i * b.width + c := fun e =>
      hp (cell_index_inj (b := b) (p := p) (q := make_pos i c) ⟨hpr, hpc⟩ ⟨hi, hc⟩ e)
    omega

theorem rotate_row_inv {b : board} {cw : Bool} {i : Nat} {nb nb1 : board}
    (hw : b.width < UINT_SIZE) (hh : b.height < UINT_SIZE) (hi : i < b.height)
    (hinv : rotated_upto b cw (i * b.width) nb) (hrow : rotate_row b cw i nb = some nb1) :
    rotated_upto b cw ((i + 1) * b.width) nb1 := by
  have key := for_loop_inv _ (fun c t => rotated_upto b cw (i * b.width + c) t)
    b.width 0 nb nb1 hrow (by simpa using hinv) (by
      intro c t t1 _ hc hP hbody
      simp only [Nat.zero_add] at hc
      simp only [] at hbody
      cases hg : board_get b (make_pos i c) with
      | none => rw [hg] at hbody; simp at hbody
      | some value =>
        rw [hg] at hbody
        simp only [Option.some_bind] at hbody
        exact rotated_upto_step hw hh hi hc hP hg hbody)
  have e : (i + 1) * b.width = i * b.width + (0 + b.width) := by ring
  rw [e]
  exact key

theorem rotate_rows_inv {b : board} {cw : Bool} {nb nb1 : board}
    (hw : b.width < UINT_SIZE) (hh : b.height < UINT_SIZE)
    (hinv : rotated_upto b cw 0 nb)
    (hrows : for_loop (fun i t => rotate_row b cw i t) b.height 0 nb = some nb1) :
    rotated_upto b cw (b.height * b.width) nb1 := by
  have key := for_loop_inv _ (fun i t => rotated_upto b cw (i * b.width) t)
    b.height 0 nb nb1 hrows (by simpa using hinv) (by
      intro i t t1 _ hi hP hbody
      simp only [Nat.zero_add] at hi
      exact rotate_row_inv hw hh hi hP hbody)
  simpa using key

theorem rotated_upto_new (b : board) (cw : Bool) :
    rotated_upto b cw 0 (board_new b.height b.width type.MATRIX) :=
  ⟨rfl, rfl, rfl, board_new_matrix_wf _ _, fun _ _ _ h => absurd h (Nat.not_lt_zero _)⟩

theorem rotate_success {g g1 : game} {cw : Bool} (h : rotate g cw = some (true, g1)) :
    ∃ nb, rotate_board g.b cw = some nb ∧
      g1 = { run := g.run, b := nb,
             black_queue := remap_queue nb cw g.black_queue.len g.black_queue posqueue_new,
             white_queue := remap_queue nb cw g.white_queue.len g.white_queue posqueue_new,
             player :=
               if g.player = turn.BLACKS_TURN then turn.WHITES_TURN else turn.BLACKS_TURN,
             last_rotation := if cw then rotation.CLOCKWISE else rotation.COUNTERCLOCKWISE } := by
  unfold rotate at h
  split at h
  · simp at h
  · cases hb : rotate_board g.b cw with
    | none => rw [hb] at h; simp at h
    | some nb =>
      rw [hb] at h
      simp only [Option.some_bind, Option.some.injEq, Prod.mk.injEq, true_and] at h
      exact ⟨nb, rfl, h.symm⟩

theorem rotate_board_matrix {b nb : board} {cw : Bool} (hm : b.type = type.MATRIX)
    (hw : b.width < UINT_SIZE) (hh : b.height < UINT_SIZE)
    (h : rotate_board b cw = some nb) : rotated_upto b cw (b.height * b.width) nb := by
  unfold rotate_board at h
  simp only [hm] at h
  exact rotate_rows_inv hw hh (rotated_upto_new b cw) h

theorem rotate_row_dims {b nb nb1 : board} {cw : Bool} {i : Nat}
    (h : rotate_row b cw i nb = some nb1) :
    nb1.width = nb.width ∧ nb1.height = nb.height := by
  have key := for_loop_inv _ (fun _ t => t.width = nb.width ∧ t.height = nb.height)
    b.width 0 nb nb1 h ⟨rfl, rfl⟩ (by
      intro c t t1 _ _ hP hbody
      simp only [] at hbody
      cases hg : board_get b (make_pos i c) with
      | none => rw [hg] at hbody; simp at hbody
      | some value =>
        rw [hg] at hbody
        simp only [Option.some_bind] at hbody
        have := board_set_dims hbody
        exact ⟨this.1.trans hP.1, this.2.trans hP.2⟩)
  exact key

theorem rotate_board_dims {b nb : board} {cw : Bool} (h : rotate_board b cw = some nb) :
    nb.width = b.height ∧ nb.height = b.width := by
  unfold rotate_board at h
  simp only [] at h
  split at h
  · have key := for_loop_inv _
      (fun _ t => t.width = b.height ∧ t.height = b.width)
      b.height 0 _ nb h ⟨rfl, rfl⟩ (by
        intro i t t1 _ _ hP hbody
        have := rotate_row_dims hbody
        exact ⟨this.1.trans hP.1, this.2.trans hP.2⟩)
    exact key
  · cases hb : rotate_bits b cw with
    | none => rw [hb] at h; simp at h
    | some x =>
      rw [hb] at h
      simp only [Option.some_bind, Option.some.injEq] at h
      subst h
      exact ⟨rfl, rfl⟩

theorem remap_queue_entries (nb : board) (cw : Bool) :
    ∀ (l : List pos) (nq : posqueue),
      remap_queue nb cw l.length ⟨l⟩ nq =
        ⟨nq.entries ++ l.map (rotate_pos cw nb.height nb.width)⟩ := by
  intro l
  induction l with
  | nil => intro nq; simp [remap_queue]
  | cons p rest ih =>
    intro nq
    simp only [List.length_cons, remap_queue, posqueue.len, Nat.zero_lt_succ, if_true,
      pos_dequeue]
    rw [ih]
    simp only [pos_enqueue, List.append_assoc, List.singleton_append, List.map_cons, rotate_pos]

/-- C1: for a game with a matrix board, whose width and height are `unsigned int` values, a call
of `rotate` that succeeds gives a board with width the old height and height the old width on
which, for every in-bounds `(r, c)` of the old board, the cell at `(c, oldHeight - 1 - r)`
(clockwise) or at `(oldWidth - 1 - c, r)` (counterclockwise) is the cell the old board has at
`(r, c)`. -/
theorem rotate_matrix_cells (g g1 : game) (clockwise : Bool)
    (hm : g.b.type = type.MATRIX) (hw : g.b.width < UINT_SIZE) (hh : g.b.height < UINT_SIZE)
    (hrot : rotate g clockwise = some (true, g1)) :
    g1.b.width = g.b.height ∧ g1.b.height = g.b.width ∧
    ∀ r c, r < g.b.height → c < g.b.width →
      ∃ v, board_get g.b (make_pos r c) = some v ∧
        board_get g1.b
          (if clockwise then make_pos c (g.b.height - 1 - r)
            else make_pos (g.b.width - 1 - c) r) = some v := by
  obtain ⟨nb, hnb, hg1⟩ := rotate_success hrot
  obtain ⟨h1, h2, h3, h4, h5⟩ := rotate_board_matrix hm hw hh hnb
  subst hg1
  refine ⟨h1, h2, ?_⟩
  intro r c hr hc
  have hlt : (make_pos r c).r * g.b.width + (make_pos r c).c < g.b.height * g.b.width := by
    show r * g.b.width + c < g.b.height * g.b.width
    calc r * g.b.width + c < r * g.b.width + g.b.width := by omega
      _ = (r + 1) * g.b.width := by ring
      _ ≤ g.b.height * g.b.width := Nat.mul_le_mul_right _ hr
  have hcell := h5 (make_pos r c) hr hc hlt
  rw [rotate_pos_eq clockwise hw hh (p := make_pos r c) hr hc] at hcell
  have hin : in_bounds nb (rotate_pos clockwise g.b.width g.b.height (make_pos r c)) := by
    unfold in_bounds
    rw [h1, h2]
    exact rotate_pos_in_bounds clockwise hw hh (p := make_pos r c) hr hc
  obtain ⟨v, hv⟩ := board_get_some nb _ h4 (fits_of_matrix h3) hin
  rw [rotate_pos_eq clockwise hw hh (p := make_pos r c) hr hc] at hv
  refine ⟨v, ?_, hv⟩
  rw [← hcell]
  exact hv

theorem rotate_matrix_cells_witness :
    demo_matrix_game.b.type = type.MATRIX ∧ demo_matrix_game.b.width < UINT_SIZE ∧
    demo_matrix_game.b.height < UINT_SIZE ∧
    rotate demo_matrix_game true = some (true, demo_matrix_game_cw) ∧
    (demo_matrix_game_cw.b.width = demo_matrix_game.b.height ∧
      demo_matrix_game_cw.b.height = demo_matrix_game.b.width ∧
      ∀ r c, r < demo_matrix_game.b.height → c < demo_matrix_game.b.width →
        ∃ v, board_get demo_matrix_game.b (make_pos r c) = some v ∧
          board_get demo_matrix_game_cw.b
            (if true then make_pos c (demo_matrix_game.b.height - 1 - r)
              else make_pos (demo_matrix_game.b.width - 1 - c) r) = some v) :=
  ⟨by decide, by decide, by decide, by decide,
    rotate_matrix_cells demo_matrix_game demo_matrix_game_cw true (by decide) (by decide)
      (by decide) (by decide)⟩

/-- C2 (code defect): on the game of the test `rotate, test1_clock`, a bit vector board with
`BLACK` at `(0, 0)`, the clockwise `rotate` succeeds and exchanges the width and the height, but
the cell of the new board at the rotated position `(0, 2)` is `EMPTY`: the loop for bit vector
boards writes the rotated cells to the old board, and the new board, a matrix, stays empty. -/
theorem rotate_bits_board_is_empty :
    demo_bits_game.b.type = type.BITS ∧
    rotate demo_bits_game true = some (true, demo_bits_game_cw) ∧
    demo_bits_game_cw.b.width = demo_bits_game.b.height ∧
    demo_bits_game_cw.b.height = demo_bits_game.b.width ∧
    board_get demo_bits_game.b (make_pos 0 0) = some cell.BLACK ∧
    board_get demo_bits_game_cw.b (make_pos 0 (demo_bits_game.b.height - 1 - 0)) =
      some cell.EMPTY := by
  decide

/-- C3: after a call of `rotate` that succeeds each queue is the old queue with every position
replaced by its image under `rotate_pos`, the transform `rotate_row` applies to the cells
(`(r, c) -> (c, oldHeight - 1 - r)` clockwise, `(r, c) -> (oldWidth - 1 - c, r)`
counterclockwise), in the same order and with the same length. -/
theorem rotate_queues (g g1 : game) (clockwise : Bool)
    (hrot : rotate g clockwise = some (true, g1)) :
    g1.black_queue.entries =
      g.black_queue.entries.map (rotate_pos clockwise g.b.width g.b.height) ∧
    g1.white_queue.entries =
      g.white_queue.entries.map (rotate_pos clockwise g.b.width g.b.height) ∧
    g1.black_queue.len = g.black_queue.len ∧ g1.white_queue.len = g.white_queue.len := by
  obtain ⟨nb, hnb, hg1⟩ := rotate_success hrot
  obtain ⟨h1, h2⟩ := rotate_board_dims hnb
  have hb := remap_queue_entries nb clockwise g.black_queue.entries posqueue_new
  have hw := remap_queue_entries nb clockwise g.white_queue.entries posqueue_new
  rw [h1, h2] at hb hw
  subst hg1
  simp only [posqueue.len] at hb hw ⊢
  rw [hb, hw]
  simp [posqueue_new]

theorem rotate_queues_witness :
    rotate demo_matrix_game false = some (true, demo_matrix_game_ccw) ∧
    (demo_matrix_game_ccw.black_queue.entries =
        demo_matrix_game.black_queue.entries.map
          (rotate_pos false demo_matrix_game.b.width demo_matrix_game.b.height) ∧
      demo_matrix_game_ccw.white_queue.entries =
        demo_matrix_game.white_queue.entries.map
          (rotate_pos false demo_matrix_game.b.width demo_matrix_game.b.height) ∧
      demo_matrix_game_ccw.black_queue.len = demo_matrix_game.black_queue.len ∧
      demo_matrix_game_ccw.white_queue.len = demo_matrix_game.white_queue.len) :=
  ⟨by decide, rotate_queues demo_matrix_game demo_matrix_game_ccw false (by decide)⟩

/-! ## `uplift` -/

theorem uplift_slide_succ (b : board) (c r : Nat) :
    uplift_slide b c (r + 1) =
      (board_get b (make_pos r c)).bind fun v =>
        if v = cell.EMPTY then uplift_slide b c r else some (r + 1) := rfl

/-- The row the loop of `uplift` ends at: all the cells passed are `EMPTY`, and the cell above
the last row, when there is one, is not. -/
theorem uplift_slide_spec (b : board) (c : Nat) :
    ∀ (r r1 : Nat), uplift_slide b c r = some r1 →
      r1 ≤ r ∧ (∀ k, r1 ≤ k → k < r → board_get b (make_pos k c) = some cell.EMPTY) ∧
      (r1 = 0 ∨ ∃ v, board_get b (make_pos (r1 - 1) c) = some v ∧ v ≠ cell.EMPTY) := by
  intro r
  induction r with
  | zero =>
    intro r1 h
    simp only [uplift_slide, Option.some.injEq] at h
    subst h
    exact ⟨Nat.le_refl _, fun k _ hk => absurd hk (Nat.not_lt_zero _), Or.inl rfl⟩
  | succ r ih =>
    intro r1 h
    simp only [uplift_slide] at h
    cases hg : board_get b (make_pos r c) with
    | none => rw [hg] at h; simp at h
    | some v =>
      rw [hg] at h
      simp only [Option.some_bind] at h
      by_cases hv : v = cell.EMPTY
      · rw [if_pos hv] at h
        obtain ⟨h1, h2, h3⟩ := ih r1 h
        refine ⟨by omega, ?_, h3⟩
        intro k hk1 hk2
        by_cases hk : k = r
        · rw [hk, hg, hv]
        · exact h2 k hk1 (by omega)
      · rw [if_neg hv] at h
        simp only [Option.some.injEq] at h
        subst h
        refine ⟨Nat.le_refl _, fun k hk1 hk2 => by omega, Or.inr ⟨v, ?_, hv⟩⟩
        simpa using hg

/-- The loop of `uplift` ends when all the cells of the column above the piece can be read. -/
theorem uplift_slide_total (b : board) (c : Nat) :
    ∀ r : Nat, (∀ k, k < r → ∃ v, board_get b (make_pos k c) = some v) →
      ∃ r1, uplift_slide b c r = some r1 := by
  intro r
  induction r with
  | zero => intro _; exact ⟨0, rfl⟩
  | succ r ih =>
    intro h
    obtain ⟨v, hv⟩ := h r (Nat.lt_succ_self r)
    simp only [uplift_slide, hv, Option.some_bind]
    by_cases hv1 : v = cell.EMPTY
    · rw [if_pos hv1]
      exact ih (fun k hk => h k (by omega))
    · rw [if_neg hv1]
      exact ⟨_, rfl⟩

theorem set_uplift_queue_b (g : game) (c : cell) (q : posqueue) :
    (set_uplift_queue g c q).b = g.b := by
  unfold set_uplift_queue
  by_cases h : c = cell.BLACK <;> simp [h]

/-- The steps of `uplift` on a queue whose oldest position is not in row `0`. -/
theorem uplift_moved {g g1 : game} {c : cell} {p : pos} {rest : List pos}
    (hq : (uplift_queue g c).entries = p :: rest) (hr : 0 < p.r)
    (hup : uplift g c = some (true, g1)) :
    ∃ r1 b1 b2, uplift_slide g.b p.c p.r = some r1 ∧
      board_set g.b p cell.EMPTY = some b1 ∧ board_set b1 (make_pos r1 p.c) c = some b2 ∧
      g1.b = b2 ∧ (uplift_queue g1 c).entries = rest ++ [make_pos r1 p.c] ∧
      other_queue g1 c = other_queue g c ∧ g1.player = flip_player g.player ∧
      g1.last_rotation = rotation.NO_ROTATION ∧ g1.run = g.run := by
  have hlen : (uplift_queue g c).len ≠ 0 := by simp [posqueue.len, hq]
  have hguard : ¬ ((c = cell.BLACK ∧ g.black_queue.len = 0) ∨
      (c = cell.WHITE ∧ g.white_queue.len = 0)) := by
    intro h
    rcases h with ⟨h1, h2⟩ | ⟨h1, h2⟩
    · apply hlen; simpa [uplift_queue, h1] using h2
    · apply hlen; simpa [uplift_queue, h1] using h2
  have hdq : pos_dequeue (uplift_queue g c) = (p, ⟨rest⟩) := by
    simp only [pos_dequeue, hq]
  have hr0 : ¬ p.r = 0 := by omega
  unfold uplift at hup
  rw [if_neg hguard] at hup
  simp only [hdq, hr0, if_false, set_uplift_queue_b] at hup
  cases hs : uplift_slide g.b p.c p.r with
  | none => rw [hs] at hup; simp at hup
  | some r1 =>
    rw [hs] at hup
    simp only [Option.some_bind] at hup
    cases hb1 : board_set g.b p cell.EMPTY with
    | none => rw [hb1] at hup; simp at hup
    | some b1 =>
      rw [hb1] at hup
      simp only [Option.some_bind] at hup
      cases hb2 : board_set b1 (make_pos r1 p.c) c with
      | none => rw [hb2] at hup; simp at hup
      | some b2 =>
        rw [hb2] at hup
        simp only [Option.some_bind, Option.some.injEq, Prod.mk.injEq, true_and] at hup
        subst hup
        refine ⟨r1, b1, b2, rfl, rfl, hb2, ?_, ?_, ?_, ?_, rfl, ?_⟩
        · by_cases h : c = cell.BLACK <;> simp [set_uplift_queue, h]
        · by_cases h : c = cell.BLACK <;>
            simp [set_uplift_queue, uplift_queue, h, pos_enqueue]
        · by_cases h : c = cell.BLACK <;> simp [set_uplift_queue, other_queue, h]
        · by_cases h : c = cell.BLACK <;> simp [set_uplift_queue, h]
        · by_cases h : c = cell.BLACK <;> simp [set_uplift_queue, h]

/-- The result of `uplift` from the results of its steps, on a queue whose oldest position is
not in row `0`. -/
theorem uplift_eval {g : game} {c : cell} {p : pos} {rest : List pos} {r1 : Nat}
    {b1 b2 : board} (hq : (uplift_queue g c).entries = p :: rest) (hr : 0 < p.r)
    (hs : uplift_slide g.b p.c p.r = some r1) (hb1 : board_set g.b p cell.EMPTY = some b1)
    (hb2 : board_set b1 (make_pos r1 p.c) c = some b2) :
    ∃ g1, uplift g c = some (true, g1) := by
  have hlen : (uplift_queue g c).len ≠ 0 := by simp [posqueue.len, hq]
  have hguard : ¬ ((c = cell.BLACK ∧ g.black_queue.len = 0) ∨
      (c = cell.WHITE ∧ g.white_queue.len = 0)) := by
    intro h
    rcases h with ⟨h1, h2⟩ | ⟨h1, h2⟩
    · apply hlen; simpa [uplift_queue, h1] using h2
    · apply hlen; simpa [uplift_queue, h1] using h2
  have hdq : pos_dequeue (uplift_queue g c) = (p, ⟨rest⟩) := by
    simp only [pos_dequeue, hq]
  have hr0 : ¬ p.r = 0 := by omega
  unfold uplift
  rw [if_neg hguard]
  simp only [hdq, hr0, if_false, set_uplift_queue_b, hs, hb1, hb2, Option.some_bind]
  exact ⟨_, rfl⟩

/-- The game `wide_game_two` is the one two calls of `place_piece` build from
`wide_game_new`. -/
theorem wide_game_two_reached :
    (place_piece wide_game_new (make_pos 32768 0)).bind
        (fun res => place_piece res.2 (make_pos 32766 0)) = some (true, wide_game_two) := by
  have h0 : (List.replicate 134221824 0)[0]? = some 0 :=
    List.getElem?_replicate_of_lt (Nat.zero_lt_succ _)
  have hlen : (List.replicate 134221824 0).length = 134221824 := List.length_replicate _ _
  have hb : wide_game_new.b = ⟨65536, 32769, board_rep.bits (List.replicate 134221824 0)⟩ :=
    wide_board_new
  have hget1 : board_get wide_game_new.b (make_pos 32768 0) = some cell.EMPTY := by
    rw [hb]
    exact get_on_bits _ _ _ 0 0 0 _ _ (by decide) (by decide) h0 (by decide)
  have hset1 : board_set wide_game_new.b (make_pos 32768 0) cell.BLACK =
      some ⟨65536, 32769, board_rep.bits ((List.replicate 134221824 0).set 0 1)⟩ := by
    rw [hb]
    exact place_on_bits _ _ _ 0 0 0 1 _ _ (by decide) (by decide) (by decide) h0 (by decide)
  have w1 : ((List.replicate 134221824 0).set 0 1)[134209536]? = some 0 := by
    rw [List.getElem?_set_ne (by decide)]
    exact List.getElem?_replicate_of_lt (by decide)
  rw [place_piece_black wide_game_new _ (make_pos 32768 0) rfl hget1 hset1, Option.some_bind]
  exact place_piece_white _ _ (make_pos 32766 0) rfl
    (get_on_bits _ _ _ 0 134209536 0 _ _ (by decide) (by decide) w1 (by decide))
    (place_on_bits _ _ _ 0 134209536 0 2 _ _ (by decide) (by decide) (by decide) w1 (by decide))

/-- C6: when the oldest queued position of the colour is `(r, c)` with `r > 0`, a successful
`uplift` enqueues, at the back of the queue without its front, the position `(r1, c)` where
`r1` is the least row `r1 ≤ r` such that every cell `(k, c)` with `r1 ≤ k < r` was `EMPTY` before
the call: either `r1 = 0` or the cell `(r1 - 1, c)` was occupied. -/
theorem uplift_stops_at_obstruction (g g1 : game) (c : cell) (p : pos) (rest : List pos)
    (hq : (uplift_queue g c).entries = p :: rest) (hr : 0 < p.r)
    (hup : uplift g c = some (true, g1)) :
    ∃ r1, (uplift_queue g1 c).entries = rest ++ [make_pos r1 p.c] ∧ r1 ≤ p.r ∧
      (∀ k, r1 ≤ k → k < p.r → board_get g.b (make_pos k p.c) = some cell.EMPTY) ∧
      (∀ r2, r2 ≤ p.r →
        (∀ k, r2 ≤ k → k < p.r → board_get g.b (make_pos k p.c) = some cell.EMPTY) →
        r1 ≤ r2) ∧
      (r1 = 0 ∨ ∃ v, board_get g.b (make_pos (r1 - 1) p.c) = some v ∧ v ≠ cell.EMPTY) := by
  obtain ⟨r1, b1, b2, hs, _, _, _, hqueue, _⟩ := uplift_moved hq hr hup
  obtain ⟨h1, h2, h3⟩ := uplift_slide_spec g.b p.c p.r r1 hs
  refine ⟨r1, hqueue, h1, h2, ?_, h3⟩
  intro r2 hr2 hall
  rcases h3 with h0 | ⟨v, hv, hne⟩
  · omega
  · by_contra hlt
    have := hall (r1 - 1) (by omega) (by omega)
    rw [hv] at this
    exact hne (by simpa using this)

theorem uplift_stops_at_obstruction_witness :
    (uplift_queue demo_uplift_game cell.BLACK).entries = make_pos 2 2 :: [] ∧
    0 < (make_pos 2 2).r ∧
    uplift demo_uplift_game cell.BLACK = some (true, demo_uplift_game_up) ∧
    ∃ r1, (uplift_queue demo_uplift_game_up cell.BLACK).entries =
        [] ++ [make_pos r1 (make_pos 2 2).c] ∧ r1 ≤ (make_pos 2 2).r ∧
      (∀ k, r1 ≤ k → k < (make_pos 2 2).r →
        board_get demo_uplift_game.b (make_pos k (make_pos 2 2).c) = some cell.EMPTY) ∧
      (∀ r2, r2 ≤ (make_pos 2 2).r →
        (∀ k, r2 ≤ k → k < (make_pos 2 2).r →
          board_get demo_uplift_game.b (make_pos k (make_pos 2 2).c) = some cell.EMPTY) →
        r1 ≤ r2) ∧
      (r1 = 0 ∨ ∃ v, board_get demo_uplift_game.b (make_pos (r1 - 1) (make_pos 2 2).c) = some v ∧
        v ≠ cell.EMPTY) :=
  ⟨by decide, by decide, by decide,
    uplift_stops_at_obstruction demo_uplift_game demo_uplift_game_up cell.BLACK (make_pos 2 2) []
      (by decide) (by decide) (by decide)⟩

/-- C7 (amended): on a game whose board has the storage `board_new` gives it and, when it is a
bit vector, at most `2 ^ 31` cells, and whose oldest queued position `p` of the colour is
in-bounds with row `> 0` (in particular when it holds a piece of the colour), `uplift` succeeds
and moves the piece to a position `p1` of the same column; afterwards the cell at `p` is
`EMPTY` when `p1` differs from `p`, the cell at `p1` holds the colour, and every other cell is
unchanged; the queue of the colour is the old queue without its front followed by `p1`, the
other queue is unchanged, the player is flipped and the last rotation is `NO_ROTATION`. -/
theorem uplift_frame (g : game) (c : cell) (p : pos) (rest : List pos)
    (hwf : g.b.wf) (hfit : g.b.fits) (hp : in_bounds g.b p)
    (hq : (uplift_queue g c).entries = p :: rest) (hr : 0 < p.r) :
    ∃ g1 r1, uplift g c = some (true, g1) ∧
      (make_pos r1 p.c ≠ p → board_get g1.b p = some cell.EMPTY) ∧
      board_get g1.b (make_pos r1 p.c) = some c ∧
      (∀ q, in_bounds g.b q → q ≠ p → q ≠ make_pos r1 p.c →
        board_get g1.b q = board_get g.b q) ∧
      (uplift_queue g1 c).entries = rest ++ [make_pos r1 p.c] ∧
      other_queue g1 c = other_queue g c ∧
      g1.player = flip_player g.player ∧ g1.last_rotation = rotation.NO_ROTATION := by
  obtain ⟨hpr, hpc⟩ := hp
  obtain ⟨r1, hs⟩ := uplift_slide_total g.b p.c p.r (fun k hk =>
    board_get_some g.b (make_pos k p.c) hwf hfit ⟨by show k < _; omega, hpc⟩)
  obtain ⟨hle, _, _⟩ := uplift_slide_spec g.b p.c p.r r1 hs
  obtain ⟨b1, hb1, ew1, eh1, et1, hwf1, hget1⟩ :=
    board_set_spec g.b p cell.EMPTY hwf hfit ⟨hpr, hpc⟩
  have hp1 : in_bounds b1 (make_pos r1 p.c) := by
    unfold in_bounds
    rw [ew1, eh1]
    exact ⟨by show r1 < _; omega, hpc⟩
  obtain ⟨b2, hb2, ew2, eh2, _, _, hget2⟩ :=
    board_set_spec b1 (make_pos r1 p.c) c hwf1 (fits_of_same_shape hfit ew1 eh1 et1) hp1
  obtain ⟨g1, hup⟩ := uplift_eval hq hr hs hb1 hb2
  obtain ⟨r1', b1', b2', hs', hb1', hb2', hb, hqueue, hother, hflip, hrot, _⟩ :=
    uplift_moved hq hr hup
  rw [hs] at hs'
  cases hs'
  rw [hb1] at hb1'
  cases hb1'
  rw [hb2] at hb2'
  cases hb2'
  have hin1 : ∀ q, in_bounds g.b q → in_bounds b1 q := by
    intro q hq1
    unfold in_bounds at hq1 ⊢
    rw [ew1, eh1]
    exact hq1
  refine ⟨g1, r1, hup, ?_, ?_, ?_, hqueue, hother, hflip, hrot⟩
  · intro hne
    rw [hb, hget2 p (hin1 p ⟨hpr, hpc⟩), if_neg (Ne.symm hne), hget1 p ⟨hpr, hpc⟩, if_pos rfl]
  · rw [hb, hget2 _ hp1, if_pos rfl]
  · intro q hq1 hne hne1
    rw [hb, hget2 q (hin1 q hq1), if_neg hne1, hget1 q hq1, if_neg hne]

theorem uplift_frame_witness :
    demo_uplift_game.b.wf ∧ demo_uplift_game.b.fits ∧
    in_bounds demo_uplift_game.b (make_pos 2 2) ∧
    (uplift_queue demo_uplift_game cell.BLACK).entries = make_pos 2 2 :: [] ∧
    0 < (make_pos 2 2).r ∧
    ∃ g1 r1, uplift demo_uplift_game cell.BLACK = some (true, g1) ∧
      (make_pos r1 (make_pos 2 2).c ≠ make_pos 2 2 →
        board_get g1.b (make_pos 2 2) = some cell.EMPTY) ∧
      board_get g1.b (make_pos r1 (make_pos 2 2).c) = some cell.BLACK ∧
      (∀ q, in_bounds demo_uplift_game.b q → q ≠ make_pos 2 2 →
        q ≠ make_pos r1 (make_pos 2 2).c →
        board_get g1.b q = board_get demo_uplift_game.b q) ∧
      (uplift_queue g1 cell.BLACK).entries = [] ++ [make_pos r1 (make_pos 2 2).c] ∧
      other_queue g1 cell.BLACK = other_queue demo_uplift_game cell.BLACK ∧
      g1.player = flip_player demo_uplift_game.player ∧
      g1.last_rotation = rotation.NO_ROTATION :=
  ⟨by decide, by decide, by decide, by decide, by decide,
    uplift_frame demo_uplift_game cell.BLACK (make_pos 2 2) [] (by decide) (by decide)
      (by decide) (by decide) (by decide)⟩

/-- C7 (as stated) fails on the game `new_game(4, 65536, 32769, BITS)` after `place_piece` at
`(32768, 0)` and at `(32766, 0)`: the oldest black position `(32768, 0)` is in-bounds, has a row
`> 0` and holds `BLACK`; `uplift` of `BLACK` succeeds and moves the piece to `(32767, 0)`; but
the other in-bounds cell `(0, 0)` reads `BLACK` before the call and `EMPTY` after it. -/
theorem packed_uplift_changes_other_cell :
    (uplift_queue wide_game_two cell.BLACK).entries = [make_pos 32768 0] ∧
    in_bounds wide_game_two.b (make_pos 32768 0) ∧
    board_get wide_game_two.b (make_pos 32768 0) = some cell.BLACK ∧
    in_bounds wide_game_two.b (make_pos 0 0) ∧
    make_pos 0 0 ≠ make_pos 32768 0 ∧ make_pos 0 0 ≠ make_pos 32767 0 ∧
    board_get wide_game_two.b (make_pos 0 0) = some cell.BLACK ∧
    ∃ g1, uplift wide_game_two cell.BLACK = some (true, g1) ∧
      (uplift_queue g1 cell.BLACK).entries = [make_pos 32767 0] ∧
      board_get g1.b (make_pos 0 0) = some cell.EMPTY := by
  have hlen : (List.replicate 134221824 0).length = 134221824 := List.length_replicate _ _
  have hlen1 : ((List.replicate 134221824 0).set 0 1).length = 134221824 := by
    rw [List.length_set, hlen]
  have hlen2 : (((List.replicate 134221824 0).set 0 1).set 134209536 2).length = 134221824 := by
    rw [List.length_set, hlen1]
  have w0 : (((List.replicate 134221824 0).set 0 1).set 134209536 2)[0]? = some 1 := by
    rw [List.getElem?_set_ne (by decide), List.getElem?_set_self (by rw [hlen]; decide)]
  have w1 : (((List.replicate 134221824 0).set 0 1).set 134209536 2)[134209536]? = some 2 :=
    List.getElem?_set_self (by rw [hlen1]; decide)
  have w2 : (((List.replicate 134221824 0).set 0 1).set 134209536 2)[134213632]? = some 0 := by
    rw [List.getElem?_set_ne (by decide), List.getElem?_set_ne (by decide)]
    exact List.getElem?_replicate_of_lt (by decide)
  have hgetp : board_get wide_game_two.b (make_pos 32768 0) = some cell.BLACK :=
    get_on_bits _ _ _ 1 0 0 _ _ (by decide) (by decide) w0 (by decide)
  have hget0 : board_get wide_game_two.b (make_pos 0 0) = some cell.BLACK :=
    get_on_bits _ _ _ 1 0 0 _ _ (by decide) (by decide) w0 (by decide)
  have hget1 : board_get wide_game_two.b (make_pos 32767 0) = some cell.EMPTY :=
    get_on_bits _ _ _ 0 134213632 0 _ _ (by decide) (by decide) w2 (by decide)
  have hget2 : board_get wide_game_two.b (make_pos 32766 0) = some cell.WHITE :=
    get_on_bits _ _ _ 2 134209536 0 _ _ (by decide) (by decide) w1 (by decide)
  have hslide : uplift_slide wide_game_two.b (make_pos 32768 0).c (make_pos 32768 0).r =
      some 32767 := by
    show uplift_slide wide_game_two.b 0 (32767 + 1) = some 32767
    rw [uplift_slide_succ, hget1, Option.some_bind, if_pos rfl]
    show uplift_slide wide_game_two.b 0 (32766 + 1) = some 32767
    rw [uplift_slide_succ, hget2, Option.some_bind, if_neg (by decide)]
  have hset1 : board_set wide_game_two.b (make_pos 32768 0) cell.EMPTY =
      some ⟨65536, 32769, board_rep.bits
        ((((List.replicate 134221824 0).set 0 1).set 134209536 2).set 0 0)⟩ :=
    place_on_bits _ _ _ 1 0 0 0 _ _ (by decide) (by decide) (by decide) w0 (by decide)
  have w3 : ((((List.replicate 134221824 0).set 0 1).set 134209536 2).set 0 0)[134213632]? =
      some 0 := by
    rw [List.getElem?_set_ne (by decide)]
    exact w2
  have hset2 : board_set ⟨65536, 32769, board_rep.bits
        ((((List.replicate 134221824 0).set 0 1).set 134209536 2).set 0 0)⟩
        (make_pos 32767 (make_pos 32768 0).c) cell.BLACK =
      some ⟨65536, 32769, board_rep.bits
        (((((List.replicate 134221824 0).set 0 1).set 134209536 2).set 0 0).set 134213632 1)⟩ :=
    place_on_bits _ _ _ 0 134213632 0 1 _ _ (by decide) (by decide) (by decide) w3 (by decide)
  have hq : (uplift_queue wide_game_two cell.BLACK).entries = make_pos 32768 0 :: [] := rfl
  obtain ⟨g1, hup⟩ := uplift_eval hq (by decide) hslide hset1 hset2
  obtain ⟨r1, b1, b2, hs, hb1, hb2, hb, hqueue, _⟩ := uplift_moved hq (by decide) hup
  rw [hslide] at hs
  cases hs
  rw [hset1] at hb1
  cases hb1
  rw [hset2] at hb2
  cases hb2
  refine ⟨rfl, ⟨by decide, by decide⟩, hgetp, ⟨by decide, by decide⟩, by decide, by decide,
    hget0, g1, hup, hqueue, ?_⟩
  rw [hb]
  refine get_on_bits _ _ _ 0 0 0 _ _ (by decide) (by decide) ?_ (by decide)
  rw [List.getElem?_set_ne (by decide)]
  exact List.getElem?_set_self (by rw [hlen2]; decide)

/-! ## `game_outcome` -/

theorem win_of_ne (c : cell) : win_of c ≠ outcome.IN_PROGRESS := by
  unfold win_of
  split <;> simp

theorem win_of_cases {v : cell} (hv : v ≠ cell.EMPTY) :
    (v = cell.BLACK ∧ win_of v = outcome.BLACK_WIN) ∨
      (v = cell.WHITE ∧ win_of v = outcome.WHITE_WIN) := by
  cases v
  · exact absurd rfl hv
  · exact Or.inl ⟨rfl, rfl⟩
  · exact Or.inr ⟨rfl, rfl⟩

theorem check_run_loop_spec (b : board) (p : pos) (color : cell) (dr dc : Int)
    (cells : Nat → pos) (n0 : Nat)
    (hpos : ∀ j, j < n0 →
      make_pos (uadd p.r (toUInt32 ((j : Int) * dr))) (uadd p.c (toUInt32 ((j : Int) * dc))) =
        cells j)
    (hread : ∀ j, j < n0 → ∃ v, board_get b (cells j) = some v) :
    ∀ n i, i + n = n0 → ∃ res, check_run_loop b p color dr dc n i = some res ∧
      (res = true ↔ ∀ j, i ≤ j → j < n0 → board_get b (cells j) = some color) := by
  intro n
  induction n with
  | zero =>
    intro i hi
    refine ⟨true, rfl, ?_⟩
    simp only [true_iff]
    intro j h1 h2
    omega
  | succ n ih =>
    intro i hi
    obtain ⟨v, hv⟩ := hread i (by omega)
    simp only [check_run_loop, hpos i (by omega), hv, Option.some_bind]
    by_cases hc : v = color
    · obtain ⟨res, hres, hiff⟩ := ih (i + 1) (by omega)
      refine ⟨res, by simp [hc, hres], ?_⟩
      rw [hiff]
      constructor
      · intro h j h1 h2
        by_cases hj : j = i
        · rw [hj, hv, hc]
        · exact h j (by omega) h2
      · intro h j h1 h2
        exact h j (by omega) h2
    · refine ⟨false, by simp [hc], ?_⟩
      simp only [Bool.false_eq_true, false_iff]
      intro h
      have := h i (Nat.le_refl i) (by omega)
      rw [hv] at this
      exact hc (by simpa using this)

theorem check_run_spec (b : board) (p : pos) (color : cell) (dr dc : Int) (run : Int)
    (cells : Nat → pos)
    (hpos : ∀ j, j < run.toNat →
      make_pos (uadd p.r (toUInt32 ((j : Int) * dr))) (uadd p.c (toUInt32 ((j : Int) * dc))) =
        cells j)
    (hread : ∀ j, j < run.toNat → ∃ v, board_get b (cells j) = some v) :
    ∃ o, check_run b p color dr dc run = some o ∧
      (o = win_of color ∨ o = outcome.IN_PROGRESS) ∧
      (o = win_of color ↔ ∀ j, j < run.toNat → board_get b (cells j) = some color) := by
  obtain ⟨res, hres, hiff⟩ :=
    check_run_loop_spec b p color dr dc cells run.toNat hpos hread run.toNat 0 (by omega)
  simp only [check_run, hres, Option.some_bind]
  cases res with
  | false =>
    refine ⟨outcome.IN_PROGRESS, by simp, Or.inr rfl, ?_⟩
    constructor
    · intro h
      exact absurd h.symm (win_of_ne color)
    · intro h
      have := hiff.mpr (fun j _ h2 => h j h2)
      cases this
  | true =>
    refine ⟨win_of color, by by_cases hb : color = cell.BLACK <;> simp [win_of, hb], Or.inl rfl, ?_⟩
    simp only [true_iff]
    intro j h2
    exact hiff.mp rfl j (Nat.zero_le j) h2

theorem try_run_spec (guard : Bool) (b : board) (p : pos) (color : cell) (dr dc : Int)
    (run : Int) (cells : Nat → pos)
    (hpos : guard = true → ∀ j, j < run.toNat →
      make_pos (uadd p.r (toUInt32 ((j : Int) * dr))) (uadd p.c (toUInt32 ((j : Int) * dc))) =
        cells j)
    (hread : guard = true → ∀ j, j < run.toNat → ∃ v, board_get b (cells j) = some v) :
    ∃ res, try_run guard b p color dr dc run = some res ∧
      (res = none ∨ res = some (win_of color)) ∧
      (res = some (win_of color) ↔
        guard = true ∧ ∀ j, j < run.toNat → board_get b (cells j) = some color) := by
  cases guard with
  | false => exact ⟨none, by simp [try_run], Or.inl rfl, by simp⟩
  | true =>
    obtain ⟨o, ho, hor, hiff⟩ :=
      check_run_spec b p color dr dc run cells (hpos rfl) (hread rfl)
    simp only [try_run, if_true, ho, Option.some_bind]
    rcases hor with h | h
    · refine ⟨some (win_of color), by simp [h, win_of_ne], Or.inr rfl, ?_⟩
      simp only [true_and, true_iff]
      exact hiff.mp h
    · refine ⟨none, by simp [h], Or.inl rfl, ?_⟩
      simp only [true_and]
      constructor
      · intro h1; cases h1
      · intro h1
        have := hiff.mpr h1
        rw [h] at this
        exact absurd this.symm (win_of_ne color)

theorem run_along_row {b : board} {n r c : Nat} {v : cell} (hr : r < b.height)
    (hc : c < b.width) :
    run_along b n v (fun i => make_pos r (c + i)) ↔
      (c + n ≤ b.width ∧ ∀ j, j < n → board_get b (make_pos r (c + j)) = some v) := by
  constructor
  · intro h
    refine ⟨?_, fun j hj => (h j hj).2⟩
    cases n with
    | zero => omega
    | succ n =>
      have := (h n (Nat.lt_succ_self n)).1
      rw [in_bounds_mk] at this
      omega
  · intro h j hj
    exact ⟨in_bounds_mk.mpr ⟨hr, by omega⟩, h.2 j hj⟩

theorem run_along_col {b : board} {n r c : Nat} {v : cell} (hr : r < b.height)
    (hc : c < b.width) :
    run_along b n v (fun i => make_pos (r + i) c) ↔
      (r + n ≤ b.height ∧ ∀ j, j < n → board_get b (make_pos (r + j) c) = some v) := by
  constructor
  · intro h
    refine ⟨?_, fun j hj => (h j hj).2⟩
    cases n with
    | zero => omega
    | succ n =>
      have := (h n (Nat.lt_succ_self n)).1
      rw [in_bounds_mk] at this
      omega
  · intro h j hj
    exact ⟨in_bounds_mk.mpr ⟨by omega, hc⟩, h.2 j hj⟩

theorem run_along_down {b : board} {n r c : Nat} {v : cell} (hr : r < b.height)
    (hc : c < b.width) :
    run_along b n v (fun i => make_pos (r + i) (c + i)) ↔
      ((c + n ≤ b.width ∧ r + n ≤ b.height) ∧
        ∀ j, j < n → board_get b (make_pos (r + j) (c + j)) = some v) := by
  constructor
  · intro h
    refine ⟨?_, fun j hj => (h j hj).2⟩
    cases n with
    | zero => omega
    | succ n =>
      have := (h n (Nat.lt_succ_self n)).1
      rw [in_bounds_mk] at this
      omega
  · intro h j hj
    exact ⟨in_bounds_mk.mpr ⟨by omega, by omega⟩, h.2 j hj⟩

theorem run_along_up {b : board} {n r c : Nat} {v : cell} (hr : r < b.height)
    (hc : c < b.width) :
    (n ≤ r + 1 ∧ run_along b n v (fun i => make_pos (r - i) (c + i))) ↔
      ((c + n ≤ b.width ∧ n ≤ r + 1) ∧
        ∀ j, j < n → board_get b (make_pos (r - j) (c + j)) = some v) := by
  constructor
  · intro h
    refine ⟨⟨?_, h.1⟩, fun j hj => (h.2 j hj).2⟩
    cases n with
    | zero => omega
    | succ n =>
      have := (h.2 n (Nat.lt_succ_self n)).1
      rw [in_bounds_mk] at this
      omega
  · intro h
    refine ⟨h.1.2, fun j hj => ⟨in_bounds_mk.mpr ⟨by omega, by omega⟩, h.2 j hj⟩⟩

theorem fits_eq {c n : Nat} (hc : c < 2147483648) (hn : n < 2147483648) :
    toUInt32 (wrapInt32 (toInt32 c + toInt32 n)) = c + n := by
  rw [toUInt32_wrapInt32, toInt32_of_lt hc, toInt32_of_lt hn]
  unfold toUInt32
  omega

theorem fits_up_eq {r n : Nat} (hr : r < 2147483647) (hn : n < 2147483648) :
    (0 ≤ wrapInt32 (wrapInt32 (toInt32 r - toInt32 n) + 1)) ↔ n ≤ r + 1 := by
  rw [toInt32_of_lt (by omega), toInt32_of_lt hn,
    wrapInt32_of_range (x := (r : Int) - (n : Int)) (by omega) (by omega),
    wrapInt32_of_range (by omega) (by omega)]
  omega

theorem step_pos_right {r c j : Nat} (hr : r < 2147483648) (hc : c < 2147483648)
    (hj : j < 2147483648) :
    make_pos (uadd r (toUInt32 ((j : Int) * 0))) (uadd c (toUInt32 ((j : Int) * 1))) =
      make_pos r (c + j) := by
  simp only [make_pos, uadd, toUInt32, UINT_SIZE, pos.mk.injEq]
  omega

theorem step_pos_down {r c j : Nat} (hr : r < 2147483648) (hc : c < 2147483648)
    (hj : j < 2147483648) :
    make_pos (uadd r (toUInt32 ((j : Int) * 1))) (uadd c (toUInt32 ((j : Int) * 0))) =
      make_pos (r + j) c := by
  simp only [make_pos, uadd, toUInt32, UINT_SIZE, pos.mk.injEq]
  omega

theorem step_pos_diag {r c j : Nat} (hr : r < 2147483648) (hc : c < 2147483648)
    (hj : j < 2147483648) :
    make_pos (uadd r (toUInt32 ((j : Int) * 1))) (uadd c (toUInt32 ((j : Int) * 1))) =
      make_pos (r + j) (c + j) := by
  simp only [make_pos, uadd, toUInt32, UINT_SIZE, pos.mk.injEq]
  omega

theorem step_pos_up {r c j : Nat} (hr : r < 2147483648) (hc : c < 2147483648)
    (hj : j ≤ r) :
    make_pos (uadd r (toUInt32 ((j : Int) * (-1)))) (uadd c (toUInt32 ((j : Int) * 1))) =
      make_pos (r - j) (c + j) := by
  simp only [make_pos, uadd, toUInt32, UINT_SIZE, pos.mk.injEq]
  omega

/-- The result of the body of the first pair of loops of `game_outcome` at an in-bounds cell
`(r, c)` holding `v`: it returns `win_of v` when `v` is not `EMPTY` and a run of `v` of the
length `run` starts at the cell, and goes on otherwise. -/
theorem scan_cell_spec (g : game) (r c : Nat) (v : cell)
    (hrun : g.run < 2147483648) (hw : g.b.width < 2147483648) (hh : g.b.height < 2147483648)
    (hread : board_readable g.b) (hr : r < g.b.height) (hc : c < g.b.width)
    (hv : board_get g.b (make_pos r c) = some v) :
    ∃ res, scan_cell g r c = some res ∧ (res = none ∨ res = some (win_of v)) ∧
      (res = some (win_of v) ↔ v ≠ cell.EMPTY ∧ starts_run g.b g.run v r c) := by
  have hn : (toInt32 g.run).toNat = g.run := toInt32_toNat hrun
  have hfw : toUInt32 (wrapInt32 (toInt32 c + toInt32 g.run)) = c + g.run :=
    fits_eq (by omega) hrun
  have hfh : toUInt32 (wrapInt32 (toInt32 r + toInt32 g.run)) = r + g.run :=
    fits_eq (by omega) hrun
  have hfu := fits_up_eq (r := r) (n := g.run) (by omega) hrun
  by_cases hvE : v = cell.EMPTY
  · refine ⟨none, by simp [scan_cell, hv, hvE], Or.inl rfl, ?_⟩
    constructor
    · intro h; cases h
    · intro h; exact absurd hvE h.1
  · obtain ⟨res1, e1, o1, i1⟩ := try_run_spec (decide (c + g.run ≤ g.b.width)) g.b
      (make_pos r c) v 0 1 (toInt32 g.run) (fun i => make_pos r (c + i))
      (fun _ j hj => step_pos_right (r := r) (c := c) (by omega) (by omega)
        (by rw [hn] at hj; omega))
      (fun hg j hj => hread _ (in_bounds_mk.mpr ⟨hr, by
        have := of_decide_eq_true hg
        rw [hn] at hj
        omega⟩))
    obtain ⟨res2, e2, o2, i2⟩ := try_run_spec (decide (r + g.run ≤ g.b.height)) g.b
      (make_pos r c) v 1 0 (toInt32 g.run) (fun i => make_pos (r + i) c)
      (fun _ j hj => step_pos_down (r := r) (c := c) (by omega) (by omega)
        (by rw [hn] at hj; omega))
      (fun hg j hj => hread _ (in_bounds_mk.mpr ⟨by
        have := of_decide_eq_true hg
        rw [hn] at hj
        omega, hc⟩))
    obtain ⟨res3, e3, o3, i3⟩ := try_run_spec
      (decide (c + g.run ≤ g.b.width) && decide (r + g.run ≤ g.b.height)) g.b
      (make_pos r c) v 1 1 (toInt32 g.run) (fun i => make_pos (r + i) (c + i))
      (fun _ j hj => step_pos_diag (r := r) (c := c) (by omega) (by omega)
        (by rw [hn] at hj; omega))
      (fun hg j hj => hread _ (in_bounds_mk.mpr (by
        simp only [Bool.and_eq_true, decide_eq_true_eq] at hg
        rw [hn] at hj
        omega)))
    obtain ⟨res4, e4, o4, i4⟩ := try_run_spec
      (decide (c + g.run ≤ g.b.width) && decide (g.run ≤ r + 1)) g.b
      (make_pos r c) v (-1) 1 (toInt32 g.run) (fun i => make_pos (r - i) (c + i))
      (fun hg j hj => step_pos_up (r := r) (c := c) (by omega) (by omega) (by
        simp only [Bool.and_eq_true, decide_eq_true_eq] at hg
        rw [hn] at hj
        omega))
      (fun hg j hj => hread _ (in_bounds_mk.mpr (by
        simp only [Bool.and_eq_true, decide_eq_true_eq] at hg
        rw [hn] at hj
        omega)))
    rw [hn] at i1 i2 i3 i4
    simp only [decide_eq_true_eq, Bool.and_eq_true] at i1 i2 i3 i4
    rw [← run_along_row hr hc] at i1
    rw [← run_along_col hr hc] at i2
    rw [← run_along_down hr hc] at i3
    rw [← run_along_up hr hc] at i4
    rcases o1 with h1 | h1
    · rcases o2 with h2 | h2
      · rcases o3 with h3 | h3
        · rcases o4 with h4 | h4
          · subst h1 h2 h3 h4
            refine ⟨none, by simp only [scan_cell, hv, Option.some_bind, hvE, if_false, hfw,
              hfh, hfu, e1, e2, e3, e4], Or.inl rfl, ?_⟩
            constructor
            · intro h; cases h
            · intro h
              rcases h.2 with k | k | k | k
              · have := i1.mpr k; cases this
              · have := i2.mpr k; cases this
              · have := i3.mpr k; cases this
              · have := i4.mpr k; cases this
          · subst h1 h2 h3 h4
            refine ⟨some (win_of v), by simp only [scan_cell, hv, Option.some_bind, hvE,
              if_false, hfw, hfh, hfu, e1, e2, e3, e4], Or.inr rfl, ?_⟩
            simp only [true_iff]
            exact ⟨hvE, Or.inr (Or.inr (Or.inr (i4.mp rfl)))⟩
        · subst h1 h2 h3
          refine ⟨some (win_of v), by simp only [scan_cell, hv, Option.some_bind, hvE,
            if_false, hfw, hfh, hfu, e1, e2, e3], Or.inr rfl, ?_⟩
          simp only [true_iff]
          exact ⟨hvE, Or.inr (Or.inr (Or.inl (i3.mp rfl)))⟩
      · subst h1 h2
        refine ⟨some (win_of v), by simp only [scan_cell, hv, Option.some_bind, hvE,
          if_false, hfw, hfh, hfu, e1, e2], Or.inr rfl, ?_⟩
        simp only [true_iff]
        exact ⟨hvE, Or.inr (Or.inl (i2.mp rfl))⟩
    · subst h1
      refine ⟨some (win_of v), by simp only [scan_cell, hv, Option.some_bind, hvE,
        if_false, hfw, hfh, hfu, e1], Or.inr rfl, ?_⟩
      simp only [true_iff]
      exact ⟨hvE, Or.inl (i1.mp rfl)⟩

theorem empty_cell_spec (g : game) (r c : Nat) (v : cell)
    (hv : board_get g.b (make_pos r c) = some v) :
    empty_cell g r c =
      some (if v = cell.EMPTY then some outcome.IN_PROGRESS else none) := by
  simp only [empty_cell, hv, Option.some_bind]
  split <;> rfl

/-- What `game_outcome` returns on a board whose cells can all be read, when the run length,
the width and the height are below `2 ^ 31`: the win of the colour of the first cell, in the
order of the rows, at which a run of its colour starts; and, when there is no such cell,
`IN_PROGRESS` if some cell is `EMPTY` and `DRAW` if none is. -/
theorem game_outcome_spec (g : game)
    (hrun : g.run < 2147483648) (hw : g.b.width < 2147483648) (hh : g.b.height < 2147483648)
    (hread : board_readable g.b) :
    ∃ o, game_outcome g = some o ∧
      ((∃ r c v, r < g.b.height ∧ c < g.b.width ∧ board_get g.b (make_pos r c) = some v ∧
          v ≠ cell.EMPTY ∧ starts_run g.b g.run v r c ∧ o = win_of v ∧
          ∀ r1 c1 v1, r1 < g.b.height → c1 < g.b.width → (r1 < r ∨ (r1 = r ∧ c1 < c)) →
            board_get g.b (make_pos r1 c1) = some v1 →
            ¬ (v1 ≠ cell.EMPTY ∧ starts_run g.b g.run v1 r1 c1)) ∨
        ((∀ r c v, r < g.b.height → c < g.b.width → board_get g.b (make_pos r c) = some v →
            ¬ (v ≠ cell.EMPTY ∧ starts_run g.b g.run v r c)) ∧
          ((has_empty g.b ∧ o = outcome.IN_PROGRESS) ∨
            (¬ has_empty g.b ∧ o = outcome.DRAW)))) := by
  have hcell : ∀ r c, r < g.b.height → c < g.b.width →
      ∃ v, board_get g.b (make_pos r c) = some v := fun r c hr hc =>
    hread (make_pos r c) (in_bounds_mk.mpr ⟨hr, hc⟩)
  have hnone_iff : ∀ r c v, r < g.b.height → c < g.b.width →
      board_get g.b (make_pos r c) = some v → scan_cell g r c = some none →
      ¬ (v ≠ cell.EMPTY ∧ starts_run g.b g.run v r c) := by
    intro r c v hr hc hv hs hcontra
    obtain ⟨res, e, _, hiff⟩ := scan_cell_spec g r c v hrun hw hh hread hr hc hv
    rw [hs] at e
    cases e
    have := hiff.mpr hcontra
    cases this
  rcases for_return_nested (fun r c => scan_cell g r c) g.b.width g.b.height (by
    intro r c hr hc
    obtain ⟨v, hv⟩ := hcell r c hr hc
    obtain ⟨res, e, _⟩ := scan_cell_spec g r c v hrun hw hh hread hr hc hv
    exact ⟨res, e⟩) with ⟨h1, h2⟩ | ⟨r, c, a, hr, hc, hcellres, hfirst, h1⟩
  · have hno : ∀ r c v, r < g.b.height → c < g.b.width →
        board_get g.b (make_pos r c) = some v →
        ¬ (v ≠ cell.EMPTY ∧ starts_run g.b g.run v r c) := fun r c v hr hc hv =>
      hnone_iff r c v hr hc hv (h2 r c hr hc)
    rcases for_return_nested (fun r c => empty_cell g r c) g.b.width g.b.height (by
      intro r c hr hc
      obtain ⟨v, hv⟩ := hcell r c hr hc
      exact ⟨_, empty_cell_spec g r c v hv⟩) with ⟨h3, h4⟩ | ⟨r, c, a, hr, hc, hres, _, h3⟩
    · refine ⟨outcome.DRAW, by simp only [game_outcome, h1, h3, Option.some_bind],
        Or.inr ⟨hno, Or.inr ⟨?_, rfl⟩⟩⟩
      rintro ⟨p, hp, hpe⟩
      have := h4 p.r p.c hp.1 hp.2
      rw [empty_cell_spec g p.r p.c cell.EMPTY hpe] at this
      simp at this
    · obtain ⟨v, hv⟩ := hcell r c hr hc
      rw [empty_cell_spec g r c v hv] at hres
      by_cases hve : v = cell.EMPTY
      · rw [if_pos hve] at hres
        simp only [Option.some.injEq] at hres
        subst hres
        refine ⟨outcome.IN_PROGRESS, by simp only [game_outcome, h1, h3, Option.some_bind],
          Or.inr ⟨hno, Or.inl ⟨⟨make_pos r c, in_bounds_mk.mpr ⟨hr, hc⟩, ?_⟩, rfl⟩⟩⟩
        rw [hv, hve]
      · rw [if_neg hve] at hres
        cases hres
  · obtain ⟨v, hv⟩ := hcell r c hr hc
    obtain ⟨res, e, hor, hiff⟩ := scan_cell_spec g r c v hrun hw hh hread hr hc hv
    rw [hcellres] at e
    simp only [Option.some.injEq] at e
    subst e
    rcases hor with hor | hor
    · cases hor
    · simp only [Option.some.injEq] at hor
      subst hor
      obtain ⟨hne, hstart⟩ := hiff.mp rfl
      refine ⟨win_of v, by simp only [game_outcome, h1, Option.some_bind],
        Or.inl ⟨r, c, v, hr, hc, hv, hne, hstart, rfl, ?_⟩⟩
      intro r1 c1 v1 hr1 hc1 hlt hv1
      exact hnone_iff r1 c1 v1 hr1 hc1 hv1 (hfirst r1 c1 hr1 hc1 hlt)

theorem starts_run_origin {b : board} {n r c : Nat} {col : cell} (hn : 1 ≤ n)
    (h : starts_run b n col r c) :
    in_bounds b (make_pos r c) ∧ board_get b (make_pos r c) = some col := by
  rcases h with h | h | h | ⟨_, h⟩
  · simpa using h 0 (by omega)
  · simpa using h 0 (by omega)
  · simpa using h 0 (by omega)
  · simpa using h 0 (by omega)

theorem demo_new_game_no_run (col : cell) (hcol : col ≠ cell.EMPTY) :
    ¬ has_run demo_new_game.b demo_new_game.run col := by
  rintro ⟨r, c, h⟩
  obtain ⟨hin, hget⟩ := starts_run_origin (by decide) h
  obtain ⟨hr, hc⟩ := hin
  have hr3 : r < 3 := hr
  have hc3 : c < 3 := hc
  have hE : board_get demo_new_game.b (make_pos r c) = some cell.EMPTY := by
    interval_cases r <;> interval_cases c <;> rfl
  rw [hE] at hget
  exact hcol (by simpa using hget.symm)

theorem tall_board_word (w0 : Nat) :
    ((List.replicate 134217728 0).set 0 w0)[0]? = some w0 :=
  List.getElem?_set_self (by rw [List.length_replicate]; exact Nat.zero_lt_succ _)

theorem tall_board_get (ws : List Nat) (w0 k : Nat) (h0 : ws[0]? = some w0) (hk : k < 16) :
    board_get ⟨1, 2147483648, board_rep.bits ws⟩ (make_pos k 0) =
      some (cell_of_bits ((w0 >>> (2 * k)) &&& 3)) := by
  have hi : bit_index 1 (make_pos k 0) = 2 * k := by
    simp only [bit_index, umul, uadd, make_pos, UINT_SIZE]
    omega
  have h1 : 2 * k / 32 = 0 := by omega
  have h2 : 2 * k % 32 = 2 * k := by omega
  simp only [board_get, hi, h1, h2, h0]

/-- A board of width `1` and height `2 ^ 31` one of whose first cells has not the colour has no
run of `2 ^ 31` cells of the colour. -/
theorem tall_board_no_run (ws : List Nat) (w0 k : Nat) (col : cell) (h0 : ws[0]? = some w0)
    (hk : k < 16) (hcol : cell_of_bits ((w0 >>> (2 * k)) &&& 3) ≠ col) :
    ¬ has_run ⟨1, 2147483648, board_rep.bits ws⟩ 2147483648 col := by
  rintro ⟨r, c, h | h | h | ⟨_, h⟩⟩
  · have := (h 1 (by norm_num)).1
    rw [in_bounds_mk] at this
    simp only at this
    omega
  · have h1 := (h 2147483647 (by norm_num)).1
    rw [in_bounds_mk] at h1
    simp only at h1
    have hr : r = 0 := by omega
    have hc : c = 0 := by omega
    subst hr hc
    have h2 := (h k (by omega)).2
    simp only [Nat.zero_add] at h2
    rw [tall_board_get ws w0 k h0 hk] at h2
    exact hcol (by simpa using h2)
  · have := (h 1 (by norm_num)).1
    rw [in_bounds_mk] at this
    simp only at this
    omega
  · have := (h 1 (by norm_num)).1
    rw [in_bounds_mk] at this
    simp only at this
    omega

/-- On a bit vector board of width `1` and height `2 ^ 31` whose cell `(0, 0)` is not `EMPTY`,
with the run length `2 ^ 31`, `game_outcome` returns the win of the colour of that cell: `run`
is negative as an `int`, the test `r + run <= height` holds at `(0, 0)`, and the loop of
`check_run` does not run. -/
theorem huge_run_outcome (ws : List Nat) (w0 : Nat) (v : cell) (bq wq : posqueue)
    (pl : turn) (rot : rotation)
    (h0 : ws[0]? = some w0) (hv : cell_of_bits ((w0 >>> 0) &&& 3) = v)
    (hne : v ≠ cell.EMPTY) :
    game_outcome ⟨2147483648, ⟨1, 2147483648, board_rep.bits ws⟩, bq, wq, pl, rot⟩ =
      some (win_of v) := by
  have hget : board_get ⟨1, 2147483648, board_rep.bits ws⟩ (make_pos 0 0) = some v := by
    have hi : bit_index 1 (make_pos 0 0) = 0 := by decide
    simp only [board_get, hi, h0, hv]
  have e1 : toInt32 2147483648 = -2147483648 := by decide
  have e2 : toUInt32 (wrapInt32 (toInt32 0 + -2147483648)) = 2147483648 := by decide
  have hcell : scan_cell ⟨2147483648, ⟨1, 2147483648, board_rep.bits ws⟩, bq, wq, pl, rot⟩ 0 0 =
      some (some (win_of v)) := by
    simp only [scan_cell, hget, Option.some_bind, hne, if_false, e1, e2]
    simp only [try_run, check_run, check_run_loop, win_of, Option.some_bind]
    by_cases hbl : v = cell.BLACK <;> simp [hbl]
  have hrow := for_return_first
    (fun c => scan_cell ⟨2147483648, ⟨1, 2147483648, board_rep.bits ws⟩, bq, wq, pl, rot⟩ 0 c)
    0 0 _ hcell
  have hall := for_return_first
    (fun r => for_return (fun c =>
      scan_cell ⟨2147483648, ⟨1, 2147483648, board_rep.bits ws⟩, bq, wq, pl, rot⟩ r c) (0 + 1) 0)
    2147483647 0 _ hrow
  unfold game_outcome
  simp only []
  have hh : (2147483648 : Nat) = 2147483647 + 1 := rfl
  have hw : (1 : Nat) = 0 + 1 := rfl
  rw [hh, hw, hall]
  rfl

theorem tall_board_new : board_new 1 2147483648 type.BITS =
    ⟨1, 2147483648, board_rep.bits (List.replicate 134217728 0)⟩ := by
  have hn : usub (uadd (umul 1 2147483648) 16) 1 / 16 = 134217728 := by decide
  simp only [board_new, hn]

theorem tall_step1 : board_get ⟨1, 2147483648, board_rep.bits (List.replicate 134217728 0)⟩
      (make_pos 0 0) = some cell.EMPTY :=
  get_on_bits _ _ _ 0 0 0 _ _ (by decide) (by decide)
    (List.getElem?_replicate_of_lt (Nat.zero_lt_succ _)) (by decide)

theorem tall_step2 : board_set ⟨1, 2147483648, board_rep.bits (List.replicate 134217728 0)⟩
      (make_pos 0 0) cell.BLACK = some (tall_board 1) :=
  place_on_bits _ _ _ 0 0 0 1 _ _ (by decide) (by decide) (by decide)
    (List.getElem?_replicate_of_lt (Nat.zero_lt_succ _)) (by decide)

theorem tall_new_game :
    new_game 2147483648 1 2147483648 type.BITS =
      some ⟨2147483648, ⟨1, 2147483648, board_rep.bits (List.replicate 134217728 0)⟩,
        posqueue_new, posqueue_new, turn.BLACKS_TURN, rotation.NO_ROTATION⟩ := by
  have hguard : ¬ ((2147483648 : Nat) > 1 ∧ (2147483648 : Nat) > 2147483648) := by omega
  unfold new_game
  rw [if_neg hguard, tall_board_new]

/-- The game `tall_game_one` is the one `new_game` and `place_piece` build. -/
theorem tall_game_one_reached :
    (new_game 2147483648 1 2147483648 type.BITS).bind (fun g => place_piece g (make_pos 0 0)) =
      some (true, tall_game_one) := by
  rw [tall_new_game, Option.some_bind]
  exact place_piece_black ⟨2147483648, ⟨1, 2147483648, board_rep.bits (List.replicate 134217728 0)⟩,
    posqueue_new, posqueue_new, turn.BLACKS_TURN, rotation.NO_ROTATION⟩ (tall_board 1)
    (make_pos 0 0) rfl tall_step1 tall_step2

/-- The game `tall_game_two` is the one `place_piece` at `(1, 0)` builds from
`tall_game_one`. -/
theorem tall_game_two_reached :
    place_piece tall_game_one (make_pos 1 0) = some (true, tall_game_two) := by
  have hset : board_set tall_game_one.b (make_pos 1 0) cell.WHITE = some (tall_board 9) := by
    have := place_on_bits 1 2147483648 ((List.replicate 134217728 0).set 0 1) 1 0 2 9
      (make_pos 1 0) cell.WHITE (by decide) (by decide) (by decide) (tall_board_word 1)
      (by decide)
    rw [List.set_set] at this
    exact this
  exact place_piece_white tall_game_one _ (make_pos 1 0) rfl
    (get_on_bits _ _ _ 1 0 2 _ _ (by decide) (by decide) (tall_board_word 1) (by decide)) hset

/-- C4 (amended): for every game with `1 ≤ run` whose run length, width and height are at most
`2 ^ 31 - 1`, the values of an `int`, and whose board can be read at every in-bounds position,
`game_outcome` returns an outcome; the outcome is `BLACK_WIN` or `WHITE_WIN` if and only if the
board contains `run` consecutive in-bounds cells of one colour, `BLACK` or `WHITE`, along a
row, a column, a down-right diagonal or an up-right diagonal; and whenever the outcome is the
win of a colour, that colour has such a run. -/
theorem game_outcome_win_iff (g : game) (hrun1 : 1 ≤ g.run)
    (hrun : g.run < 2147483648) (hw : g.b.width < 2147483648) (hh : g.b.height < 2147483648)
    (hread : board_readable g.b) :
    ∃ o, game_outcome g = some o ∧
      ((o = outcome.BLACK_WIN ∨ o = outcome.WHITE_WIN) ↔
        (has_run g.b g.run cell.BLACK ∨ has_run g.b g.run cell.WHITE)) ∧
      (o = outcome.BLACK_WIN → has_run g.b g.run cell.BLACK) ∧
      (o = outcome.WHITE_WIN → has_run g.b g.run cell.WHITE) := by
  obtain ⟨o, ho, hspec⟩ := game_outcome_spec g hrun hw hh hread
  refine ⟨o, ho, ?_⟩
  rcases hspec with ⟨r, c, v, _, _, _, hne, hstart, hwin, _⟩ | ⟨hno, hrest⟩
  · rcases win_of_cases hne with ⟨hv, hw1⟩ | ⟨hv, hw1⟩
    · subst hv
      rw [hw1] at hwin
      subst hwin
      refine ⟨⟨fun _ => Or.inl ⟨r, c, hstart⟩, fun _ => Or.inl rfl⟩,
        fun _ => ⟨r, c, hstart⟩, fun h => by cases h⟩
    · subst hv
      rw [hw1] at hwin
      subst hwin
      refine ⟨⟨fun _ => Or.inr ⟨r, c, hstart⟩, fun _ => Or.inr rfl⟩,
        fun h => (by cases h), fun _ => ⟨r, c, hstart⟩⟩
  · have hnorun : ∀ col, col ≠ cell.EMPTY → ¬ has_run g.b g.run col := by
      rintro col hcol ⟨r, c, hstart⟩
      obtain ⟨hin, hget⟩ := starts_run_origin hrun1 hstart
      exact hno r c col hin.1 hin.2 hget ⟨hcol, hstart⟩
    have ho1 : o ≠ outcome.BLACK_WIN ∧ o ≠ outcome.WHITE_WIN := by
      rcases hrest with ⟨_, h⟩ | ⟨_, h⟩ <;> subst h <;> exact ⟨by simp, by simp⟩
    refine ⟨⟨fun h => ?_, fun h => ?_⟩, fun h => absurd h ho1.1, fun h => absurd h ho1.2⟩
    · rcases h with h | h
      · exact absurd h ho1.1
      · exact absurd h ho1.2
    · rcases h with h | h
      · exact absurd h (hnorun _ (by simp))
      · exact absurd h (hnorun _ (by simp))

theorem game_outcome_win_iff_witness :
    1 ≤ demo_win_game.run ∧ demo_win_game.run < 2147483648 ∧
    demo_win_game.b.width < 2147483648 ∧ demo_win_game.b.height < 2147483648 ∧
    board_readable demo_win_game.b ∧
    ∃ o, game_outcome demo_win_game = some o ∧
      ((o = outcome.BLACK_WIN ∨ o = outcome.WHITE_WIN) ↔
        (has_run demo_win_game.b demo_win_game.run cell.BLACK ∨
          has_run demo_win_game.b demo_win_game.run cell.WHITE)) ∧
      (o = outcome.BLACK_WIN → has_run demo_win_game.b demo_win_game.run cell.BLACK) ∧
      (o = outcome.WHITE_WIN → has_run demo_win_game.b demo_win_game.run cell.WHITE) :=
  ⟨by decide, by decide, by decide, by decide,
    board_readable_of_wf (by decide) (by decide),
    game_outcome_win_iff demo_win_game (by decide) (by decide) (by decide) (by decide)
      (board_readable_of_wf (by decide) (by decide))⟩

/-- C4 (as stated) fails for the run length `2 ^ 31`: in the game
`new_game(2147483648, 1, 2147483648, BITS)` after `place_piece` at `(0, 0)`, `run` is at least
`1`, `game_outcome` returns `BLACK_WIN`, and neither colour has `run` consecutive cells on the
board. -/
theorem negative_run_wins_at_once :
    1 ≤ tall_game_one.run ∧ game_outcome tall_game_one = some outcome.BLACK_WIN ∧
    ¬ has_run tall_game_one.b tall_game_one.run cell.BLACK ∧
    ¬ has_run tall_game_one.b tall_game_one.run cell.WHITE := by
  refine ⟨by decide, ?_, ?_, ?_⟩
  · exact huge_run_outcome _ 1 cell.BLACK _ _ _ _ (tall_board_word 1) (by decide) (by decide)
  · exact tall_board_no_run _ 1 1 cell.BLACK (tall_board_word 1) (by decide) (by decide)
  · exact tall_board_no_run _ 1 1 cell.WHITE (tall_board_word 1) (by decide) (by decide)

/-- A run of at least one cell starts at an in-bounds position. -/
theorem has_run_iff (b : board) (n : Nat) (col : cell) (hn : 1 ≤ n) :
    has_run b n col ↔ ∃ r, r < b.height ∧ ∃ c, c < b.width ∧ starts_run b n col r c := by
  constructor
  · rintro ⟨r, c, h⟩
    obtain ⟨⟨hr, hc⟩, _⟩ := starts_run_origin hn h
    exact ⟨r, hr, c, hc, h⟩
  · rintro ⟨r, _, c, _, h⟩
    exact ⟨r, c, h⟩

theorem has_empty_iff (b : board) :
    has_empty b ↔
      ∃ r, r < b.height ∧ ∃ c, c < b.width ∧ board_get b (make_pos r c) = some cell.EMPTY := by
  constructor
  · rintro ⟨p, ⟨hr, hc⟩, h⟩
    exact ⟨p.r, hr, p.c, hc, h⟩
  · rintro ⟨r, hr, c, hc, h⟩
    exact ⟨make_pos r c, ⟨hr, hc⟩, h⟩

/-- C5 (amended): for every game whose run length is at least `1` and whose run length, width
and height are at most `2 ^ 31 - 1`, the values of an `int`, whose board can be read at every
in-bounds position and in which neither colour has a winning run, `game_outcome` returns
`IN_PROGRESS` if at least one cell of the board is `EMPTY` and `DRAW` if no cell is. -/
theorem game_outcome_no_win (g : game) (_hrun1 : 1 ≤ g.run)
    (hrun : g.run < 2147483648) (hw : g.b.width < 2147483648) (hh : g.b.height < 2147483648)
    (hread : board_readable g.b)
    (hblack : ¬ has_run g.b g.run cell.BLACK) (hwhite : ¬ has_run g.b g.run cell.WHITE) :
    (has_empty g.b → game_outcome g = some outcome.IN_PROGRESS) ∧
    (¬ has_empty g.b → game_outcome g = some outcome.DRAW) := by
  obtain ⟨o, ho, hspec⟩ := game_outcome_spec g hrun hw hh hread
  rcases hspec with ⟨r, c, v, _, _, _, hne, hstart, _, _⟩ | ⟨_, hrest⟩
  · rcases win_of_cases hne with ⟨hv, _⟩ | ⟨hv, _⟩
    · subst hv
      exact absurd ⟨r, c, hstart⟩ hblack
    · subst hv
      exact absurd ⟨r, c, hstart⟩ hwhite
  · rcases hrest with ⟨he, h⟩ | ⟨he, h⟩
    · subst h
      exact ⟨fun _ => ho, fun hn => absurd he hn⟩
    · subst h
      exact ⟨fun hn => absurd hn he, fun _ => ho⟩

theorem game_outcome_no_win_witness :
    (1 ≤ demo_matrix_game.run ∧ demo_matrix_game.run < 2147483648 ∧
      demo_matrix_game.b.width < 2147483648 ∧ demo_matrix_game.b.height < 2147483648 ∧
      board_readable demo_matrix_game.b ∧
      ¬ has_run demo_matrix_game.b demo_matrix_game.run cell.BLACK ∧
      ¬ has_run demo_matrix_game.b demo_matrix_game.run cell.WHITE ∧
      has_empty demo_matrix_game.b ∧
      game_outcome demo_matrix_game = some outcome.IN_PROGRESS) ∧
    (1 ≤ demo_draw_game.run ∧ demo_draw_game.run < 2147483648 ∧
      demo_draw_game.b.width < 2147483648 ∧ demo_draw_game.b.height < 2147483648 ∧
      board_readable demo_draw_game.b ∧
      ¬ has_run demo_draw_game.b demo_draw_game.run cell.BLACK ∧
      ¬ has_run demo_draw_game.b demo_draw_game.run cell.WHITE ∧
      ¬ has_empty demo_draw_game.b ∧
      game_outcome demo_draw_game = some outcome.DRAW) :=
  have hb1 : ¬ has_run demo_matrix_game.b demo_matrix_game.run cell.BLACK :=
    fun h => absurd ((has_run_iff _ _ _ (by decide)).mp h) (by decide)
  have hw1 : ¬ has_run demo_matrix_game.b demo_matrix_game.run cell.WHITE :=
    fun h => absurd ((has_run_iff _ _ _ (by decide)).mp h) (by decide)
  have he1 : has_empty demo_matrix_game.b := (has_empty_iff _).mpr (by decide)
  have hb2 : ¬ has_run demo_draw_game.b demo_draw_game.run cell.BLACK :=
    fun h => absurd ((has_run_iff _ _ _ (by decide)).mp h) (by decide)
  have hw2 : ¬ has_run demo_draw_game.b demo_draw_game.run cell.WHITE :=
    fun h => absurd ((has_run_iff _ _ _ (by decide)).mp h) (by decide)
  have he2 : ¬ has_empty demo_draw_game.b :=
    fun h => absurd ((has_empty_iff _).mp h) (by decide)
  ⟨⟨by decide, by decide, by decide, by decide, board_readable_of_wf (by decide) (by decide),
      hb1, hw1, he1,
      (game_outcome_no_win demo_matrix_game (by decide) (by decide) (by decide) (by decide)
        (board_readable_of_wf (by decide) (by decide)) hb1 hw1).1 he1⟩,
    ⟨by decide, by decide, by decide, by decide, board_readable_of_wf (by decide) (by decide),
      hb2, hw2, he2,
      (game_outcome_no_win demo_draw_game (by decide) (by decide) (by decide) (by decide)
        (board_readable_of_wf (by decide) (by decide)) hb2 hw2).2 he2⟩⟩

/-- C5 (as stated) fails for the run length `2 ^ 31`: in the game
`new_game(2147483648, 1, 2147483648, BITS)` after `place_piece` at `(0, 0)` and at `(1, 0)`,
neither colour has `run` consecutive cells on the board and the cell `(2, 0)` is `EMPTY`, but
`game_outcome` returns `BLACK_WIN` and not `IN_PROGRESS`. -/
theorem negative_run_hides_progress :
    ¬ has_run tall_game_two.b tall_game_two.run cell.BLACK ∧
    ¬ has_run tall_game_two.b tall_game_two.run cell.WHITE ∧
    has_empty tall_game_two.b ∧
    game_outcome tall_game_two = some outcome.BLACK_WIN := by
  refine ⟨?_, ?_, ?_, ?_⟩
  · exact tall_board_no_run _ 9 1 cell.BLACK (tall_board_word 9) (by decide) (by decide)
  · exact tall_board_no_run _ 9 0 cell.WHITE (tall_board_word 9) (by decide) (by decide)
  · refine ⟨make_pos 2 0, ⟨by decide, by decide⟩, ?_⟩
    show board_get ⟨1, 2147483648, _⟩ (make_pos 2 0) = _
    rw [tall_board_get _ 9 2 (tall_board_word 9) (by decide)]
    decide
  · exact huge_run_outcome _ 9 cell.BLACK _ _ _ _ (tall_board_word 9) (by decide) (by decide)

/-! ## `board_new` and `new_game` -/

theorem for_loop_add {σ : Type} (body : Nat → σ → Option σ) :
    ∀ (a b i : Nat) (s : σ),
      for_loop body (a + b) i s = (for_loop body a i s).bind (for_loop body b (i + a)) := by
  intro a
  induction a with
  | zero =>
    intro b i s
    simp only [Nat.zero_add, for_loop, Option.some_bind, Nat.add_zero]
  | succ a ih =>
    intro b i s
    have h1 : a + 1 + b = (a + b) + 1 := by omega
    have h2 : i + (a + 1) = i + 1 + a := by omega
    rw [h1, h2]
    simp only [for_loop]
    cases body i s with
    | none => rfl
    | some t => simp only [Option.some_bind]; exact ih b (i + 1) t

theorem replicate_set_next {α : Type} (a b c : α) :
    ∀ (j m : Nat), (List.replicate j a ++ List.replicate (m + 1) b).set j c =
      List.replicate j a ++ c :: List.replicate m b
  | 0, m => by simp [List.replicate_succ]
  | j + 1, m => by
    simp only [List.replicate_succ, List.cons_append, List.set_cons_succ, List.cons.injEq,
      true_and]
    have := replicate_set_next a b c j m
    simp only [List.replicate_succ] at this
    exact this

theorem replicate_snoc {α : Type} (a : α) (rest : List α) (j : Nat) :
    List.replicate j a ++ a :: rest = List.replicate (j + 1) a ++ rest := by
  rw [List.replicate_succ', List.append_assoc]
  rfl

/-- The first `n` iterations of a loop that writes `x` at the index of its counter, while the
counter is not negative as an `int`. -/
theorem fill_steps {α : Type} (x : α) (len n : Nat) (hn : n ≤ len) (h31 : n ≤ 2147483648) :
    for_loop (fun j (row : List (Option α)) =>
        if 0 ≤ toInt32 j ∧ j < row.length then some (row.set j (some x)) else none)
      n 0 (List.replicate len none) =
    some (List.replicate n (some x) ++ List.replicate (len - n) none) := by
  obtain ⟨s1, hs1, hP⟩ := for_loop_total
    (fun j (row : List (Option α)) =>
      if 0 ≤ toInt32 j ∧ j < row.length then some (row.set j (some x)) else none)
    (fun j row => row = List.replicate j (some x) ++ List.replicate (len - j) none)
    n 0 (List.replicate len none) (by simp) (by
      intro j t hj0 hj ht
      have hlt : j < len := by omega
      have hjl : j < t.length := by
        rw [ht, List.length_append, List.length_replicate, List.length_replicate]
        omega
      have hint : 0 ≤ toInt32 j := by
        rw [toInt32_of_lt (by omega)]
        exact Int.natCast_nonneg j
      refine ⟨_, if_pos ⟨hint, hjl⟩, ?_⟩
      obtain ⟨m, hm⟩ : ∃ m, len - j = m + 1 := ⟨len - j - 1, by omega⟩
      have hm1 : len - (j + 1) = m := by omega
      rw [ht, hm, hm1, replicate_set_next, replicate_snoc])
  rw [hs1, hP, Nat.zero_add]

/-- The inner loop of `board_new` writes every cell of a row of at most `2 ^ 31` cells. -/
theorem init_row_eq (width : Nat) (h : width ≤ 2147483648) :
    init_row width = some (List.replicate width (some cell.EMPTY)) := by
  unfold init_row
  rw [fill_steps cell.EMPTY width width (Nat.le_refl _) h, Nat.sub_self, List.replicate_zero,
    List.append_nil]

/-- On a row of more than `2 ^ 31` cells the counter of the inner loop of `board_new` becomes
negative, and the write at that index lies outside the row. -/
theorem init_row_none (width : Nat) (h : 2147483648 < width) : init_row width = none := by
  obtain ⟨k, hk⟩ : ∃ k, width = 2147483648 + (k + 1) := ⟨width - 2147483649, by omega⟩
  have e1 : toInt32 2147483648 = -2147483648 := by decide
  have key : ∀ n, n = 2147483648 + (k + 1) →
      for_loop (fun j (row : List (Option cell)) =>
          if 0 ≤ toInt32 j ∧ j < row.length then some (row.set j (some cell.EMPTY)) else none)
        n 0 (List.replicate width none) = none := by
    intro n hn
    rw [hn, for_loop_add, fill_steps cell.EMPTY width 2147483648 (by omega) (Nat.le_refl _)]
    simp only [Option.some_bind, for_loop, Nat.zero_add, e1]
    rw [if_neg (by omega)]
    rfl
  exact key width hk

/-- The loops of `board_new` on a matrix of at most `2 ^ 31` rows of at most `2 ^ 31` cells set
every row pointer and write `EMPTY` to every cell. -/
theorem init_matrix_eq (width height : Nat) (hw : width ≤ 2147483648)
    (hh : height ≤ 2147483648) :
    init_matrix width height =
      some (List.replicate height (some (List.replicate width (some cell.EMPTY)))) := by
  unfold init_matrix
  rw [init_row_eq width hw]
  simp only [Option.some_bind]
  rw [fill_steps (List.replicate width (some cell.EMPTY)) height height (Nat.le_refl _) hh,
    Nat.sub_self, List.replicate_zero, List.append_nil]

/-- The loops of `board_new` write outside the storage when a row has more than `2 ^ 31`
cells. -/
theorem init_matrix_wide (width height : Nat) (hw : 2147483648 < width) (hh : 0 < height) :
    init_matrix width height = none := by
  obtain ⟨k, hk⟩ : ∃ k, height = k + 1 := ⟨height - 1, by omega⟩
  have key : ∀ n, n = k + 1 →
      for_loop (fun i (rows : List (Option (List (Option cell)))) =>
          if 0 ≤ toInt32 i ∧ i < rows.length then
            (init_row width).bind fun row => some (rows.set i (some row))
          else none)
        n 0 (List.replicate height none) = none := by
    intro n hn
    rw [hn, init_row_none width hw]
    simp only [for_loop, Option.none_bind, ite_self]
  exact key height hk

/-- The loops of `board_new` write outside the storage when the matrix has more than `2 ^ 31`
rows. -/
theorem init_matrix_tall (width height : Nat) (hw : width ≤ 2147483648)
    (hh : 2147483648 < height) : init_matrix width height = none := by
  obtain ⟨k, hk⟩ : ∃ k, height = 2147483648 + (k + 1) := ⟨height - 2147483649, by omega⟩
  have e1 : toInt32 2147483648 = -2147483648 := by decide
  have key : ∀ n, n = 2147483648 + (k + 1) →
      for_loop (fun i (rows : List (Option (List (Option cell)))) =>
          if 0 ≤ toInt32 i ∧ i < rows.length then
            (init_row width).bind fun row => some (rows.set i (some row))
          else none)
        n 0 (List.replicate height none) = none := by
    intro n hn
    rw [hn, init_row_eq width hw]
    simp only [Option.some_bind]
    rw [for_loop_add,
      fill_steps (List.replicate width (some cell.EMPTY)) height 2147483648 (by omega)
        (Nat.le_refl _)]
    simp only [Option.some_bind, for_loop, Nat.zero_add, e1]
    rw [if_neg (by omega)]
    rfl
  exact key height hk

/-- Every in-bounds cell of the board `board_new` returns reads `EMPTY`, for a matrix and for a
bit vector whose number of words is computed without a wrap. -/
theorem board_new_get (width height : Nat) (t : type)
    (hfit : t = type.BITS → width * height + 16 ≤ 4294967296) (p : pos)
    (hp : in_bounds (board_new width height t) p) :
    board_get (board_new width height t) p = some cell.EMPTY := by
  cases t with
  | MATRIX =>
    obtain ⟨hr, hc⟩ := hp
    have hr1 : p.r < height := hr
    have hc1 : p.c < width := hc
    simp only [board_new, board_get, List.getElem?_replicate_of_lt hr1,
      List.getElem?_replicate_of_lt hc1]
  | BITS =>
    obtain ⟨hr, hc⟩ := hp
    have hr1 : p.r < height := hr
    have hc1 : p.c < width := hc
    have hfit1 := hfit rfl
    have h1 : p.r * width + p.c < width * height := by
      calc p.r * width + p.c < p.r * width + width := by omega
        _ = (p.r + 1) * width := by ring
        _ ≤ height * width := Nat.mul_le_mul_right _ hr1
        _ = width * height := by ring
    have h2 : p.r * width ≤ p.r * width + p.c := Nat.le_add_right _ _
    have hidx : bit_index width p / 32 < usub (uadd (umul width height) 16) 1 / 16 := by
      simp only [bit_index, umul, uadd, usub, UINT_SIZE]
      rw [Nat.mod_eq_of_lt (a := p.r * width) (by omega),
        Nat.mod_eq_of_lt (a := p.r * width + p.c) (by omega),
        Nat.mod_eq_of_lt (a := width * height) (by omega)]
      omega
    have hnew : board_new width height type.BITS = ⟨width, height,
        board_rep.bits (List.replicate (usub (uadd (umul width height) 16) 1 / 16) 0)⟩ := rfl
    rw [hnew]
    exact get_on_bits _ _ _ 0 _ _ p _ rfl rfl (List.getElem?_replicate_of_lt hidx)
      (by rw [Nat.zero_shiftRight, Nat.zero_and]; rfl)

/-- C11 (amended): for a matrix whose width and height are at most `2 ^ 31`, so that the `int`
counters of the loops of `board_new` stay inside the rows, and for a bit vector when
`width * height + 16 ≤ 2 ^ 32`, so that the number of words is computed without a wrap,
`board_new width height type` returns a board with the given width, height and type on which
`board_get` returns `EMPTY` at every in-bounds position; for a matrix, the storage is what the
loops of `board_new` leave, every row set and every cell written. -/
theorem board_new_is_empty (width height : Nat) (t : type)
    (hfit : t = type.BITS → width * height + 16 ≤ 4294967296)
    (hint : t = type.MATRIX → width ≤ 2147483648 ∧ height ≤ 2147483648) :
    (board_new width height t).width = width ∧ (board_new width height t).height = height ∧
    (board_new width height t).type = t ∧
    (∀ p, in_bounds (board_new width height t) p →
      board_get (board_new width height t) p = some cell.EMPTY) ∧
    (∀ m, (board_new width height t).u = board_rep.matrix m →
      init_matrix width height = some (m.map fun row => some (row.map some))) := by
  refine ⟨?_, ?_, ?_, board_new_get width height t hfit, ?_⟩
  · cases t <;> rfl
  · cases t <;> rfl
  · cases t <;> rfl
  · intro m hm
    cases t with
    | BITS => cases hm
    | MATRIX =>
      have hm1 : List.replicate height (List.replicate width cell.EMPTY) = m := by
        simpa [board_new] using hm
      rw [← hm1, init_matrix_eq width height (hint rfl).1 (hint rfl).2, List.map_replicate,
        List.map_replicate]

theorem board_new_is_empty_witness :
    ((type.BITS = type.BITS → 3 * 3 + 16 ≤ 4294967296) ∧
      (type.BITS = type.MATRIX → 3 ≤ 2147483648 ∧ 3 ≤ 2147483648) ∧
      ((board_new 3 3 type.BITS).width = 3 ∧ (board_new 3 3 type.BITS).height = 3 ∧
        (board_new 3 3 type.BITS).type = type.BITS ∧
        (∀ p, in_bounds (board_new 3 3 type.BITS) p →
          board_get (board_new 3 3 type.BITS) p = some cell.EMPTY) ∧
        (∀ m, (board_new 3 3 type.BITS).u = board_rep.matrix m →
          init_matrix 3 3 = some (m.map fun row => some (row.map some))))) ∧
    ((type.MATRIX = type.BITS → 3 * 2 + 16 ≤ 4294967296) ∧
      (type.MATRIX = type.MATRIX → 3 ≤ 2147483648 ∧ 2 ≤ 2147483648) ∧
      ((board_new 3 2 type.MATRIX).width = 3 ∧ (board_new 3 2 type.MATRIX).height = 2 ∧
        (board_new 3 2 type.MATRIX).type = type.MATRIX ∧
        (∀ p, in_bounds (board_new 3 2 type.MATRIX) p →
          board_get (board_new 3 2 type.MATRIX) p = some cell.EMPTY) ∧
        (∀ m, (board_new 3 2 type.MATRIX).u = board_rep.matrix m →
          init_matrix 3 2 = some (m.map fun row => some (row.map some))))) :=
  ⟨⟨fun _ => by decide, fun _ => by decide,
      board_new_is_empty 3 3 type.BITS (fun _ => by decide) (fun _ => by decide)⟩,
    ⟨fun _ => by decide, fun _ => by decide,
      board_new_is_empty 3 2 type.MATRIX (fun _ => by decide) (fun _ => by decide)⟩⟩

/-- C11 (as stated) fails for the bit vector board of width `65536` and height `65536`: the
number of cells `width * height` is `2 ^ 32`, which is `0` as an `unsigned int`, so `board_new`
allocates no word, and the read of `board_get` at the in-bounds position `(0, 0)` lies outside
the storage: it does not return `EMPTY`. It fails also for the matrix of width `2 ^ 31 + 1` and
height `1`: after `2 ^ 31` cells the `int` counter of the inner loop is negative and the loop
writes outside the row. -/
theorem board_new_without_storage :
    0 < 65536 ∧ in_bounds (board_new 65536 65536 type.BITS) (make_pos 0 0) ∧
    (board_new 65536 65536 type.BITS).u = board_rep.bits [] ∧
    board_get (board_new 65536 65536 type.BITS) (make_pos 0 0) = none ∧
    init_matrix 2147483649 1 = none :=
  ⟨by decide, by decide, by decide, by decide, init_matrix_wide _ _ (by decide) (by decide)⟩

/-- C19 (amended): when `new_game run width height type` succeeds, for a matrix whose width and
height are at most `2 ^ 31`, and for a bit vector when `width * height + 16 ≤ 2 ^ 32`, the game
has the given run, a board of the given width, height and representation with every cell
`EMPTY`, two empty queues of length `0`, black to move, and no last rotation; for a matrix, the
storage of the board is what the loops of `board_new` leave. -/
theorem new_game_initial (run width height : Nat) (t : type) (g : game)
    (hfit : t = type.BITS → width * height + 16 ≤ 4294967296)
    (hint : t = type.MATRIX → width ≤ 2147483648 ∧ height ≤ 2147483648)
    (hnew : new_game run width height t = some g) :
    g.run = run ∧ g.b.width = width ∧ g.b.height = height ∧ g.b.type = t ∧
    (∀ p, in_bounds g.b p → board_get g.b p = some cell.EMPTY) ∧
    g.black_queue.entries = [] ∧ g.black_queue.len = 0 ∧
    g.white_queue.entries = [] ∧ g.white_queue.len = 0 ∧
    g.player = turn.BLACKS_TURN ∧ g.last_rotation = rotation.NO_ROTATION ∧
    (∀ m, g.b.u = board_rep.matrix m →
      init_matrix width height = some (m.map fun row => some (row.map some))) := by
  unfold new_game at hnew
  split at hnew
  · cases hnew
  · simp only [Option.some.injEq] at hnew
    subst hnew
    refine ⟨rfl, ?_, ?_, ?_, board_new_get width height t hfit, rfl, rfl, rfl, rfl, rfl, rfl,
      ?_⟩
    · cases t <;> rfl
    · cases t <;> rfl
    · cases t <;> rfl
    · intro m hm
      cases t with
      | BITS => cases hm
      | MATRIX =>
        have hm1 : List.replicate height (List.replicate width cell.EMPTY) = m := by
          simpa [board_new] using hm
        rw [← hm1, init_matrix_eq width height (hint rfl).1 (hint rfl).2, List.map_replicate,
          List.map_replicate]

theorem new_game_initial_witness :
    ((type.BITS = type.BITS → 3 * 3 + 16 ≤ 4294967296) ∧
      (type.BITS = type.MATRIX → 3 ≤ 2147483648 ∧ 3 ≤ 2147483648) ∧
      new_game 3 3 3 type.BITS =
        some ⟨3, board_new 3 3 type.BITS, posqueue_new, posqueue_new, turn.BLACKS_TURN,
          rotation.NO_ROTATION⟩ ∧
      ((⟨3, board_new 3 3 type.BITS, posqueue_new, posqueue_new, turn.BLACKS_TURN,
          rotation.NO_ROTATION⟩ : game).run = 3 ∧
        (board_new 3 3 type.BITS).width = 3 ∧ (board_new 3 3 type.BITS).height = 3 ∧
        (board_new 3 3 type.BITS).type = type.BITS ∧
        (∀ p, in_bounds (board_new 3 3 type.BITS) p →
          board_get (board_new 3 3 type.BITS) p = some cell.EMPTY) ∧
        posqueue_new.entries = [] ∧ posqueue_new.len = 0 ∧
        posqueue_new.entries = [] ∧ posqueue_new.len = 0 ∧
        turn.BLACKS_TURN = turn.BLACKS_TURN ∧ rotation.NO_ROTATION = rotation.NO_ROTATION ∧
        (∀ m, (board_new 3 3 type.BITS).u = board_rep.matrix m →
          init_matrix 3 3 = some (m.map fun row => some (row.map some))))) ∧
    ((type.MATRIX = type.BITS → 3 * 3 + 16 ≤ 4294967296) ∧
      (type.MATRIX = type.MATRIX → 3 ≤ 2147483648 ∧ 3 ≤ 2147483648) ∧
      new_game 3 3 3 type.MATRIX = some demo_new_game ∧
      (demo_new_game.run = 3 ∧ demo_new_game.b.width = 3 ∧ demo_new_game.b.height = 3 ∧
        demo_new_game.b.type = type.MATRIX ∧
        (∀ p, in_bounds demo_new_game.b p → board_get demo_new_game.b p = some cell.EMPTY) ∧
        demo_new_game.black_queue.entries = [] ∧ demo_new_game.black_queue.len = 0 ∧
        demo_new_game.white_queue.entries = [] ∧ demo_new_game.white_queue.len = 0 ∧
        demo_new_game.player = turn.BLACKS_TURN ∧
        demo_new_game.last_rotation = rotation.NO_ROTATION ∧
        (∀ m, demo_new_game.b.u = board_rep.matrix m →
          init_matrix 3 3 = some (m.map fun row => some (row.map some))))) :=
  ⟨⟨fun _ => by decide, fun _ => by decide, by decide,
      new_game_initial 3 3 3 type.BITS _ (fun _ => by decide) (fun _ => by decide)
        (by decide)⟩,
    ⟨fun _ => by decide, fun _ => by decide, by decide,
      new_game_initial 3 3 3 type.MATRIX demo_new_game (fun _ => by decide)
        (fun _ => by decide) (by decide)⟩⟩

/-- C19 (as stated) fails for `new_game(4, 131072, 32768, BITS)`: it succeeds, but the number
of cells `131072 * 32768` is `2 ^ 32`, which is `0` as an `unsigned int`, so the board has no
word of storage and the read of the in-bounds cell `(0, 0)` lies outside it: the cell does not
read `EMPTY`. It fails also for `new_game(1, 2147483649, 1, MATRIX)`: the test of the run
length lets the call through, and the inner loop of `board_new` writes outside the row once its
`int` counter is negative. -/
theorem new_game_without_storage :
    (new_game 4 131072 32768 type.BITS).isSome = true ∧
    (new_game 4 131072 32768 type.BITS).map
        (fun g => decide (in_bounds g.b (make_pos 0 0))) = some true ∧
    (new_game 4 131072 32768 type.BITS).map (fun g => g.b.u) = some (board_rep.bits []) ∧
    (new_game 4 131072 32768 type.BITS).map (fun g => board_get g.b (make_pos 0 0)) =
      some none ∧
    ¬ ((1 : Nat) > 2147483649 ∧ (1 : Nat) > 1) ∧ init_matrix 2147483649 1 = none :=
  ⟨by decide, by decide, by decide, by decide, by decide,
    init_matrix_wide _ _ (by decide) (by decide)⟩

/-- The threads of `rotate` on a matrix board whose storage has the size `board_new` gives it
all run to their end. -/
theorem rotate_board_total {b : board} (cw : Bool) (hm : b.type = type.MATRIX) (hwf : b.wf)
    (hw : b.width < UINT_SIZE) (hh : b.height < UINT_SIZE) :
    ∃ nb, rotate_board b cw = some nb := by
  have hread : board_readable b := board_readable_of_wf hwf (fits_of_matrix hm)
  have hrow : ∀ i t, i < b.height → rotated_upto b cw (i * b.width) t →
      ∃ t1, rotate_row b cw i t = some t1 ∧ rotated_upto b cw ((i + 1) * b.width) t1 := by
    intro i t hi hinv
    obtain ⟨t1, ht1, _⟩ := for_loop_total
      (fun c nb =>
        let o_pos := make_pos i c
        let n_pos := rotate_pos cw b.width b.height o_pos
        (board_get b o_pos).bind fun value => board_set nb n_pos value)
      (fun c t => rotated_upto b cw (i * b.width + c) t)
      b.width 0 t (by simpa using hinv) (by
        intro c u _ hc hP
        simp only [Nat.zero_add] at hc
        obtain ⟨value, hvalue⟩ := hread (make_pos i c) ⟨hi, hc⟩
        have hP2 := hP
        obtain ⟨h1, h2, h3, h4, _⟩ := hP2
        have hdest := rotate_pos_in_bounds cw hw hh (p := make_pos i c) hi hc
        have hin : in_bounds u (rotate_pos cw b.width b.height (make_pos i c)) := by
          unfold in_bounds
          rw [h1, h2]
          exact hdest
        obtain ⟨u1, hset, _⟩ := board_set_spec u _ value h4 (fits_of_matrix h3) hin
        refine ⟨u1, by simp only [hvalue, Option.some_bind, hset], ?_⟩
        exact rotated_upto_step hw hh hi hc hP hvalue hset)
    exact ⟨t1, ht1, rotate_row_inv hw hh hi hinv ht1⟩
  obtain ⟨nb, hnb, _⟩ := for_loop_total (fun i t => rotate_row b cw i t)
    (fun i t => rotated_upto b cw (i * b.width) t) b.height 0
    (board_new b.height b.width type.MATRIX) (by simpa using rotated_upto_new b cw) (by
      intro i t _ hi hP
      simp only [Nat.zero_add] at hi
      exact hrow i t hi hP)
  refine ⟨nb, ?_⟩
  unfold rotate_board
  simp only [hm]
  exact hnb

/-- The board `rotate` installs is a matrix whose storage has the size `board_new` gives it,
with the width and the height exchanged. -/
theorem rotate_board_shape {b nb : board} {cw : Bool} (hw : b.width < UINT_SIZE)
    (hh : b.height < UINT_SIZE) (h : rotate_board b cw = some nb) :
    nb.type = type.MATRIX ∧ nb.wf ∧ nb.width = b.height ∧ nb.height = b.width := by
  cases hm : b.type with
  | MATRIX =>
    obtain ⟨h1, h2, h3, h4, _⟩ := rotate_board_matrix hm hw hh h
    exact ⟨h3, h4, h1, h2⟩
  | BITS =>
    unfold rotate_board at h
    simp only [hm] at h
    cases hb : rotate_bits b cw with
    | none => rw [hb] at h; simp at h
    | some x =>
      rw [hb] at h
      simp only [Option.some_bind, Option.some.injEq] at h
      subst h
      exact ⟨rfl, board_new_matrix_wf _ _, rfl, rfl⟩

/-- The result of `rotate` from the board its loops build, when the rotation is not the reverse
of the last one. -/
theorem rotate_eval {g : game} {cw : Bool} {nb : board}
    (hrev : ¬ ((cw = true ∧ g.last_rotation = rotation.COUNTERCLOCKWISE) ∨
      (cw = false ∧ g.last_rotation = rotation.CLOCKWISE)))
    (hnb : rotate_board g.b cw = some nb) :
    ∃ g1, rotate g cw = some (true, g1) := by
  unfold rotate
  rw [if_neg hrev, hnb]
  exact ⟨_, rfl⟩

/-- C13: after a call of `rotate` that succeeds the last rotation is the direction just rotated,
`CLOCKWISE` or `COUNTERCLOCKWISE`, and the player is the opposite of the player before the
call. -/
theorem rotate_records_direction (g g1 : game) (clockwise : Bool)
    (hrot : rotate g clockwise = some (true, g1)) :
    (clockwise = true → g1.last_rotation = rotation.CLOCKWISE) ∧
    (clockwise = false → g1.last_rotation = rotation.COUNTERCLOCKWISE) ∧
    (g.player = turn.BLACKS_TURN → g1.player = turn.WHITES_TURN) ∧
    (g.player = turn.WHITES_TURN → g1.player = turn.BLACKS_TURN) := by
  obtain ⟨nb, _, hg1⟩ := rotate_success hrot
  subst hg1
  refine ⟨?_, ?_, ?_, ?_⟩
  · intro h; simp [h]
  · intro h; simp [h]
  · intro h; simp [h]
  · intro h; simp [h]

theorem rotate_records_direction_witness :
    rotate demo_matrix_game false = some (true, demo_matrix_game_ccw) ∧
    ((false = true → demo_matrix_game_ccw.last_rotation = rotation.CLOCKWISE) ∧
      (false = false → demo_matrix_game_ccw.last_rotation = rotation.COUNTERCLOCKWISE) ∧
      (demo_matrix_game.player = turn.BLACKS_TURN →
        demo_matrix_game_ccw.player = turn.WHITES_TURN) ∧
      (demo_matrix_game.player = turn.WHITES_TURN →
        demo_matrix_game_ccw.player = turn.BLACKS_TURN)) :=
  ⟨by decide, rotate_records_direction demo_matrix_game demo_matrix_game_ccw false (by decide)⟩

/-- A rotation of a game on a matrix board, not the reverse of the last one: it succeeds, and
the cells and the queued positions are moved by `rotate_pos`. -/
theorem rotate_matrix_step {g : game} (cw : Bool) (hm : g.b.type = type.MATRIX) (hwf : g.b.wf)
    (hw : g.b.width < UINT_SIZE) (hh : g.b.height < UINT_SIZE)
    (hrev : ¬ ((cw = true ∧ g.last_rotation = rotation.COUNTERCLOCKWISE) ∨
      (cw = false ∧ g.last_rotation = rotation.CLOCKWISE))) :
    ∃ g1, rotate g cw = some (true, g1) ∧ g1.b.type = type.MATRIX ∧ g1.b.wf ∧
      g1.b.width = g.b.height ∧ g1.b.height = g.b.width ∧
      g1.last_rotation = (if cw then rotation.CLOCKWISE else rotation.COUNTERCLOCKWISE) ∧
      (∀ p, in_bounds g.b p →
        board_get g1.b (rotate_pos cw g.b.width g.b.height p) = board_get g.b p) ∧
      g1.black_queue.entries =
        g.black_queue.entries.map (rotate_pos cw g.b.width g.b.height) ∧
      g1.white_queue.entries =
        g.white_queue.entries.map (rotate_pos cw g.b.width g.b.height) := by
  obtain ⟨nb, hnb⟩ := rotate_board_total cw hm hwf hw hh
  obtain ⟨g1, hrot⟩ := rotate_eval hrev hnb
  obtain ⟨nb1, hnb1, hg1⟩ := rotate_success hrot
  rw [hnb] at hnb1
  cases hnb1
  obtain ⟨h1, h2, h3, h4, h5⟩ := rotate_board_matrix hm hw hh hnb
  have hb := remap_queue_entries nb cw g.black_queue.entries posqueue_new
  have hwq := remap_queue_entries nb cw g.white_queue.entries posqueue_new
  rw [h1, h2] at hb hwq
  refine ⟨g1, hrot, ?_, ?_, ?_, ?_, ?_, ?_, ?_, ?_⟩
  · rw [hg1]; exact h3
  · rw [hg1]; exact h4
  · rw [hg1]; exact h1
  · rw [hg1]; exact h2
  · rw [hg1]
  · intro p hp
    rw [hg1]
    refine h5 p hp.1 hp.2 ?_
    calc p.r * g.b.width + p.c < p.r * g.b.width + g.b.width := by have := hp.2; omega
      _ = (p.r + 1) * g.b.width := by ring
      _ ≤ g.b.height * g.b.width := Nat.mul_le_mul_right _ hp.1
  · rw [hg1]
    show (remap_queue nb cw g.black_queue.entries.length ⟨g.black_queue.entries⟩
      posqueue_new).entries = _
    rw [hb]
    simp [posqueue_new]
  · rw [hg1]
    show (remap_queue nb cw g.white_queue.entries.length ⟨g.white_queue.entries⟩
      posqueue_new).entries = _
    rw [hwq]
    simp [posqueue_new]

/-- Four clockwise rotations of a position on a square board bring it back. -/
theorem rotate_pos_four (n : Nat) (p : pos) (hr : p.r < UINT_SIZE) (hc : p.c < UINT_SIZE) :
    rotate_pos true n n (rotate_pos true n n (rotate_pos true n n (rotate_pos true n n p))) =
      p := by
  obtain ⟨r, c⟩ := p
  simp only [rotate_pos, if_true, make_pos, pos.mk.injEq]
  simp only [usub, UINT_SIZE] at *
  omega

theorem map_rotate_pos_four (n : Nat) (l : List pos)
    (h : ∀ p ∈ l, p.r < UINT_SIZE ∧ p.c < UINT_SIZE) :
    (((l.map (rotate_pos true n n)).map (rotate_pos true n n)).map
      (rotate_pos true n n)).map (rotate_pos true n n) = l := by
  induction l with
  | nil => rfl
  | cons p rest ih =>
    simp only [List.map_cons, List.cons.injEq]
    exact ⟨rotate_pos_four n p (h p (List.mem_cons_self _ _)).1 (h p (List.mem_cons_self _ _)).2,
      ih (fun q hq => h q (List.mem_cons_of_mem _ hq))⟩

theorem posqueue_ext {q1 q2 : posqueue} (h : q1.entries = q2.entries) : q1 = q2 := by
  cases q1; cases q2; simp_all

/-- Four clockwise rotations of a game on a square matrix board whose last rotation is not
`COUNTERCLOCKWISE`, as the definitions compute them: the cells and the queues are those of the
game. -/
theorem four_rotations_eval (g : game) (hm : g.b.type = type.MATRIX) (hwf : g.b.wf)
    (hsq : g.b.width = g.b.height) (hw : g.b.width < UINT_SIZE)
    (hlast : g.last_rotation ≠ rotation.COUNTERCLOCKWISE)
    (hbq : ∀ p ∈ g.black_queue.entries, p.r < UINT_SIZE ∧ p.c < UINT_SIZE)
    (hwq : ∀ p ∈ g.white_queue.entries, p.r < UINT_SIZE ∧ p.c < UINT_SIZE) :
    ∃ g1 g2 g3 g4, rotate g true = some (true, g1) ∧ rotate g1 true = some (true, g2) ∧
      rotate g2 true = some (true, g3) ∧ rotate g3 true = some (true, g4) ∧
      g4.b.width = g.b.width ∧ g4.b.height = g.b.height ∧
      (∀ p, in_bounds g.b p → board_get g4.b p = board_get g.b p) ∧
      g4.black_queue = g.black_queue ∧ g4.white_queue = g.white_queue := by
  have hh : g.b.height < UINT_SIZE := hsq ▸ hw
  obtain ⟨g1, r1, m1, wf1, w1, h1, l1, c1, b1, q1⟩ :=
    rotate_matrix_step true hm hwf hw hh (by simp [hlast])
  have w1' : g1.b.width = g.b.width := by rw [w1, hsq]
  have h1' : g1.b.height = g.b.width := h1
  obtain ⟨g2, r2, m2, wf2, w2, h2, l2, c2, b2, q2⟩ :=
    rotate_matrix_step true m1 wf1 (by rw [w1']; exact hw) (by rw [h1']; exact hw)
      (by rw [l1]; simp)
  have w2' : g2.b.width = g.b.width := by rw [w2, h1']
  have h2' : g2.b.height = g.b.width := by rw [h2, w1']
  obtain ⟨g3, r3, m3, wf3, w3, h3, l3, c3, b3, q3⟩ :=
    rotate_matrix_step true m2 wf2 (by rw [w2']; exact hw) (by rw [h2']; exact hw)
      (by rw [l2]; simp)
  have w3' : g3.b.width = g.b.width := by rw [w3, h2']
  have h3' : g3.b.height = g.b.width := by rw [h3, w2']
  obtain ⟨g4, r4, m4, wf4, w4, h4, l4, c4, b4, q4⟩ :=
    rotate_matrix_step true m3 wf3 (by rw [w3']; exact hw) (by rw [h3']; exact hw)
      (by rw [l3]; simp)
  rw [w1', h1'] at c2 b2 q2
  rw [w2', h2'] at c3 b3 q3
  rw [w3', h3'] at c4 b4 q4
  rw [← hsq] at c1 b1 q1
  refine ⟨g1, g2, g3, g4, r1, r2, r3, r4, by rw [w4, h3'], by rw [h4, w3', hsq], ?_, ?_, ?_⟩
  · intro p hp
    have hpr : p.r < g.b.width := hsq ▸ hp.1
    have hpc : p.c < g.b.width := hp.2
    have hin : ∀ q : pos, q.r < g.b.width → q.c < g.b.width →
        (rotate_pos true g.b.width g.b.width q).r < g.b.width ∧
        (rotate_pos true g.b.width g.b.width q).c < g.b.width := fun q hq1 hq2 =>
      rotate_pos_in_bounds true hw hw hq1 hq2
    have i1 := hin p hpr hpc
    have i2 := hin _ i1.1 i1.2
    have i3 := hin _ i2.1 i2.2
    have e1 := c1 p hp
    have e2 := c2 _ (show in_bounds g1.b _ from ⟨by rw [h1']; exact i1.1, by rw [w1']; exact i1.2⟩)
    have e3 := c3 _ (show in_bounds g2.b _ from ⟨by rw [h2']; exact i2.1, by rw [w2']; exact i2.2⟩)
    have e4 := c4 _ (show in_bounds g3.b _ from ⟨by rw [h3']; exact i3.1, by rw [w3']; exact i3.2⟩)
    rw [rotate_pos_four g.b.width p (by omega) (by omega)] at e4
    rw [e4, e3, e2, e1]
  · apply posqueue_ext
    rw [b4, b3, b2, b1]
    exact map_rotate_pos_four _ _ hbq
  · apply posqueue_ext
    rw [q4, q3, q2, q1]
    exact map_rotate_pos_four _ _ hwq

/-- C14 (amended): for every game on a matrix board whose storage has the size `board_new` gives
it, with `width = height`, whose last rotation is not `COUNTERCLOCKWISE` and whose queued
positions are `unsigned int` values: when four clockwise calls of `rotate` in a row have
returned, each of them has returned `true`, and afterwards every cell holds its original value
and both queues hold their original positions in their original order. -/
theorem four_rotations_restore (g g1 g2 g3 g4 : game) (ok1 ok2 ok3 ok4 : Bool)
    (hm : g.b.type = type.MATRIX) (hwf : g.b.wf)
    (hsq : g.b.width = g.b.height) (hw : g.b.width < UINT_SIZE)
    (hlast : g.last_rotation ≠ rotation.COUNTERCLOCKWISE)
    (hbq : ∀ p ∈ g.black_queue.entries, p.r < UINT_SIZE ∧ p.c < UINT_SIZE)
    (hwq : ∀ p ∈ g.white_queue.entries, p.r < UINT_SIZE ∧ p.c < UINT_SIZE)
    (h1 : rotate g true = some (ok1, g1)) (h2 : rotate g1 true = some (ok2, g2))
    (h3 : rotate g2 true = some (ok3, g3)) (h4 : rotate g3 true = some (ok4, g4)) :
    (ok1 = true ∧ ok2 = true ∧ ok3 = true ∧ ok4 = true) ∧
    g4.b.width = g.b.width ∧ g4.b.height = g.b.height ∧
    (∀ p, in_bounds g.b p → board_get g4.b p = board_get g.b p) ∧
    g4.black_queue = g.black_queue ∧ g4.white_queue = g.white_queue := by
  obtain ⟨k1, k2, k3, k4, e1, e2, e3, e4, hres⟩ :=
    four_rotations_eval g hm hwf hsq hw hlast hbq hwq
  rw [e1] at h1
  simp only [Option.some.injEq, Prod.mk.injEq] at h1
  obtain ⟨o1, q1⟩ := h1
  subst q1
  rw [e2] at h2
  simp only [Option.some.injEq, Prod.mk.injEq] at h2
  obtain ⟨o2, q2⟩ := h2
  subst q2
  rw [e3] at h3
  simp only [Option.some.injEq, Prod.mk.injEq] at h3
  obtain ⟨o3, q3⟩ := h3
  subst q3
  rw [e4] at h4
  simp only [Option.some.injEq, Prod.mk.injEq] at h4
  obtain ⟨o4, q4⟩ := h4
  subst q4
  exact ⟨⟨o1.symm, o2.symm, o3.symm, o4.symm⟩, hres⟩

theorem four_rotations_restore_witness :
    demo_square_game.b.type = type.MATRIX ∧ demo_square_game.b.wf ∧
    demo_square_game.b.width = demo_square_game.b.height ∧
    demo_square_game.b.width < UINT_SIZE ∧
    demo_square_game.last_rotation ≠ rotation.COUNTERCLOCKWISE ∧
    (∀ p ∈ demo_square_game.black_queue.entries, p.r < UINT_SIZE ∧ p.c < UINT_SIZE) ∧
    (∀ p ∈ demo_square_game.white_queue.entries, p.r < UINT_SIZE ∧ p.c < UINT_SIZE) ∧
    rotate demo_square_game true = some (true, demo_square_turn1) ∧
    rotate demo_square_turn1 true = some (true, demo_square_turn2) ∧
    rotate demo_square_turn2 true = some (true, demo_square_turn3) ∧
    rotate demo_square_turn3 true = some (true, demo_square_turn4) ∧
    ((true = true ∧ true = true ∧ true = true ∧ true = true) ∧
      demo_square_turn4.b.width = demo_square_game.b.width ∧
      demo_square_turn4.b.height = demo_square_game.b.height ∧
      (∀ p, in_bounds demo_square_game.b p →
        board_get demo_square_turn4.b p = board_get demo_square_game.b p) ∧
      demo_square_turn4.black_queue = demo_square_game.black_queue ∧
      demo_square_turn4.white_queue = demo_square_game.white_queue) :=
  ⟨by decide, by decide, by decide, by decide, by decide, by decide, by decide,
    by decide, by decide, by decide, by decide,
    four_rotations_restore demo_square_game demo_square_turn1 demo_square_turn2
      demo_square_turn3 demo_square_turn4 true true true true (by decide) (by decide)
      (by decide) (by decide) (by decide) (by decide) (by decide) (by decide) (by decide)
      (by decide) (by decide)⟩

/-- C14 (as stated) fails for a game whose last rotation is `COUNTERCLOCKWISE`: the game
`demo_square_game_ccw` has `width = height`, and the first clockwise call of `rotate` returns
`false` and leaves the game unchanged. -/
theorem clockwise_after_counterclockwise_fails :
    demo_square_game_ccw.b.width = demo_square_game_ccw.b.height ∧
    demo_square_game_ccw.b.type = type.MATRIX ∧
    rotate demo_square_game false = some (true, demo_square_game_ccw) ∧
    rotate demo_square_game_ccw true = some (false, demo_square_game_ccw) := by
  decide

/-! ## `uplift`: the top row and the empty queue -/

/-- The steps of `uplift` on a queue whose oldest position is in row `0`: the board is not
touched and the position is enqueued again. -/
theorem uplift_top_steps {g : game} {c : cell} {p : pos} {rest : List pos}
    (hq : (uplift_queue g c).entries = p :: rest) (hr : p.r = 0) :
    ∃ g1, uplift g c = some (true, g1) ∧ g1.b = g.b ∧ g1.run = g.run ∧
      (uplift_queue g1 c).entries = rest ++ [p] ∧ other_queue g1 c = other_queue g c ∧
      g1.player = flip_player g.player ∧ g1.last_rotation = rotation.NO_ROTATION := by
  have hlen : (uplift_queue g c).len ≠ 0 := by simp [posqueue.len, hq]
  have hguard : ¬ ((c = cell.BLACK ∧ g.black_queue.len = 0) ∨
      (c = cell.WHITE ∧ g.white_queue.len = 0)) := by
    intro h
    rcases h with ⟨h1, h2⟩ | ⟨h1, h2⟩
    · apply hlen; simpa [uplift_queue, h1] using h2
    · apply hlen; simpa [uplift_queue, h1] using h2
  have hdq : pos_dequeue (uplift_queue g c) = (p, ⟨rest⟩) := by
    simp only [pos_dequeue, hq]
  unfold uplift
  rw [if_neg hguard]
  simp only [hdq, hr, if_true, Option.some_bind]
  refine ⟨_, rfl, ?_, ?_, ?_, ?_, ?_, rfl⟩
  · by_cases h : c = cell.BLACK <;> simp [set_uplift_queue, h]
  · by_cases h : c = cell.BLACK <;> simp [set_uplift_queue, h]
  · by_cases h : c = cell.BLACK <;> simp [set_uplift_queue, uplift_queue, h, pos_enqueue]
  · by_cases h : c = cell.BLACK <;> simp [set_uplift_queue, other_queue, h]
  · by_cases h : c = cell.BLACK <;> simp [set_uplift_queue, h]

/-- C15: when the oldest queued position of the colour has row `0`, `uplift` returns `true`; the
board, and so every cell, is unchanged; the queue of the colour has the same length and holds
the position, enqueued again unchanged; the other queue is unchanged and the player is
flipped. -/
theorem uplift_row_zero (g : game) (c : cell) (p : pos) (rest : List pos)
    (hq : (uplift_queue g c).entries = p :: rest) (hr : p.r = 0) :
    ∃ g1, uplift g c = some (true, g1) ∧ g1.b = g.b ∧
      (∀ q, board_get g1.b q = board_get g.b q) ∧
      (uplift_queue g1 c).len = (uplift_queue g c).len ∧
      p ∈ (uplift_queue g1 c).entries ∧
      other_queue g1 c = other_queue g c ∧
      g1.player = flip_player g.player ∧ g1.player ≠ g.player := by
  obtain ⟨g1, hup, hb, _, hqueue, hother, hflip, _⟩ := uplift_top_steps hq hr
  refine ⟨g1, hup, hb, fun q => by rw [hb], ?_, ?_, hother, hflip, ?_⟩
  · simp [posqueue.len, hqueue, hq]
  · simp [hqueue]
  · rw [hflip]
    unfold flip_player
    cases g.player <;> simp

theorem uplift_row_zero_witness :
    (uplift_queue demo_bits_game cell.BLACK).entries = make_pos 0 0 :: [make_pos 1 1] ∧
    (make_pos 0 0).r = 0 ∧
    ∃ g1, uplift demo_bits_game cell.BLACK = some (true, g1) ∧ g1.b = demo_bits_game.b ∧
      (∀ q, board_get g1.b q = board_get demo_bits_game.b q) ∧
      (uplift_queue g1 cell.BLACK).len = (uplift_queue demo_bits_game cell.BLACK).len ∧
      make_pos 0 0 ∈ (uplift_queue g1 cell.BLACK).entries ∧
      other_queue g1 cell.BLACK = other_queue demo_bits_game cell.BLACK ∧
      g1.player = flip_player demo_bits_game.player ∧ g1.player ≠ demo_bits_game.player :=
  ⟨by decide, by decide,
    uplift_row_zero demo_bits_game cell.BLACK (make_pos 0 0) [make_pos 1 1] (by decide)
      (by decide)⟩

/-- C17 (amended): when the oldest queued position `p` of the colour has row `0`, `uplift`
enqueues `p` at the back: the queue of the colour is the old queue without its front followed by
`p`. The position `pos_dequeue` returns next, on which the next `uplift` of the colour acts, is
`p` when `p` was the only entry, and is the entry that followed `p` otherwise. -/
theorem requeue_at_back (g : game) (c : cell) (p : pos) (rest : List pos)
    (hq : (uplift_queue g c).entries = p :: rest) (hr : p.r = 0) :
    ∃ g1, uplift g c = some (true, g1) ∧
      (uplift_queue g1 c).entries = rest ++ [p] ∧
      (rest = [] → (pos_dequeue (uplift_queue g1 c)).1 = p) ∧
      (∀ q rest1, rest = q :: rest1 → (pos_dequeue (uplift_queue g1 c)).1 = q) := by
  obtain ⟨g1, hup, _, _, hqueue, _⟩ := uplift_top_steps hq hr
  refine ⟨g1, hup, hqueue, ?_, ?_⟩
  · intro h
    simp [pos_dequeue, hqueue, h]
  · intro q rest1 h
    simp [pos_dequeue, hqueue, h]

theorem requeue_at_back_witness :
    (uplift_queue demo_bits_game cell.BLACK).entries = make_pos 0 0 :: [make_pos 1 1] ∧
    (make_pos 0 0).r = 0 ∧
    ∃ g1, uplift demo_bits_game cell.BLACK = some (true, g1) ∧
      (uplift_queue g1 cell.BLACK).entries = [make_pos 1 1] ++ [make_pos 0 0] ∧
      ([make_pos 1 1] = [] → (pos_dequeue (uplift_queue g1 cell.BLACK)).1 = make_pos 0 0) ∧
      (∀ q rest1, [make_pos 1 1] = q :: rest1 →
        (pos_dequeue (uplift_queue g1 cell.BLACK)).1 = q) :=
  ⟨by decide, by decide,
    requeue_at_back demo_bits_game cell.BLACK (make_pos 0 0) [make_pos 1 1]
      (by decide) (by decide)⟩

/-- C17 (as stated) fails whenever the queue holds another entry: in the game of the test
`rotate, test1_clock` the black queue is `(0, 0)`, `(1, 1)`; `uplift` of `BLACK` returns `true`
and leaves the black queue `(1, 1)`, `(0, 0)`, whose front element is `(1, 1)` and not
`(0, 0)`. -/
theorem front_changes_after_requeue :
    (uplift_queue demo_bits_game cell.BLACK).entries = [make_pos 0 0, make_pos 1 1] ∧
    (make_pos 0 0).r = 0 ∧
    (uplift demo_bits_game cell.BLACK).map (fun res => (res.1, res.2.black_queue.entries)) =
      some (true, [make_pos 1 1, make_pos 0 0]) ∧
    (uplift demo_bits_game cell.BLACK).map (fun res => (pos_dequeue res.2.black_queue).1) =
      some (make_pos 1 1) ∧
    make_pos 1 1 ≠ make_pos 0 0 := by
  decide

/-- A position that can be read can be written, and what could be read before can be read
afterwards. -/
theorem board_set_of_get {b : board} {p : pos} {v0 : cell} (v : cell)
    (hget : board_get b p = some v0) :
    ∃ b1, board_set b p v = some b1 ∧
      ∀ q, (∃ x, board_get b q = some x) → ∃ y, board_get b1 q = some y := by
  obtain ⟨w, h, u⟩ := b
  cases u with
  | matrix m =>
    by_cases hg : p.r > h ∧ p.c > w
    · exact ⟨_, by simp only [board_set, hg, and_self, if_true], fun q hq => hq⟩
    · simp only [board_get] at hget
      cases hrow : m[p.r]? with
      | none => rw [hrow] at hget; cases hget
      | some row =>
        rw [hrow] at hget
        simp only [] at hget
        have hc : p.c < row.length := (List.getElem?_eq_some.mp hget).1
        refine ⟨⟨w, h, board_rep.matrix (m.set p.r (row.set p.c v))⟩, ?_, ?_⟩
        · simp only [board_set, hg, if_false, hrow, hc, if_true]
        · intro q hq
          rw [board_get_set_matrix v hrow hc q]
          by_cases hqp : q = p
          · exact ⟨v, by rw [if_pos hqp]⟩
          · rw [if_neg hqp]; exact hq
  | bits ws =>
    by_cases hg : p.r > h ∧ p.c > w
    · exact ⟨_, by simp only [board_set, hg, and_self, if_true], fun q hq => hq⟩
    · simp only [board_get] at hget
      cases hword : ws[bit_index w p / 32]? with
      | none => rw [hword] at hget; cases hget
      | some word =>
        refine ⟨_, (by simp only [board_set, hg, if_false, hword]; rfl), ?_⟩
        rintro q ⟨x, hx⟩
        simp only [board_get] at hx ⊢
        cases hq : ws[bit_index w q / 32]? with
        | none => rw [hq] at hx; cases hx
        | some wq =>
          have hlt : bit_index w q / 32 < ws.length := (List.getElem?_eq_some.mp hq).1
          rw [List.getElem?_eq_getElem (by rw [List.length_set]; exact hlt)]
          exact ⟨_, rfl⟩

/-- The call `uplift` returns `true` when the oldest position of the colour and the cells above
it can be read. -/
theorem uplift_total {g : game} {c : cell} {p : pos} {rest : List pos}
    (hq : (uplift_queue g c).entries = p :: rest)
    (hread : ∀ k, k ≤ p.r → ∃ v, board_get g.b (make_pos k p.c) = some v) :
    ∃ g1, uplift g c = some (true, g1) := by
  by_cases hr : p.r = 0
  · obtain ⟨g1, hup, _⟩ := uplift_top_steps hq hr
    exact ⟨g1, hup⟩
  · obtain ⟨r1, hs⟩ := uplift_slide_total g.b p.c p.r (fun k hk => hread k (by omega))
    obtain ⟨hle, _, _⟩ := uplift_slide_spec g.b p.c p.r r1 hs
    obtain ⟨v0, hv0⟩ := hread p.r (Nat.le_refl _)
    obtain ⟨b1, hb1, hkeep⟩ := board_set_of_get (p := p) cell.EMPTY hv0
    obtain ⟨v1, hv1⟩ := hkeep (make_pos r1 p.c) (hread r1 hle)
    obtain ⟨b2, hb2, _⟩ := board_set_of_get (p := make_pos r1 p.c) c hv1
    exact uplift_eval hq (by omega) hs hb1 hb2

/-- C16: for a colour `BLACK` or `WHITE` whose queue is empty, `uplift` returns `false` and the
game is unchanged: the board, both queues, the player and the last rotation. When the queue of
the colour is not empty `uplift` does not return `false`, and it returns `true` when its oldest
position is in row `0` or is an in-bounds position of a board whose cells can be read. -/
theorem uplift_false_iff_empty (g : game) (c : cell) :
    ((c = cell.BLACK ∨ c = cell.WHITE) → (uplift_queue g c).len = 0 →
      uplift g c = some (false, g)) ∧
    (∀ g1, uplift g c = some (false, g1) → (uplift_queue g c).len = 0 ∧ g1 = g) ∧
    (∀ p rest, (uplift_queue g c).entries = p :: rest →
      (p.r = 0 ∨ (board_readable g.b ∧ in_bounds g.b p)) →
      ∃ g1, uplift g c = some (true, g1)) := by
  refine ⟨?_, ?_, ?_⟩
  · intro hc hlen
    have hguard : (c = cell.BLACK ∧ g.black_queue.len = 0) ∨
        (c = cell.WHITE ∧ g.white_queue.len = 0) := by
      rcases hc with h | h
      · exact Or.inl ⟨h, by simpa [uplift_queue, h] using hlen⟩
      · exact Or.inr ⟨h, by simpa [uplift_queue, h] using hlen⟩
    unfold uplift
    rw [if_pos hguard]
  · intro g1 h
    unfold uplift at h
    split at h
    · rename_i hguard
      simp only [Option.some.injEq, Prod.mk.injEq, true_and] at h
      refine ⟨?_, h.symm⟩
      rcases hguard with ⟨h1, h2⟩ | ⟨h1, h2⟩
      · simpa [uplift_queue, h1] using h2
      · simpa [uplift_queue, h1] using h2
    · simp only [] at h
      split at h
      · simp at h
      · cases hs : uplift_slide (set_uplift_queue g c (pos_dequeue (uplift_queue g c)).2).b
            (pos_dequeue (uplift_queue g c)).1.c (pos_dequeue (uplift_queue g c)).1.r with
        | none => rw [hs] at h; simp at h
        | some r1 =>
          rw [hs] at h
          simp only [Option.some_bind] at h
          cases hb1 : board_set (set_uplift_queue g c (pos_dequeue (uplift_queue g c)).2).b
              (pos_dequeue (uplift_queue g c)).1 cell.EMPTY with
          | none => rw [hb1] at h; simp at h
          | some b1 =>
            rw [hb1] at h
            simp only [Option.some_bind] at h
            cases hb2 : board_set b1 (make_pos r1 (pos_dequeue (uplift_queue g c)).1.c) c with
            | none => rw [hb2] at h; simp at h
            | some b2 =>
              rw [hb2] at h
              simp at h
  · intro p rest hq hor
    rcases hor with hr | ⟨hread, hin⟩
    · obtain ⟨g1, hup, _⟩ := uplift_top_steps hq hr
      exact ⟨g1, hup⟩
    · exact uplift_total hq (fun k hk => hread _ ⟨by show k < _; have := hin.1; omega, hin.2⟩)

/-! ## The linked queue of pos.c -/

theorem linked_at_length {heap : List (Option pq_entry)} :
    ∀ {addrs : List Nat} {xs : List pos}, linked_at heap addrs xs → addrs.length = xs.length
  | [], [], _ => rfl
  | [], _ :: _, h => by simp [linked_at] at h
  | _ :: _, [], h => by simp [linked_at] at h
  | _ :: rest, _ :: xs, h => by
    simp only [linked_at] at h
    simp [linked_at_length h.2]

theorem linked_at_lt {heap : List (Option pq_entry)} :
    ∀ {addrs : List Nat} {xs : List pos}, linked_at heap addrs xs →
      ∀ a ∈ addrs, a < heap.length
  | [], _, _ => by simp
  | _ :: _, [], h => by simp [linked_at] at h
  | b :: rest, _ :: xs, h => by
    simp only [linked_at] at h
    intro a ha
    rcases List.mem_cons.1 ha with rfl | ha
    · by_contra hlt
      rw [List.getElem?_eq_none (by omega)] at h
      simp at h
    · exact linked_at_lt h.2 a ha

theorem linked_at_append {heap : List (Option pq_entry)} (l : List (Option pq_entry)) :
    ∀ {addrs : List Nat} {xs : List pos}, linked_at heap addrs xs →
      linked_at (heap ++ l) addrs xs
  | [], [], _ => by simp [linked_at]
  | [], _ :: _, h => by simp [linked_at] at h
  | _ :: _, [], h => by simp [linked_at] at h
  | b :: rest, x :: xs, h => by
    have hlt := linked_at_lt h b (List.mem_cons_self _ _)
    simp only [linked_at] at h ⊢
    refine ⟨?_, linked_at_append l h.2⟩
    rw [List.getElem?_append_left hlt]
    exact h.1

theorem linked_at_set {heap : List (Option pq_entry)} (t : Nat) (v : Option pq_entry) :
    ∀ {addrs : List Nat} {xs : List pos}, linked_at heap addrs xs → t ∉ addrs →
      linked_at (heap.set t v) addrs xs
  | [], [], _, _ => by simp [linked_at]
  | [], _ :: _, h, _ => by simp [linked_at] at h
  | _ :: _, [], h, _ => by simp [linked_at] at h
  | b :: rest, x :: xs, h, ht => by
    simp only [linked_at] at h ⊢
    have hne : t ≠ b := fun e => ht (e ▸ List.mem_cons_self _ _)
    refine ⟨?_, linked_at_set t v h.2 (fun hm => ht (List.mem_cons_of_mem _ hm))⟩
    rw [List.getElem?_set_ne hne]
    exact h.1

/-- Linking a new entry behind the last one of a chain. -/
theorem linked_at_snoc {heap : List (Option pq_entry)} (fresh : Nat) (p : pos) :
    ∀ {addrs : List Nat} {xs : List pos}, linked_at heap addrs xs → addrs.Nodup →
      fresh ∉ addrs → heap[fresh]? = some (some { p := p, next := none }) →
      ∀ t, addrs.getLast? = some t →
        ∃ e, heap[t]? = some (some e) ∧
          linked_at (heap.set t (some { p := e.p, next := some fresh })) (addrs ++ [fresh])
            (xs ++ [p])
  | [], _, _, _, _, _, t, ht => by simp at ht
  | _ :: _, [], h, _, _, _, _, _ => by simp [linked_at] at h
  | [a], [x], h, _, hf, hnew, t, ht => by
    simp only [linked_at] at h
    simp only [List.getLast?_singleton, Option.some.injEq] at ht
    subst ht
    have hne : a ≠ fresh := fun e => hf (e ▸ List.mem_singleton_self _)
    have hlt : a < heap.length := by
      by_contra hlt
      rw [List.getElem?_eq_none (by omega)] at h
      simp at h
    refine ⟨_, h.1, ?_⟩
    simp only [List.singleton_append, List.nil_append, linked_at, List.head?_cons,
      List.head?_nil, and_true]
    refine ⟨?_, ?_⟩
    · rw [List.getElem?_set_self hlt]
      rfl
    · rw [List.getElem?_set_ne hne]
      exact hnew
  | [_], _ :: _ :: _, h, _, _, _, _, _ => by simp [linked_at] at h
  | a :: b :: rest, x :: xs, h, hnd, hf, hnew, t, ht => by
    simp only [linked_at] at h
    have hnd2 : (b :: rest).Nodup := (List.nodup_cons.1 hnd).2
    have ha : a ∉ b :: rest := (List.nodup_cons.1 hnd).1
    have ht2 : (b :: rest).getLast? = some t := by
      rw [List.getLast?_cons_cons] at ht
      exact ht
    have htm : t ∈ b :: rest := List.mem_of_getLast?_eq_some ht2
    have hta : t ≠ a := fun e => ha (e ▸ htm)
    obtain ⟨e, he, hl⟩ := linked_at_snoc fresh p (show linked_at heap (b :: rest) xs from h.2)
      hnd2 (fun hm => hf (List.mem_cons_of_mem _ hm)) hnew t ht2
    refine ⟨e, he, ?_⟩
    simp only [List.cons_append, linked_at, List.head?_cons]
    refine ⟨?_, hl⟩
    rw [List.getElem?_set_ne hta]
    exact h.1

/-- What `pos_enqueue` does to a queue that holds `xs`, whatever its length. -/
theorem linked_pos_enqueue_spec {q : linked_posqueue} {xs : List pos} (p : pos)
    (h : holds q xs) :
    ∃ q1, linked_pos_enqueue q p = some q1 ∧ q1.len = uadd q.len 1 ∧
      ∃ addrs : List Nat, addrs.Nodup ∧ linked_at q1.heap addrs (xs ++ [p]) ∧
        q1.head = addrs.head? ∧ q1.tail = addrs.getLast? := by
  obtain ⟨addrs, hnd, hl, hhead, htail, hlen, _⟩ := h
  have hfresh : q.heap.length ∉ addrs := fun hm => by
    have := linked_at_lt hl _ hm
    omega
  have hnew : (q.heap ++ [some ({ p := p, next := none } : pq_entry)])[q.heap.length]? =
      some (some { p := p, next := none }) := by
    simp
  have hlen2 := linked_at_length hl
  cases addrs with
  | nil =>
    have hxs : xs = [] := List.length_eq_zero.1 hlen2.symm
    subst hxs
    have h0 : q.len = 0 := by simpa using hlen
    have hq1 : linked_pos_enqueue q p =
        some { heap := q.heap ++ [some { p := p, next := none }], head := some q.heap.length,
               tail := some q.heap.length, len := uadd q.len 1 } := by
      simp only [linked_pos_enqueue]
      rw [if_pos h0]
    refine ⟨_, hq1, rfl, [q.heap.length], by simp, ?_, by simp, by simp⟩
    simp only [List.nil_append, linked_at, List.head?_nil, and_true]
    exact hnew
  | cons a rest =>
    have hpos : q.len ≠ 0 := by
      rw [hlen, ← hlen2]
      simp
    obtain ⟨t, ht⟩ : ∃ t, (a :: rest).getLast? = some t :=
      ⟨(a :: rest).getLast (by simp), List.getLast?_eq_getLast _ _⟩
    obtain ⟨e, he, hl2⟩ := linked_at_snoc q.heap.length p
      (linked_at_append [some ({ p := p, next := none } : pq_entry)] hl) hnd hfresh hnew t ht
    have hq1 : linked_pos_enqueue q p =
        some { heap := (q.heap ++ [some ({ p := p, next := none } : pq_entry)]).set t
                 (some { p := e.p, next := some q.heap.length }),
               head := q.head, tail := some q.heap.length, len := uadd q.len 1 } := by
      simp only [linked_pos_enqueue]
      rw [if_neg hpos, htail, ht]
      simp only [set_next, he, Option.some_bind]
    refine ⟨_, hq1, rfl, a :: rest ++ [q.heap.length], ?_, hl2, ?_, ?_⟩
    · rw [List.nodup_append]
      refine ⟨hnd, by simp, ?_⟩
      intro x hx hx2
      rw [List.mem_singleton] at hx2
      exact hfresh (hx2 ▸ hx)
    · simp [hhead]
    · show some q.heap.length = ((a :: rest) ++ [q.heap.length]).getLast?
      rw [List.getLast?_append]
      rfl

/-- What `pos_dequeue` does to a queue that holds at least one position. -/
theorem linked_pos_dequeue_spec {q : linked_posqueue} {x : pos} {rest : List pos}
    (h : holds q (x :: rest)) :
    ∃ q1, linked_pos_dequeue q = some (x, q1) ∧ holds q1 rest ∧ q1.len + 1 = q.len := by
  obtain ⟨addrs, hnd, hl, hhead, htail, hlen, hbound⟩ := h
  cases addrs with
  | nil => simp [linked_at] at hl
  | cons a ads =>
    simp only [linked_at] at hl
    have hpos : q.len ≠ 0 := by rw [hlen]; simp
    have hsub : usub q.len 1 = rest.length := by
      rw [hlen]
      simp only [List.length_cons, usub, UINT_SIZE] at hbound ⊢
      omega
    have hlen2 := linked_at_length hl.2
    have hq1 : linked_pos_dequeue q =
        some (x, { heap := q.heap.set a none, head := ads.head?,
                   tail := if usub q.len 1 = 0 then none else q.tail,
                   len := usub q.len 1 }) := by
      simp only [linked_pos_dequeue, hpos, if_false, hhead, List.head?_cons, hl.1]
    refine ⟨_, hq1, ?_, ?_⟩
    · refine ⟨ads, (List.nodup_cons.1 hnd).2, linked_at_set a none hl.2 (List.nodup_cons.1 hnd).1,
        rfl, ?_, hsub, ?_⟩
      · simp only [hsub]
        cases ads with
        | nil =>
          have : rest.length = 0 := by rw [← hlen2]; rfl
          rw [if_pos this]
          rfl
        | cons b bs =>
          have : rest.length ≠ 0 := by rw [← hlen2]; simp
          rw [if_neg this, htail, List.getLast?_cons_cons]
      · simp only [List.length_cons] at hbound
        omega
    · show usub q.len 1 + 1 = q.len
      rw [hsub, hlen]
      rfl

theorem holds_new : holds linked_posqueue_new [] :=
  ⟨[], List.nodup_nil, by simp [linked_at, linked_posqueue_new], rfl, rfl, rfl, by decide⟩

/-- Enqueuing on a queue that stays shorter than `2^32`. -/
theorem linked_pos_enqueue_holds {q : linked_posqueue} {xs : List pos} (p : pos)
    (h : holds q xs) (hlen : xs.length + 1 < UINT_SIZE) :
    ∃ q1, linked_pos_enqueue q p = some q1 ∧ holds q1 (xs ++ [p]) ∧ q1.len = q.len + 1 := by
  obtain ⟨q1, h1, h2, addrs, h3, h4, h5, h6⟩ := linked_pos_enqueue_spec p h
  have hq : q.len = xs.length := by
    obtain ⟨_, _, _, _, _, h8, _⟩ := h
    exact h8
  have h7 : q1.len = q.len + 1 := by
    rw [h2, hq]
    simp only [uadd, UINT_SIZE] at hlen ⊢
    omega
  refine ⟨q1, h1, ⟨addrs, h3, h4, h5, h6, ?_, ?_⟩, h7⟩
  · rw [h7, hq]; simp
  · simpa using hlen

theorem enqueue_all_holds : ∀ (ps : List pos) {q : linked_posqueue} {xs : List pos},
    holds q xs → xs.length + ps.length < UINT_SIZE →
      ∃ q1, enqueue_all q ps = some q1 ∧ holds q1 (xs ++ ps)
  | [], q, xs, h, _ => ⟨q, rfl, by simpa using h⟩
  | p :: ps, q, xs, h, hlen => by
    simp only [List.length_cons] at hlen
    obtain ⟨q1, h1, h2, _⟩ := linked_pos_enqueue_holds p h (by omega)
    obtain ⟨q2, h3, h4⟩ := enqueue_all_holds ps h2 (by simp; omega)
    refine ⟨q2, ?_, by simpa using h4⟩
    simp only [enqueue_all, h1, Option.some_bind]
    exact h3

theorem dequeue_all_holds : ∀ (xs : List pos) {q : linked_posqueue},
    holds q xs → ∃ q1, dequeue_all xs.length q = some (xs, q1) ∧ holds q1 [] ∧ q1.len = 0
  | [], q, h => ⟨q, rfl, h, by
    obtain ⟨_, _, _, _, _, h8, _⟩ := h
    simpa using h8⟩
  | x :: rest, q, h => by
    obtain ⟨q1, h1, h2, _⟩ := linked_pos_dequeue_spec h
    obtain ⟨q2, h3, h4, h5⟩ := dequeue_all_holds rest h2
    refine ⟨q2, ?_, h4, h5⟩
    simp only [List.length_cons, dequeue_all, h1, Option.some_bind, h3]

/-- The list model `posqueue` follows the linked queue: on a queue that holds `xs` with fewer
than `2^32 - 1` positions, `pos_enqueue` gives a queue that holds the entries of the list model
after `pos_enqueue`. -/
theorem pos_enqueue_refines {q : linked_posqueue} {xs : List pos} (p : pos) (h : holds q xs)
    (hlen : xs.length + 1 < UINT_SIZE) :
    ∃ q1, linked_pos_enqueue q p = some q1 ∧ holds q1 (pos_enqueue ⟨xs⟩ p).entries ∧
      q1.len = (pos_enqueue ⟨xs⟩ p).len := by
  obtain ⟨q1, h1, h2, _⟩ := linked_pos_enqueue_holds p h hlen
  refine ⟨q1, h1, h2, ?_⟩
  obtain ⟨_, _, _, _, _, h8, _⟩ := h2
  exact h8

/-- The list model `posqueue` follows the linked queue: on a queue that holds `xs`,
`pos_dequeue` returns the position the list model returns, also when `xs` is empty, and gives a
queue that holds the entries of the list model after `pos_dequeue`. -/
theorem pos_dequeue_refines {q : linked_posqueue} {xs : List pos} (h : holds q xs) :
    ∃ q1, linked_pos_dequeue q = some ((pos_dequeue ⟨xs⟩).1, q1) ∧
      holds q1 (pos_dequeue ⟨xs⟩).2.entries ∧ q1.len = (pos_dequeue ⟨xs⟩).2.len := by
  cases xs with
  | nil =>
    have h0 : q.len = 0 := by
      obtain ⟨_, _, _, _, _, h8, _⟩ := h
      simpa using h8
    refine ⟨q, ?_, h, h0⟩
    simp only [linked_pos_dequeue, pos_dequeue]
    rw [if_pos h0]
  | cons x rest =>
    obtain ⟨q1, h1, h2, _⟩ := linked_pos_dequeue_spec h
    refine ⟨q1, h1, h2, ?_⟩
    obtain ⟨_, _, _, _, _, h8, _⟩ := h2
    exact h8

/-- C20 (amended): the position queue of pos.c is FIFO while it holds fewer than `2^32` positions.
For every queue holding positions `xs` (oldest first): `pos_enqueue(p)` yields `xs` followed by
`p` with `len` increased by one, provided `xs` has fewer than `2^32 - 1` positions; `pos_dequeue`
on a non-empty queue returns the first element of `xs` and leaves the remaining elements in the
same order with `len` decreased by one; and enqueuing `p1..pn` on a new queue, for `n < 2^32`,
and dequeuing `n` times returns `p1..pn` in that order and leaves `len = 0`. -/
theorem linked_queue_fifo (q : linked_posqueue) (xs : List pos) (h : holds q xs) :
    (∀ p, xs.length + 1 < UINT_SIZE →
      ∃ q1, linked_pos_enqueue q p = some q1 ∧ holds q1 (xs ++ [p]) ∧ q1.len = q.len + 1) ∧
    (∀ x rest, xs = x :: rest →
      ∃ q1, linked_pos_dequeue q = some (x, q1) ∧ holds q1 rest ∧ q1.len + 1 = q.len) ∧
    (∀ ps : List pos, ps.length < UINT_SIZE →
      ∃ q1 q2, enqueue_all linked_posqueue_new ps = some q1 ∧ holds q1 ps ∧
        dequeue_all ps.length q1 = some (ps, q2) ∧ q2.len = 0) := by
  refine ⟨fun p hlen => linked_pos_enqueue_holds p h hlen, ?_, ?_⟩
  · intro x rest hx
    subst hx
    exact linked_pos_dequeue_spec h
  · intro ps hps
    obtain ⟨q1, h1, h2⟩ := enqueue_all_holds ps holds_new (by simpa using hps)
    rw [List.nil_append] at h2
    obtain ⟨q2, h3, _, h5⟩ := dequeue_all_holds ps h2
    exact ⟨q1, q2, h1, h2, h3, h5⟩

theorem linked_queue_fifo_witness :
    holds demo_linked_queue [make_pos 1 2, make_pos 3 4] ∧
    (∀ p, [make_pos 1 2, make_pos 3 4].length + 1 < UINT_SIZE →
      ∃ q1, linked_pos_enqueue demo_linked_queue p = some q1 ∧
        holds q1 ([make_pos 1 2, make_pos 3 4] ++ [p]) ∧ q1.len = demo_linked_queue.len + 1) ∧
    (∀ x rest, [make_pos 1 2, make_pos 3 4] = x :: rest →
      ∃ q1, linked_pos_dequeue demo_linked_queue = some (x, q1) ∧ holds q1 rest ∧
        q1.len + 1 = demo_linked_queue.len) ∧
    (∀ ps : List pos, ps.length < UINT_SIZE →
      ∃ q1 q2, enqueue_all linked_posqueue_new ps = some q1 ∧ holds q1 ps ∧
        dequeue_all ps.length q1 = some (ps, q2) ∧ q2.len = 0) :=
  ⟨⟨[0, 1], by decide, by simp [linked_at, demo_linked_queue], rfl, rfl, rfl, by decide⟩,
    linked_queue_fifo demo_linked_queue [make_pos 1 2, make_pos 3 4]
      ⟨[0, 1], by decide, by simp [linked_at, demo_linked_queue], rfl, rfl, rfl, by decide⟩⟩

/-- C20 (as stated) fails for a queue that holds `2^32 - 1` positions: after `2^32 - 1` calls
`pos_enqueue(q, (1, 1))` on a new queue the queue holds these positions with
`len = 4294967295`; one more `pos_enqueue` of `(2, 2)` wraps `len` to `0`, not `len + 1`, and
the next `pos_dequeue` returns `(0, 0)`, not the oldest position `(1, 1)`, and leaves the queue
as it is. -/
theorem enqueue_wraps_len :
    ∃ q q1, enqueue_all linked_posqueue_new (List.replicate 4294967295 (make_pos 1 1)) = some q ∧
      holds q (List.replicate 4294967295 (make_pos 1 1)) ∧ q.len = 4294967295 ∧
      linked_pos_enqueue q (make_pos 2 2) = some q1 ∧ q1.len = 0 ∧ q1.len ≠ q.len + 1 ∧
      linked_pos_dequeue q1 = some (make_pos 0 0, q1) := by
  have hlen : (List.replicate 4294967295 (make_pos 1 1)).length = 4294967295 :=
    List.length_replicate _ _
  obtain ⟨q, h1, h2⟩ := enqueue_all_holds (List.replicate 4294967295 (make_pos 1 1)) holds_new
    (by rw [hlen]; decide)
  rw [List.nil_append] at h2
  have hq : q.len = 4294967295 := by
    obtain ⟨_, _, _, _, _, h8, _⟩ := h2
    rw [h8, hlen]
  obtain ⟨q1, h3, h4, _⟩ := linked_pos_enqueue_spec (make_pos 2 2) h2
  have h0 : q1.len = 0 := by
    rw [h4, hq]
    decide
  refine ⟨q, q1, h1, h2, hq, h3, h0, ?_, ?_⟩
  · rw [h0, hq]
    decide
  · simp only [linked_pos_dequeue]
    rw [if_pos h0]

/-! ## Failures and checks: `pos_dequeue`, `board_get`, `board_set`, `board_new` -/

/-- C21 (amended): `pos_dequeue` on an empty queue, one whose `len` is `0`, returns the position
`(0, 0)` and leaves the queue as it is; a dequeue that succeeds on a queue whose oldest
position is `(0, 0)` returns the same position. -/
theorem pos_dequeue_empty (q : linked_posqueue) (hq : q.len = 0) :
    linked_pos_dequeue q = some (make_pos 0 0, q) ∧
    pos_dequeue posqueue_new = (make_pos 0 0, posqueue_new) ∧
    ∀ q1 rest, holds q1 (make_pos 0 0 :: rest) →
      (linked_pos_dequeue q1).map Prod.fst = (linked_pos_dequeue q).map Prod.fst := by
  have h1 : linked_pos_dequeue q = some (make_pos 0 0, q) := by
    simp only [linked_pos_dequeue]
    rw [if_pos hq]
  refine ⟨h1, rfl, ?_⟩
  intro q1 rest hq1
  obtain ⟨q2, h2, _⟩ := linked_pos_dequeue_spec hq1
  rw [h1, h2]
  rfl

theorem pos_dequeue_empty_witness :
    linked_posqueue_new.len = 0 ∧
    (linked_pos_dequeue linked_posqueue_new = some (make_pos 0 0, linked_posqueue_new) ∧
      pos_dequeue posqueue_new = (make_pos 0 0, posqueue_new) ∧
      ∀ q1 rest, holds q1 (make_pos 0 0 :: rest) →
        (linked_pos_dequeue q1).map Prod.fst =
          (linked_pos_dequeue linked_posqueue_new).map Prod.fst) :=
  ⟨rfl, pos_dequeue_empty linked_posqueue_new rfl⟩

/-- C21 (as stated) fails on the new queue: `pos_dequeue` returns the position `(0, 0)` and
leaves the queue as it is, and the position returned is the one a dequeue returns on the queue
that holds `(0, 0)`. -/
theorem empty_dequeue_returns_origin :
    linked_posqueue_new.len = 0 ∧
    linked_pos_dequeue linked_posqueue_new = some (make_pos 0 0, linked_posqueue_new) ∧
    demo_origin_queue.len = 1 ∧
    linked_pos_enqueue linked_posqueue_new (make_pos 0 0) = some demo_origin_queue ∧
    (linked_pos_dequeue demo_origin_queue).map Prod.fst = some (make_pos 0 0) ∧
    (linked_pos_dequeue linked_posqueue_new).map Prod.fst =
      (linked_pos_dequeue demo_origin_queue).map Prod.fst := by
  decide

/-- C29: for a bit vector board with `width, height > 0` and `width * height * 2 < 2 ^ 32`,
`board_new` allocates `(width * height + 15) / 16` words, and for every in-bounds position
the word index `bit_index / 32` that `board_get` and `board_set` use is
`((r * width + c) * 2) / 32` and is below the number of words. -/
theorem packed_index_in_storage (width height : Nat) (p : pos) (_hw : 0 < width)
    (_hh : 0 < height) (hfit : width * height * 2 < 4294967296)
    (hp : in_bounds (board_new width height type.BITS) p) :
    (board_new width height type.BITS).u =
      board_rep.bits (List.replicate ((width * height + 15) / 16) 0) ∧
    bit_index width p / 32 = ((p.r * width + p.c) * 2) / 32 ∧
    ((p.r * width + p.c) * 2) / 32 < (width * height + 15) / 16 ∧
    ∃ ws, (board_new width height type.BITS).u = board_rep.bits ws ∧
      bit_index width p / 32 < ws.length := by
  have hfit1 : width * height ≤ 2147483648 := by omega
  have hnew : board_new width height type.BITS = ⟨width, height,
      board_rep.bits (List.replicate (usub (uadd (umul width height) 16) 1 / 16) 0)⟩ := rfl
  have hr : p.r < height := hp.1
  have hc : p.c < width := hp.2
  have hidx : bit_index width p = (p.r * width + p.c) * 2 :=
    bit_index_eq (b := ⟨width, height, board_rep.bits []⟩) hfit1 ⟨hr, hc⟩
  have h1 : p.r * width + p.c < width * height := by
    calc p.r * width + p.c < p.r * width + width := by omega
      _ = (p.r + 1) * width := by ring
      _ ≤ height * width := Nat.mul_le_mul_right _ hr
      _ = width * height := by ring
  have hlt : ((p.r * width + p.c) * 2) / 32 < (width * height + 15) / 16 := by omega
  rw [hnew, words_eq hfit1, hidx]
  refine ⟨rfl, rfl, hlt, _, rfl, ?_⟩
  rw [List.length_replicate]
  exact hlt

theorem packed_index_in_storage_witness :
    0 < 3 ∧ 0 < 3 ∧ 3 * 3 * 2 < 4294967296 ∧
    in_bounds (board_new 3 3 type.BITS) (make_pos 2 2) ∧
    ((board_new 3 3 type.BITS).u =
        board_rep.bits (List.replicate ((3 * 3 + 15) / 16) 0) ∧
      bit_index 3 (make_pos 2 2) / 32 =
        (((make_pos 2 2).r * 3 + (make_pos 2 2).c) * 2) / 32 ∧
      (((make_pos 2 2).r * 3 + (make_pos 2 2).c) * 2) / 32 < (3 * 3 + 15) / 16 ∧
      ∃ ws, (board_new 3 3 type.BITS).u = board_rep.bits ws ∧
        bit_index 3 (make_pos 2 2) / 32 < ws.length) :=
  ⟨by decide, by decide, by decide, by decide,
    packed_index_in_storage 3 3 (make_pos 2 2) (by decide) (by decide) (by decide)
      (by decide)⟩

/-- The bit index of a position when the arithmetic does not wrap. -/
theorem bit_index_exact (w : Nat) (p : pos) (h : (p.r * w + p.c) * 2 < UINT_SIZE) :
    bit_index w p = (p.r * w + p.c) * 2 := by
  have h2 : p.r * w ≤ p.r * w + p.c := Nat.le_add_right _ _
  simp only [bit_index, umul, uadd, UINT_SIZE] at h ⊢
  rw [Nat.mod_eq_of_lt (a := p.r * w) (by omega),
    Nat.mod_eq_of_lt (a := p.r * w + p.c) (by omega), Nat.mod_eq_of_lt (by omega)]

/-- The bit index is even, so the two bits of a cell lie in one word. -/
theorem bit_index_offset (w : Nat) (p : pos) : bit_index w p % 32 + 1 < 32 := by
  simp only [bit_index, umul, UINT_SIZE]
  omega

/-- The two bits `board_get` reads from a word. -/
theorem read_word_testBit (w0 off k : Nat) :
    Nat.testBit ((w0 >>> off) &&& 3) k = (decide (k < 2) && Nat.testBit w0 (off + k)) := by
  rw [Nat.testBit_land, Nat.testBit_shiftRight, three_testBit, Bool.and_comm]

/-- The word and the two bits of a position on a bit vector board, with the bit index as the
code computes it in `unsigned int`, for a position whose word lies in the storage: what
`board_get` decodes and what `board_set` writes. -/
theorem packed_word_math (w h : Nat) (ws : List Nat) (p : pos) (v : cell) (w0 : Nat)
    (hp : in_bounds ⟨w, h, board_rep.bits ws⟩ p)
    (hword : ws[bit_index w p / 32]? = some w0) :
    ((p.r * w + p.c) * 2 < UINT_SIZE → bit_index w p = (p.r * w + p.c) * 2) ∧
    bit_index w p % 32 + 1 < 32 ∧
    (cell_value cell.EMPTY = 0 ∧ cell_value cell.BLACK = 1 ∧ cell_value cell.WHITE = 2) ∧
    (cell_of_bits 0 = cell.EMPTY ∧ cell_of_bits 1 = cell.BLACK ∧ cell_of_bits 2 = cell.WHITE) ∧
    (∃ x, board_get ⟨w, h, board_rep.bits ws⟩ p = some (cell_of_bits x) ∧
      ∀ k, Nat.testBit x k = (decide (k < 2) && Nat.testBit w0 (bit_index w p % 32 + k))) ∧
    ∃ w1, board_set ⟨w, h, board_rep.bits ws⟩ p v =
        some ⟨w, h, board_rep.bits (ws.set (bit_index w p / 32) w1)⟩ ∧
      Nat.testBit w1 (bit_index w p % 32) = Nat.testBit (cell_value v) 0 ∧
      Nat.testBit w1 (bit_index w p % 32 + 1) = Nat.testBit (cell_value v) 1 ∧
      (∀ j, j < 32 → j ≠ bit_index w p % 32 → j ≠ bit_index w p % 32 + 1 →
        Nat.testBit w1 j = Nat.testBit w0 j) ∧
      (∀ i, i ≠ bit_index w p / 32 → (ws.set (bit_index w p / 32) w1)[i]? = ws[i]?) ∧
      board_get ⟨w, h, board_rep.bits (ws.set (bit_index w p / 32) w1)⟩ p = some v := by
  have hoff := bit_index_offset w p
  have hg : ¬ (p.r > h ∧ p.c > w) := by
    have h1 : p.r < h := hp.1
    omega
  have hlt : bit_index w p / 32 < ws.length := (List.getElem?_eq_some.mp hword).1
  refine ⟨bit_index_exact w p, hoff, ⟨rfl, rfl, rfl⟩, ⟨rfl, rfl, rfl⟩, ?_, ?_⟩
  · exact ⟨_, get_on_bits w h ws w0 _ _ p _ rfl rfl hword rfl, read_word_testBit w0 _⟩
  · refine ⟨_, place_on_bits w h ws w0 _ _ _ p v hg rfl rfl hword rfl, ?_, ?_, ?_, ?_, ?_⟩
    · rw [set_word_testBit]
      have h1 : bit_index w p % 32 < 32 := by omega
      simp [h1]
    · rw [set_word_testBit]
      have h2 : bit_index w p % 32 + 1 - bit_index w p % 32 = 1 := by omega
      simp [hoff, h2]
    · intro j hj h1 h2
      rw [set_word_testBit]
      by_cases h3 : bit_index w p % 32 ≤ j
      · have h4 : ¬ (j - bit_index w p % 32 < 2) := by omega
        have h5 : Nat.testBit (cell_value v) (j - bit_index w p % 32) = false :=
          testBit_small (cell_value_lt v) (by omega)
        simp [hj, h3, h4, h5]
      · simp [hj, h3]
    · intro i hi
      exact List.getElem?_set_ne hi.symm
    · refine get_on_bits w h _ ((w0 &&& unot (3 <<< (bit_index w p % 32))) |||
        ((cell_value v <<< (bit_index w p % 32)) % UINT_SIZE)) _ _ p v rfl rfl ?_ ?_
      · rw [List.getElem?_set_self hlt]
      · rw [read_word_same _ _ _ (cell_value_lt v) (by omega)]
        exact cell_of_bits_value v

/-- C24 (amended): on a bit vector board whose storage has the size `board_new` gives it and
that has at most `2 ^ 31` cells, so that `(r * width + c) * 2` does not wrap as an
`unsigned int`, for every in-bounds position `(r, c)` and cell value `v`, with the bit index
`(r * width + c) * 2`, the word `bit_index / 32` and the offset `bit_index % 32`: the word lies
in the storage, `board_get` decodes the two bits `offset` and `offset + 1` of the word, and
`board_set` writes the word so that these two bits are the bits of the value of the cell, `0`
for `EMPTY`, `1` for `BLACK` and `2` for `WHITE`, every other bit of the word is unchanged, and
every other word is unchanged. -/
theorem packed_bit_math (w h : Nat) (ws : List Nat) (p : pos) (v : cell)
    (hwf : storage_ok w h (board_rep.bits ws)) (hfit : w * h ≤ 2147483648)
    (hp : in_bounds ⟨w, h, board_rep.bits ws⟩ p) :
    (p.r * w + p.c) * 2 % 32 + 1 < 32 ∧
    (cell_value cell.EMPTY = 0 ∧ cell_value cell.BLACK = 1 ∧ cell_value cell.WHITE = 2) ∧
    (cell_of_bits 0 = cell.EMPTY ∧ cell_of_bits 1 = cell.BLACK ∧ cell_of_bits 2 = cell.WHITE) ∧
    ∃ w0, ws[(p.r * w + p.c) * 2 / 32]? = some w0 ∧
      (∃ x, board_get ⟨w, h, board_rep.bits ws⟩ p = some (cell_of_bits x) ∧
        ∀ k, Nat.testBit x k =
          (decide (k < 2) && Nat.testBit w0 ((p.r * w + p.c) * 2 % 32 + k))) ∧
      ∃ w1, board_set ⟨w, h, board_rep.bits ws⟩ p v =
          some ⟨w, h, board_rep.bits (ws.set ((p.r * w + p.c) * 2 / 32) w1)⟩ ∧
        Nat.testBit w1 ((p.r * w + p.c) * 2 % 32) = Nat.testBit (cell_value v) 0 ∧
        Nat.testBit w1 ((p.r * w + p.c) * 2 % 32 + 1) = Nat.testBit (cell_value v) 1 ∧
        (∀ j, j < 32 → j ≠ (p.r * w + p.c) * 2 % 32 → j ≠ (p.r * w + p.c) * 2 % 32 + 1 →
          Nat.testBit w1 j = Nat.testBit w0 j) ∧
        (∀ i, i ≠ (p.r * w + p.c) * 2 / 32 →
          (ws.set ((p.r * w + p.c) * 2 / 32) w1)[i]? = ws[i]?) ∧
        board_get ⟨w, h, board_rep.bits (ws.set ((p.r * w + p.c) * 2 / 32) w1)⟩ p =
          some v := by
  have hidx : bit_index w p = (p.r * w + p.c) * 2 :=
    bit_index_eq (b := ⟨w, h, board_rep.bits ws⟩) hfit hp
  have hlt : bit_index w p / 32 < ws.length := word_index_lt hwf hfit hp.1 hp.2
  obtain ⟨w0, hword⟩ : ∃ w0, ws[bit_index w p / 32]? = some w0 :=
    ⟨_, List.getElem?_eq_getElem hlt⟩
  obtain ⟨_, hoff, henc, hdec, hget, hset⟩ := packed_word_math w h ws p v w0 hp hword
  rw [hidx] at hoff hget hset hword
  exact ⟨hoff, henc, hdec, w0, hword, hget, hset⟩

theorem packed_bit_math_witness :
    storage_ok 3 3 (board_rep.bits [265]) ∧ 3 * 3 ≤ 2147483648 ∧
    in_bounds ⟨3, 3, board_rep.bits [265]⟩ (make_pos 1 1) ∧
    (((make_pos 1 1).r * 3 + (make_pos 1 1).c) * 2 % 32 + 1 < 32 ∧
      (cell_value cell.EMPTY = 0 ∧ cell_value cell.BLACK = 1 ∧ cell_value cell.WHITE = 2) ∧
      (cell_of_bits 0 = cell.EMPTY ∧ cell_of_bits 1 = cell.BLACK ∧
        cell_of_bits 2 = cell.WHITE) ∧
      ∃ w0, [265][((make_pos 1 1).r * 3 + (make_pos 1 1).c) * 2 / 32]? = some w0 ∧
        (∃ x, board_get ⟨3, 3, board_rep.bits [265]⟩ (make_pos 1 1) = some (cell_of_bits x) ∧
          ∀ k, Nat.testBit x k =
            (decide (k < 2) &&
              Nat.testBit w0 (((make_pos 1 1).r * 3 + (make_pos 1 1).c) * 2 % 32 + k))) ∧
        ∃ w1, board_set ⟨3, 3, board_rep.bits [265]⟩ (make_pos 1 1) cell.WHITE =
            some ⟨3, 3, board_rep.bits
              ([265].set (((make_pos 1 1).r * 3 + (make_pos 1 1).c) * 2 / 32) w1)⟩ ∧
          Nat.testBit w1 (((make_pos 1 1).r * 3 + (make_pos 1 1).c) * 2 % 32) =
            Nat.testBit (cell_value cell.WHITE) 0 ∧
          Nat.testBit w1 (((make_pos 1 1).r * 3 + (make_pos 1 1).c) * 2 % 32 + 1) =
            Nat.testBit (cell_value cell.WHITE) 1 ∧
          (∀ j, j < 32 → j ≠ ((make_pos 1 1).r * 3 + (make_pos 1 1).c) * 2 % 32 →
            j ≠ ((make_pos 1 1).r * 3 + (make_pos 1 1).c) * 2 % 32 + 1 →
            Nat.testBit w1 j = Nat.testBit w0 j) ∧
          (∀ i, i ≠ ((make_pos 1 1).r * 3 + (make_pos 1 1).c) * 2 / 32 →
            ([265].set (((make_pos 1 1).r * 3 + (make_pos 1 1).c) * 2 / 32) w1)[i]? =
              [265][i]?) ∧
          board_get ⟨3, 3, board_rep.bits
              ([265].set (((make_pos 1 1).r * 3 + (make_pos 1 1).c) * 2 / 32) w1)⟩
            (make_pos 1 1) = some cell.WHITE) :=
  ⟨by decide, by decide, by decide,
    packed_bit_math 3 3 [265] (make_pos 1 1) cell.WHITE (by decide) (by decide) (by decide)⟩

/-- C24 (as stated) fails on the bit vector board `board_new(65536, 32769, BITS)`, of more than
`2 ^ 31` cells: for the in-bounds position `(32768, 0)` the bit index `(r * width + c) * 2` is
`2 ^ 32`, its word is the word `134217728` of the storage and its offset is `0`, but
`board_set` of `BLACK` leaves that word `0` and writes the bits `0` and `1` of the word `0`,
which becomes `1`. -/
theorem packed_word_wraps :
    (board_new 65536 32769 type.BITS).wf ∧
    in_bounds (board_new 65536 32769 type.BITS) (make_pos 32768 0) ∧
    ((make_pos 32768 0).r * 65536 + (make_pos 32768 0).c) * 2 / 32 = 134217728 ∧
    ((make_pos 32768 0).r * 65536 + (make_pos 32768 0).c) * 2 % 32 = 0 ∧
    cell_value cell.BLACK = 1 ∧
    ∃ ws ws1, (board_new 65536 32769 type.BITS).u = board_rep.bits ws ∧
      board_set (board_new 65536 32769 type.BITS) (make_pos 32768 0) cell.BLACK =
        some ⟨65536, 32769, board_rep.bits ws1⟩ ∧
      ws[134217728]? = some 0 ∧ ws1[134217728]? = some 0 ∧
      ws[0]? = some 0 ∧ ws1[0]? = some 1 := by
  have hlen : (List.replicate 134221824 0).length = 134221824 := List.length_replicate _ _
  have h0 : (List.replicate 134221824 0)[0]? = some 0 :=
    List.getElem?_replicate_of_lt (by norm_num)
  have hbig : (List.replicate 134221824 0)[134217728]? = some 0 :=
    List.getElem?_replicate_of_lt (by norm_num)
  have hset : board_set ⟨65536, 32769, board_rep.bits (List.replicate 134221824 0)⟩
      (make_pos 32768 0) cell.BLACK =
      some ⟨65536, 32769, board_rep.bits ((List.replicate 134221824 0).set 0 1)⟩ :=
    place_on_bits 65536 32769 _ 0 0 0 1 (make_pos 32768 0) cell.BLACK (by decide) (by decide)
      (by decide) h0 (by decide)
  rw [wide_board_new]
  refine ⟨?_, ⟨by decide, by decide⟩, by decide, by decide, rfl,
    List.replicate 134221824 0, (List.replicate 134221824 0).set 0 1, rfl, hset, hbig, ?_,
    h0, ?_⟩
  · show storage_ok _ _ _
    have hn : usub (uadd (umul 65536 32769) 16) 1 / 16 = 134221824 := by decide
    simp only [storage_ok, List.length_replicate, hn]
  · rw [List.getElem?_set_ne (by decide), hbig]
  · exact List.getElem?_set_self (by rw [hlen]; norm_num)

/-- C22 (amended): `board_get` makes no test of the position: on a bit vector board it returns
a cell value for every position whose word lies in the storage, and when the index does not
wrap, the value of the cell `(r + c / width, c % width)`, also when `c ≥ width`. -/
theorem board_access_unchecked (b : board) (p : pos) :
    (∀ ws w0, b.u = board_rep.bits ws → ws[bit_index b.width p / 32]? = some w0 →
      ∃ x, board_get b p = some x) ∧
    (∀ ws, b.u = board_rep.bits ws → 0 < b.width → (p.r * b.width + p.c) * 2 < UINT_SIZE →
      board_get b p = board_get b (make_pos (p.r + p.c / b.width) (p.c % b.width))) := by
  obtain ⟨w, h, u⟩ := b
  refine ⟨?_, ?_⟩
  · intro ws w0 hu hword
    simp only at hu hword
    subst hu
    exact ⟨_, get_on_bits w h ws w0 _ _ p _ rfl rfl hword rfl⟩
  · intro ws hu hw hfit
    simp only at hu hw hfit
    subst hu
    have hsum : (p.r + p.c / w) * w + p.c % w = p.r * w + p.c := by
      have := Nat.div_add_mod p.c w
      calc (p.r + p.c / w) * w + p.c % w = p.r * w + (w * (p.c / w) + p.c % w) := by ring
        _ = p.r * w + p.c := by rw [this]
    have h1 : bit_index w p = (p.r * w + p.c) * 2 := bit_index_exact w p hfit
    have h2 : bit_index w (make_pos (p.r + p.c / w) (p.c % w)) = (p.r * w + p.c) * 2 := by
      rw [bit_index_exact w _ (by simp only [make_pos]; rw [hsum]; exact hfit)]
      simp only [make_pos]
      rw [hsum]
    simp only [board_get, h1, h2]

/-- C22 (as stated) fails on the bit vector board of width `3` and height `3` that holds
`BLACK` at `(0, 0)` and `(1, 1)` and `WHITE` at `(0, 1)`: the position `(0, 4)` has
`c ≥ width`, and `board_get` returns `BLACK` there, the value of the cell `(1, 1)`, not a
failure. -/
theorem get_outside_returns_cell :
    ¬ in_bounds ⟨3, 3, board_rep.bits [265]⟩ (make_pos 0 4) ∧
    (make_pos 0 4).c ≥ 3 ∧
    board_get ⟨3, 3, board_rep.bits [265]⟩ (make_pos 0 4) = some cell.BLACK ∧
    board_get ⟨3, 3, board_rep.bits [265]⟩ (make_pos 1 1) = some cell.BLACK := by
  decide

/-! ## The rows of a rotation in any order -/

/-- One write of `rotate_row` keeps the cells already copied and adds the cell it copies. -/
theorem rows_done_step {b : board} {cw : Bool} {d : pos → Prop} {nb nb1 : board} {p0 : pos}
    {value : cell} (hw : b.width < UINT_SIZE) (hh : b.height < UINT_SIZE)
    (hp0 : in_bounds b p0)
    (hshape : nb.width = b.height ∧ nb.height = b.width ∧ nb.type = type.MATRIX ∧ nb.wf)
    (hcells : ∀ p, in_bounds b p → d p →
      board_get nb (rotate_pos cw b.width b.height p) = board_get b p)
    (hget : board_get b p0 = some value)
    (hset : board_set nb (rotate_pos cw b.width b.height p0) value = some nb1) :
    (nb1.width = b.height ∧ nb1.height = b.width ∧ nb1.type = type.MATRIX ∧ nb1.wf) ∧
    ∀ p, in_bounds b p → (d p ∨ p = p0) →
      board_get nb1 (rotate_pos cw b.width b.height p) = board_get b p := by
  obtain ⟨h1, h2, h3, h4⟩ := hshape
  have hin : ∀ p, in_bounds b p → in_bounds nb (rotate_pos cw b.width b.height p) := by
    intro p hp
    have := rotate_pos_in_bounds cw hw hh (p := p) hp.1 hp.2
    unfold in_bounds
    rw [h1, h2]
    exact this
  obtain ⟨b2, hset2, e1, e2, e3, e4, e5⟩ :=
    board_set_spec nb _ value h4 (fits_of_matrix h3) (hin p0 hp0)
  rw [hset] at hset2
  cases hset2
  refine ⟨⟨e1.trans h1, e2.trans h2, e3.trans h3, e4⟩, ?_⟩
  intro p hp hd
  rw [e5 _ (hin p hp)]
  by_cases heq : rotate_pos cw b.width b.height p = rotate_pos cw b.width b.height p0
  · have hpp : p = p0 := rotate_pos_inj cw hw hh hp.1 hp.2 hp0.1 hp0.2 heq
    rw [if_pos heq, hpp, hget]
  · rw [if_neg heq]
    rcases hd with hd | hd
    · exact hcells p hp hd
    · exact absurd (by rw [hd]) heq

/-- The call of `rotate_row` for any row of the board returns, keeps the rows already copied
and adds its row. -/
theorem rotate_row_done {b : board} {cw : Bool} {done : Nat → Prop} {nb : board} {r : Nat}
    (hm : b.type = type.MATRIX) (hwf : b.wf)
    (hw : b.width < UINT_SIZE) (hh : b.height < UINT_SIZE) (hr : r < b.height)
    (hinv : rows_done b cw done nb) :
    ∃ nb1, rotate_row b cw r nb = some nb1 ∧ rows_done b cw (fun i => done i ∨ i = r) nb1 := by
  have hread : board_readable b := board_readable_of_wf hwf (fits_of_matrix hm)
  obtain ⟨h1, h2, h3, h4, h5⟩ := hinv
  obtain ⟨nb1, hrow, hshape, hcells⟩ := for_loop_total
    (fun c t =>
      let o_pos := make_pos r c
      let n_pos := rotate_pos cw b.width b.height o_pos
      (board_get b o_pos).bind fun value => board_set t n_pos value)
    (fun c t => (t.width = b.height ∧ t.height = b.width ∧ t.type = type.MATRIX ∧ t.wf) ∧
      ∀ p, in_bounds b p → (done p.r ∨ (p.r = r ∧ p.c < c)) →
        board_get t (rotate_pos cw b.width b.height p) = board_get b p)
    b.width 0 nb ⟨⟨h1, h2, h3, h4⟩, by
      intro p hp hd
      rcases hd with hd | ⟨_, hd⟩
      · exact h5 p hp hd
      · exact absurd hd (Nat.not_lt_zero _)⟩ (by
      intro c t _ hc hP
      simp only [Nat.zero_add] at hc
      obtain ⟨hs, hcs⟩ := hP
      have hp0 : in_bounds b (make_pos r c) := ⟨hr, hc⟩
      obtain ⟨value, hv⟩ := hread _ hp0
      have hin : in_bounds t (rotate_pos cw b.width b.height (make_pos r c)) := by
        have := rotate_pos_in_bounds cw hw hh (p := make_pos r c) hr hc
        unfold in_bounds
        rw [hs.1, hs.2.1]
        exact this
      obtain ⟨t1, ht1, _⟩ := board_set_spec t _ value hs.2.2.2 (fits_of_matrix hs.2.2.1) hin
      refine ⟨t1, by simp only [hv, Option.some_bind, ht1], ?_⟩
      obtain ⟨hs1, hcs1⟩ := rows_done_step
        (d := fun p => done p.r ∨ (p.r = r ∧ p.c < c)) hw hh hp0 hs hcs hv ht1
      refine ⟨hs1, ?_⟩
      intro p hp hd
      apply hcs1 p hp
      rcases hd with hd | ⟨hd1, hd2⟩
      · exact Or.inl (Or.inl hd)
      · by_cases hpc : p.c = c
        · right
          cases p
          simp only [make_pos] at hd1 hpc ⊢
          rw [hd1, hpc]
        · exact Or.inl (Or.inr ⟨hd1, by omega⟩))
  refine ⟨nb1, hrow, hshape.1, hshape.2.1, hshape.2.2.1, hshape.2.2.2, ?_⟩
  intro p hp hd
  apply hcells p hp
  rcases hd with hd | hd
  · exact Or.inl hd
  · exact Or.inr ⟨hd, by simpa using hp.2⟩

/-- The calls of `rotate_row` for a list of rows of the board, in any order, all return and
copy these rows. -/
theorem rotate_rows_done {b : board} (cw : Bool) (hm : b.type = type.MATRIX) (hwf : b.wf)
    (hw : b.width < UINT_SIZE) (hh : b.height < UINT_SIZE) :
    ∀ (l : List Nat) (done : Nat → Prop) (nb : board), (∀ r ∈ l, r < b.height) →
      rows_done b cw done nb →
      ∃ nb1, rotate_rows b cw l nb = some nb1 ∧ rows_done b cw (fun i => done i ∨ i ∈ l) nb1
  | [], done, nb, _, hinv => ⟨nb, rfl, by simpa using hinv⟩
  | r :: rest, done, nb, hl, hinv => by
    obtain ⟨nb1, h1, hinv1⟩ := rotate_row_done hm hwf hw hh (hl r (List.mem_cons_self _ _)) hinv
    obtain ⟨nb2, h2, hinv2⟩ := rotate_rows_done cw hm hwf hw hh rest _ nb1
      (fun x hx => hl x (List.mem_cons_of_mem _ hx)) hinv1
    refine ⟨nb2, by simp only [rotate_rows, h1, Option.some_bind, h2], ?_⟩
    obtain ⟨e1, e2, e3, e4, e5⟩ := hinv2
    refine ⟨e1, e2, e3, e4, ?_⟩
    intro p hp hd
    apply e5 p hp
    rcases hd with hd | hd
    · exact Or.inl (Or.inl hd)
    · rcases List.mem_cons.1 hd with hd | hd
      · exact Or.inl (Or.inr hd)
      · exact Or.inr hd

/-- Every in-bounds position of the rotated board is the rotated position of an in-bounds
position of the board. -/
theorem rotate_pos_surj {w h : Nat} (cw : Bool) (hw : w < UINT_SIZE) (hh : h < UINT_SIZE)
    {q : pos} (hr : q.r < w) (hc : q.c < h) :
    ∃ p : pos, p.r < h ∧ p.c < w ∧ rotate_pos cw w h p = q := by
  obtain ⟨qr, qc⟩ := q
  simp only at hr hc
  cases cw
  · refine ⟨make_pos qc (w - 1 - qr), hc, by simp only [make_pos]; omega, ?_⟩
    rw [rotate_pos_eq false hw hh (by simpa [make_pos] using hc)
      (by simp only [make_pos]; omega)]
    simp only [Bool.false_eq_true, if_false, make_pos, pos.mk.injEq, and_true]
    omega
  · refine ⟨make_pos (h - 1 - qc) qr, by simp only [make_pos]; omega, hr, ?_⟩
    rw [rotate_pos_eq true hw hh (by simp only [make_pos]; omega)
      (by simpa [make_pos] using hr)]
    simp only [if_true, make_pos, pos.mk.injEq, true_and]
    omega

/-- Two matrix boards of the same width and height with their storage are equal when they
hold the same cells. -/
theorem matrix_board_ext {b1 b2 : board} (t1 : b1.type = type.MATRIX)
    (t2 : b2.type = type.MATRIX) (wf1 : b1.wf) (wf2 : b2.wf) (hw : b1.width = b2.width)
    (hh : b1.height = b2.height)
    (hget : ∀ q, in_bounds b1 q → board_get b1 q = board_get b2 q) : b1 = b2 := by
  obtain ⟨w1, h1, u1⟩ := b1
  obtain ⟨w2, h2, u2⟩ := b2
  simp only at hw hh
  subst hw
  subst hh
  cases u1 with
  | bits ws => simp [board.type] at t1
  | matrix m1 =>
    cases u2 with
    | bits ws => simp [board.type] at t2
    | matrix m2 =>
      have wf1 : storage_ok w1 h1 (board_rep.matrix m1) := wf1
      have wf2 : storage_ok w1 h1 (board_rep.matrix m2) := wf2
      obtain ⟨l1, r1⟩ := wf1
      obtain ⟨l2, r2⟩ := wf2
      have hm : m1 = m2 := by
        apply List.ext_getElem (by rw [l1, l2])
        intro i hi1 hi2
        have hrow1 : (m1[i]).length = w1 := r1 _ (List.getElem_mem hi1)
        have hrow2 : (m2[i]).length = w1 := r2 _ (List.getElem_mem hi2)
        apply List.ext_getElem (by rw [hrow1, hrow2])
        intro j hj1 hj2
        have := hget (make_pos i j) ⟨by show i < h1; omega, by show j < w1; omega⟩
        simp only [board_get, make_pos, List.getElem?_eq_getElem hi1,
          List.getElem?_eq_getElem hi2, List.getElem?_eq_getElem hj1,
          List.getElem?_eq_getElem hj2, Option.some.injEq] at this
        exact this
      rw [hm]

theorem for_loop_rows (b : board) (cw : Bool) :
    ∀ (n i : Nat) (nb : board),
      for_loop (fun r t => rotate_row b cw r t) n i nb = rotate_rows b cw (List.range' i n) nb
  | 0, _, _ => rfl
  | n + 1, i, nb => by
    simp only [for_loop, List.range'_succ, rotate_rows]
    cases rotate_row b cw i nb with
    | none => rfl
    | some t => exact for_loop_rows b cw n (i + 1) t

theorem rows_done_new (b : board) (cw : Bool) :
    rows_done b cw (fun _ => False) (board_new b.height b.width type.MATRIX) :=
  ⟨rfl, rfl, rfl, board_new_matrix_wf _ _, fun _ _ h => absurd h id⟩

/-- Two new boards on which all the rows of the board were copied are equal. -/
theorem rows_done_unique {b : board} {cw : Bool} {d1 d2 : Nat → Prop} {nb1 nb2 : board}
    (hw : b.width < UINT_SIZE) (hh : b.height < UINT_SIZE)
    (h1 : rows_done b cw d1 nb1) (h2 : rows_done b cw d2 nb2)
    (a1 : ∀ r, r < b.height → d1 r) (a2 : ∀ r, r < b.height → d2 r) : nb1 = nb2 := by
  obtain ⟨e1, e2, e3, e4, e5⟩ := h1
  obtain ⟨f1, f2, f3, f4, f5⟩ := h2
  refine matrix_board_ext e3 f3 e4 f4 (e1.trans f1.symm) (e2.trans f2.symm) ?_
  intro q hq
  obtain ⟨p, hpr, hpc, hp⟩ := rotate_pos_surj cw hw hh (q := q)
    (by have := hq.1; rw [e2] at this; exact this) (by have := hq.2; rw [e1] at this; exact this)
  rw [← hp, e5 p ⟨hpr, hpc⟩ (a1 _ hpr), f5 p ⟨hpr, hpc⟩ (a2 _ hpr)]

/-- C26: in the rotation of a matrix board with its storage, the calls of `rotate_row` for
different rows write different cells, all of them in-bounds cells of the new board, and the
calls for the rows in the order of any permutation of `0, ..., height - 1` return the board
that the calls in ascending order return, which is the board `rotate` installs. -/
theorem rotate_rows_any_order (b : board) (clockwise : Bool) (l : List Nat)
    (hm : b.type = type.MATRIX) (hwf : b.wf) (hw : b.width < UINT_SIZE)
    (hh : b.height < UINT_SIZE) (hperm : l.Perm (List.range b.height)) :
    (∀ p q, in_bounds b p → in_bounds b q → p.r ≠ q.r →
      rotate_pos clockwise b.width b.height p ≠ rotate_pos clockwise b.width b.height q) ∧
    (∀ p, in_bounds b p → in_bounds (board_new b.height b.width type.MATRIX)
      (rotate_pos clockwise b.width b.height p)) ∧
    ∃ nb, rotate_rows b clockwise l (board_new b.height b.width type.MATRIX) = some nb ∧
      rotate_rows b clockwise (List.range b.height)
        (board_new b.height b.width type.MATRIX) = some nb ∧
      rotate_board b clockwise = some nb := by
  refine ⟨?_, ?_, ?_⟩
  · intro p q hp hq hne heq
    exact hne (by rw [rotate_pos_inj clockwise hw hh hp.1 hp.2 hq.1 hq.2 heq])
  · intro p hp
    exact rotate_pos_in_bounds clockwise hw hh hp.1 hp.2
  · have hmem : ∀ r, r ∈ l ↔ r < b.height := fun r => by
      rw [hperm.mem_iff, List.mem_range]
    obtain ⟨nb1, h1, hinv1⟩ := rotate_rows_done clockwise hm hwf hw hh l _ _
      (fun r hr => (hmem r).1 hr) (rows_done_new b clockwise)
    obtain ⟨nb2, h2, hinv2⟩ := rotate_rows_done clockwise hm hwf hw hh
      (List.range b.height) _ _ (fun r hr => List.mem_range.1 hr) (rows_done_new b clockwise)
    have heq : nb1 = nb2 := rows_done_unique hw hh hinv1 hinv2
      (fun r hr => Or.inr ((hmem r).2 hr)) (fun r hr => Or.inr (List.mem_range.2 hr))
    refine ⟨nb1, h1, by rw [heq]; exact h2, ?_⟩
    unfold rotate_board
    simp only [hm]
    rw [for_loop_rows, ← List.range_eq_range', heq]
    exact h2

theorem rotate_rows_any_order_witness :
    demo_matrix_game.b.type = type.MATRIX ∧ demo_matrix_game.b.wf ∧
    demo_matrix_game.b.width < UINT_SIZE ∧ demo_matrix_game.b.height < UINT_SIZE ∧
    [1, 0].Perm (List.range demo_matrix_game.b.height) ∧
    ((∀ p q, in_bounds demo_matrix_game.b p → in_bounds demo_matrix_game.b q → p.r ≠ q.r →
        rotate_pos true demo_matrix_game.b.width demo_matrix_game.b.height p ≠
          rotate_pos true demo_matrix_game.b.width demo_matrix_game.b.height q) ∧
      (∀ p, in_bounds demo_matrix_game.b p →
        in_bounds (board_new demo_matrix_game.b.height demo_matrix_game.b.width type.MATRIX)
          (rotate_pos true demo_matrix_game.b.width demo_matrix_game.b.height p)) ∧
      ∃ nb, rotate_rows demo_matrix_game.b true [1, 0]
          (board_new demo_matrix_game.b.height demo_matrix_game.b.width type.MATRIX) =
            some nb ∧
        rotate_rows demo_matrix_game.b true (List.range demo_matrix_game.b.height)
          (board_new demo_matrix_game.b.height demo_matrix_game.b.width type.MATRIX) =
            some nb ∧
        rotate_board demo_matrix_game.b true = some nb) :=
  ⟨by decide, by decide, by decide, by decide, List.Perm.swap 0 1 [],
    rotate_rows_any_order demo_matrix_game.b true [1, 0] (by decide) (by decide) (by decide)
      (by decide) (List.Perm.swap 0 1 [])⟩

/-! ## The queues and the board of a reachable game -/

theorem tracks_new (width height : Nat) (col : cell) (hcol : col ≠ cell.EMPTY) :
    tracks posqueue_new (board_new width height type.MATRIX) col := by
  refine ⟨List.nodup_nil, ?_⟩
  intro p
  constructor
  · intro h
    simp [posqueue_new] at h
  · rintro ⟨hp, hget⟩
    rw [board_new_get width height type.MATRIX (fun h => by cases h) p hp] at hget
    simp only [Option.some.injEq] at hget
    exact absurd hget.symm hcol

/-- The queue of the colour written on an `EMPTY` cell, with the position enqueued. -/
theorem tracks_add {q : posqueue} {b b1 : board} {col : cell} {p : pos}
    (ht : tracks q b col) (hp : in_bounds b p) (he : board_get b p = some cell.EMPTY)
    (hcol : col ≠ cell.EMPTY) (hw : b1.width = b.width) (hh : b1.height = b.height)
    (hget : ∀ x, in_bounds b x → board_get b1 x = if x = p then some col else board_get b x) :
    tracks (pos_enqueue q p) b1 col := by
  obtain ⟨hnd, hmem⟩ := ht
  have hin : ∀ x, in_bounds b1 x ↔ in_bounds b x := fun x => by
    unfold in_bounds
    rw [hw, hh]
  have hnot : p ∉ q.entries := by
    intro h
    have := ((hmem p).1 h).2
    rw [he] at this
    simp only [Option.some.injEq] at this
    exact hcol this.symm
  refine ⟨?_, ?_⟩
  · show (q.entries ++ [p]).Nodup
    rw [List.nodup_append]
    refine ⟨hnd, List.nodup_singleton p, ?_⟩
    intro x hx hx1
    rw [List.mem_singleton] at hx1
    exact hnot (hx1 ▸ hx)
  · intro x
    show x ∈ q.entries ++ [p] ↔ _
    rw [List.mem_append, List.mem_singleton, hin x]
    by_cases hxp : x = p
    · subst hxp
      constructor
      · intro _
        exact ⟨hp, by rw [hget x hp, if_pos rfl]⟩
      · intro _
        exact Or.inr rfl
    · constructor
      · rintro (h | h)
        · have := (hmem x).1 h
          exact ⟨this.1, by rw [hget x this.1, if_neg hxp]; exact this.2⟩
        · exact absurd h hxp
      · rintro ⟨h1, h2⟩
        rw [hget x h1, if_neg hxp] at h2
        exact Or.inl ((hmem x).2 ⟨h1, h2⟩)

/-- The queue of a colour when a cell that does not hold it is written with another value. -/
theorem tracks_keep {q : posqueue} {b b1 : board} {col v : cell} {p : pos}
    (ht : tracks q b col) (hp : in_bounds b p) (hold : board_get b p ≠ some col)
    (hv : v ≠ col) (hw : b1.width = b.width) (hh : b1.height = b.height)
    (hget : ∀ x, in_bounds b x → board_get b1 x = if x = p then some v else board_get b x) :
    tracks q b1 col := by
  obtain ⟨hnd, hmem⟩ := ht
  have hin : ∀ x, in_bounds b1 x ↔ in_bounds b x := fun x => by
    unfold in_bounds
    rw [hw, hh]
  refine ⟨hnd, ?_⟩
  intro x
  rw [hmem x, hin x]
  constructor
  · rintro ⟨h1, h2⟩
    refine ⟨h1, ?_⟩
    rw [hget x h1]
    by_cases hxp : x = p
    · subst hxp
      exact absurd h2 hold
    · rw [if_neg hxp]
      exact h2
  · rintro ⟨h1, h2⟩
    refine ⟨h1, ?_⟩
    rw [hget x h1] at h2
    by_cases hxp : x = p
    · rw [if_pos hxp] at h2
      simp only [Option.some.injEq] at h2
      exact absurd h2 hv
    · rw [if_neg hxp] at h2
      exact h2

/-- The queue of a colour whose front position is dequeued, when its cell is written `EMPTY`. -/
theorem tracks_remove {b b1 : board} {col : cell} {p : pos} {rest : List pos}
    (ht : tracks ⟨p :: rest⟩ b col) (hcol : col ≠ cell.EMPTY)
    (hw : b1.width = b.width) (hh : b1.height = b.height)
    (hget : ∀ x, in_bounds b x →
      board_get b1 x = if x = p then some cell.EMPTY else board_get b x) :
    tracks ⟨rest⟩ b1 col := by
  obtain ⟨hnd, hmem⟩ := ht
  have hnd1 : p ∉ rest ∧ rest.Nodup := List.nodup_cons.1 hnd
  have hin : ∀ x, in_bounds b1 x ↔ in_bounds b x := fun x => by
    unfold in_bounds
    rw [hw, hh]
  refine ⟨hnd1.2, ?_⟩
  intro x
  show x ∈ rest ↔ _
  rw [hin x]
  by_cases hxp : x = p
  · subst hxp
    constructor
    · intro h
      exact absurd h hnd1.1
    · rintro ⟨h1, h2⟩
      rw [hget x h1, if_pos rfl] at h2
      simp only [Option.some.injEq] at h2
      exact absurd h2.symm hcol
  · have := hmem x
    simp only [List.mem_cons] at this
    constructor
    · intro h
      have h3 := this.1 (Or.inr h)
      exact ⟨h3.1, by rw [hget x h3.1, if_neg hxp]; exact h3.2⟩
    · rintro ⟨h1, h2⟩
      rw [hget x h1, if_neg hxp] at h2
      rcases this.2 ⟨h1, h2⟩ with h | h
      · exact absurd h hxp
      · exact h

/-- A queue with its front moved to the back tracks the same cells. -/
theorem tracks_cycle {b : board} {col : cell} {p : pos} {rest : List pos}
    (ht : tracks ⟨p :: rest⟩ b col) : tracks ⟨rest ++ [p]⟩ b col := by
  obtain ⟨hnd, hmem⟩ := ht
  have hperm : (rest ++ [p]).Perm (p :: rest) := List.perm_append_singleton p rest
  refine ⟨hperm.nodup_iff.2 hnd, ?_⟩
  intro x
  show x ∈ rest ++ [p] ↔ _
  rw [hperm.mem_iff]
  exact hmem x

/-- The queue of a colour after a rotation: its positions are rotated with the cells. -/
theorem tracks_rotate {q : posqueue} {b nb : board} (cw : Bool) {col : cell}
    (ht : tracks q b col) (hw : b.width < UINT_SIZE) (hh : b.height < UINT_SIZE)
    (h1 : nb.width = b.height) (h2 : nb.height = b.width)
    (hcells : ∀ p, in_bounds b p →
      board_get nb (rotate_pos cw b.width b.height p) = board_get b p) :
    tracks ⟨q.entries.map (rotate_pos cw b.width b.height)⟩ nb col := by
  obtain ⟨hnd, hmem⟩ := ht
  refine ⟨?_, ?_⟩
  · refine List.Nodup.map_on ?_ hnd
    intro x hx y hy hxy
    have hxin := ((hmem x).1 hx).1
    have hyin := ((hmem y).1 hy).1
    exact rotate_pos_inj cw hw hh hxin.1 hxin.2 hyin.1 hyin.2 hxy
  · intro x
    show x ∈ q.entries.map _ ↔ _
    rw [List.mem_map]
    constructor
    · rintro ⟨p, hp, rfl⟩
      obtain ⟨hin, hget⟩ := (hmem p).1 hp
      have := rotate_pos_in_bounds cw hw hh (p := p) hin.1 hin.2
      refine ⟨?_, by rw [hcells p hin]; exact hget⟩
      unfold in_bounds
      rw [h1, h2]
      exact this
    · rintro ⟨hin, hget⟩
      obtain ⟨p, hpr, hpc, hp⟩ := rotate_pos_surj cw hw hh (q := x)
        (by have := hin.1; rw [h2] at this; exact this)
        (by have := hin.2; rw [h1] at this; exact this)
      refine ⟨p, (hmem p).2 ⟨⟨hpr, hpc⟩, ?_⟩, hp⟩
      rw [← hcells p ⟨hpr, hpc⟩, hp]
      exact hget

theorem consistent_new {run width height : Nat} {g : game} (hw : width < UINT_SIZE)
    (hh : height < UINT_SIZE) (hnew : new_game run width height type.MATRIX = some g) :
    consistent g := by
  unfold new_game at hnew
  split at hnew
  · cases hnew
  · simp only [Option.some.injEq] at hnew
    subst hnew
    exact ⟨rfl, board_new_matrix_wf _ _, hw, hh, tracks_new _ _ _ (by decide),
      tracks_new _ _ _ (by decide)⟩

theorem consistent_place {g g1 : game} {p : pos} {ok : Bool} (hinv : consistent g)
    (hp : in_bounds g.b p) (hcall : place_piece g p = some (ok, g1)) : consistent g1 := by
  obtain ⟨hm, hwf, hw, hh, hb, hwq⟩ := hinv
  obtain ⟨v, hv⟩ := board_get_some g.b p hwf (fits_of_matrix hm) hp
  by_cases hve : v = cell.EMPTY
  · subst hve
    cases hpl : g.player with
    | BLACKS_TURN =>
      obtain ⟨b1, hset, e1, e2, e3, e4, e5⟩ :=
        board_set_spec g.b p cell.BLACK hwf (fits_of_matrix hm) hp
      rw [place_piece_black g b1 p hpl hv hset] at hcall
      simp only [Option.some.injEq, Prod.mk.injEq] at hcall
      obtain ⟨_, hg1⟩ := hcall
      subst hg1
      refine ⟨e3.trans hm, e4, by simpa [e1] using hw, by simpa [e2] using hh, ?_, ?_⟩
      · exact tracks_add hb hp hv (by decide) e1 e2 e5
      · exact tracks_keep hwq hp (by rw [hv]; decide) (by decide) e1 e2 e5
    | WHITES_TURN =>
      obtain ⟨b1, hset, e1, e2, e3, e4, e5⟩ :=
        board_set_spec g.b p cell.WHITE hwf (fits_of_matrix hm) hp
      rw [place_piece_white g b1 p hpl hv hset] at hcall
      simp only [Option.some.injEq, Prod.mk.injEq] at hcall
      obtain ⟨_, hg1⟩ := hcall
      subst hg1
      refine ⟨e3.trans hm, e4, by simpa [e1] using hw, by simpa [e2] using hh, ?_, ?_⟩
      · exact tracks_keep hb hp (by rw [hv]; decide) (by decide) e1 e2 e5
      · exact tracks_add hwq hp hv (by decide) e1 e2 e5
  · simp only [place_piece, hv, Option.some_bind, ne_eq, hve, not_false_eq_true, if_true,
      Option.some.injEq, Prod.mk.injEq] at hcall
    rw [← hcall.2]
    exact ⟨hm, hwf, hw, hh, hb, hwq⟩

theorem consistent_rotate {g g1 : game} {cw ok : Bool} (hinv : consistent g)
    (hcall : rotate g cw = some (ok, g1)) : consistent g1 := by
  obtain ⟨hm, hwf, hw, hh, hb, hwq⟩ := hinv
  by_cases hrev : (cw = true ∧ g.last_rotation = rotation.COUNTERCLOCKWISE) ∨
      (cw = false ∧ g.last_rotation = rotation.CLOCKWISE)
  · unfold rotate at hcall
    rw [if_pos hrev] at hcall
    simp only [Option.some.injEq, Prod.mk.injEq] at hcall
    rw [← hcall.2]
    exact ⟨hm, hwf, hw, hh, hb, hwq⟩
  · obtain ⟨g2, hrot, m1, wf1, w1, h1, _, c1, b1, q1⟩ := rotate_matrix_step cw hm hwf hw hh hrev
    rw [hrot] at hcall
    simp only [Option.some.injEq, Prod.mk.injEq] at hcall
    rw [← hcall.2]
    refine ⟨m1, wf1, by rw [w1]; exact hh, by rw [h1]; exact hw, ?_, ?_⟩
    · have := tracks_rotate cw hb hw hh w1 h1 c1
      rw [← b1] at this
      exact this
    · have := tracks_rotate cw hwq hw hh w1 h1 c1
      rw [← q1] at this
      exact this

/-- The game is a pair of queues around its other fields: the queue `uplift` uses for a colour
and the one it leaves alone are the black and the white queue. -/
theorem uplift_queue_tracks {g : game} {c : cell} (hc : c = cell.BLACK ∨ c = cell.WHITE)
    {b : board} :
    (tracks g.black_queue b cell.BLACK ∧ tracks g.white_queue b cell.WHITE) ↔
      (tracks (uplift_queue g c) b c ∧
        tracks (other_queue g c) b (if c = cell.BLACK then cell.WHITE else cell.BLACK)) := by
  rcases hc with h | h
  · subst h
    simp [uplift_queue, other_queue]
  · subst h
    simp only [uplift_queue, other_queue, reduceCtorEq, if_false]
    exact And.comm

theorem consistent_uplift {g g1 : game} {c : cell} {ok : Bool} (hinv : consistent g)
    (hc : c = cell.BLACK ∨ c = cell.WHITE) (hcall : uplift g c = some (ok, g1)) :
    consistent g1 := by
  obtain ⟨hm, hwf, hw, hh, hb, hwq⟩ := hinv
  have hfit := fits_of_matrix hm
  have hcne : c ≠ cell.EMPTY := by rcases hc with h | h <;> rw [h] <;> decide
  have hone : (if c = cell.BLACK then cell.WHITE else cell.BLACK) ≠ cell.EMPTY := by
    split <;> decide
  have hoc : c ≠ (if c = cell.BLACK then cell.WHITE else cell.BLACK) := by
    rcases hc with h | h <;> rw [h] <;> decide
  obtain ⟨hq, ho⟩ := (uplift_queue_tracks hc).1 ⟨hb, hwq⟩
  cases hent : (uplift_queue g c).entries with
  | nil =>
    have hguard : (c = cell.BLACK ∧ g.black_queue.len = 0) ∨
        (c = cell.WHITE ∧ g.white_queue.len = 0) := by
      rcases hc with h | h
      · exact Or.inl ⟨h, by simpa [uplift_queue, h, posqueue.len] using hent⟩
      · exact Or.inr ⟨h, by simpa [uplift_queue, h, posqueue.len] using hent⟩
    unfold uplift at hcall
    rw [if_pos hguard] at hcall
    simp only [Option.some.injEq, Prod.mk.injEq] at hcall
    rw [← hcall.2]
    exact ⟨hm, hwf, hw, hh, hb, hwq⟩
  | cons p rest =>
    have hq1 : tracks ⟨p :: rest⟩ g.b c := by
      have := hq
      unfold tracks at this ⊢
      rw [hent] at this
      exact this
    have hpin : in_bounds g.b p := ((hq1.2 p).1 (List.mem_cons_self _ _)).1
    have hpget : board_get g.b p = some c := ((hq1.2 p).1 (List.mem_cons_self _ _)).2
    by_cases hr : p.r = 0
    · obtain ⟨g2, hup, hb2, _, hqueue, hother, _, _⟩ := uplift_top_steps hent hr
      rw [hup] at hcall
      simp only [Option.some.injEq, Prod.mk.injEq] at hcall
      rw [← hcall.2]
      refine ⟨by rw [hb2]; exact hm, by rw [hb2]; exact hwf, by rw [hb2]; exact hw,
        by rw [hb2]; exact hh, ?_⟩
      apply (uplift_queue_tracks hc).2
      rw [hb2, hother]
      refine ⟨?_, ho⟩
      have := tracks_cycle hq1
      unfold tracks at this ⊢
      rw [hqueue]
      exact this
    · have hr0 : 0 < p.r := Nat.pos_of_ne_zero hr
      have hread : ∀ k, k ≤ p.r → ∃ v, board_get g.b (make_pos k p.c) = some v :=
        fun k hk => board_get_some g.b _ hwf hfit
          ⟨by show k < _; have := hpin.1; omega, hpin.2⟩
      obtain ⟨g2, hup⟩ := uplift_total hent hread
      rw [hup] at hcall
      simp only [Option.some.injEq, Prod.mk.injEq] at hcall
      rw [← hcall.2]
      obtain ⟨r1, b1, b2, hs, hset1, hset2, hgb, hqueue, hother, _⟩ :=
        uplift_moved hent hr0 hup
      obtain ⟨hle, hempty, _⟩ := uplift_slide_spec g.b p.c p.r r1 hs
      obtain ⟨b1', hb1, e1, e2, e3, e4, e5⟩ := board_set_spec g.b p cell.EMPTY hwf hfit hpin
      rw [hset1] at hb1
      cases hb1
      have hupin : in_bounds g.b (make_pos r1 p.c) :=
        ⟨by show r1 < _; have := hpin.1; omega, hpin.2⟩
      have hupin1 : in_bounds b1 (make_pos r1 p.c) := by
        unfold in_bounds
        rw [e1, e2]
        exact hupin
      obtain ⟨b2', hb2, f1, f2, f3, f4, f5⟩ := board_set_spec b1 (make_pos r1 p.c) c e4
        (fits_of_matrix (e3.trans hm)) hupin1
      rw [hset2] at hb2
      cases hb2
      have hup1 : board_get b1 (make_pos r1 p.c) = some cell.EMPTY := by
        rw [e5 _ hupin]
        by_cases heq : make_pos r1 p.c = p
        · rw [if_pos heq]
        · rw [if_neg heq]
          apply hempty r1 (Nat.le_refl _)
          rcases Nat.lt_or_ge r1 p.r with h | h
          · exact h
          · exfalso
            apply heq
            have : r1 = p.r := Nat.le_antisymm hle h
            cases p
            simp only [make_pos] at this ⊢
            rw [this]
      have f5' : ∀ x, in_bounds b1 x →
          board_get b2 x = if x = make_pos r1 p.c then some c else board_get b1 x := f5
      refine ⟨by rw [hgb]; exact f3.trans (e3.trans hm), by rw [hgb]; exact f4,
        by rw [hgb, f1, e1]; exact hw, by rw [hgb, f2, e2]; exact hh, ?_⟩
      apply (uplift_queue_tracks hc).2
      rw [hgb, hother]
      refine ⟨?_, ?_⟩
      · have t1 : tracks ⟨rest⟩ b1 c := tracks_remove hq1 hcne e1 e2 e5
        have t2 := tracks_add t1 hupin1 hup1 hcne f1 f2 f5'
        unfold tracks at t2 ⊢
        rw [hqueue]
        exact t2
      · have t1 : tracks (other_queue g c) b1 _ :=
          tracks_keep ho hpin (by rw [hpget]; simpa using hoc) hone.symm e1 e2 e5
        exact tracks_keep t1 hupin1 (by rw [hup1]; simpa using hone.symm) hoc f1 f2 f5'

/-- Every reachable state of a game on a matrix board is consistent. -/
theorem reachable_consistent {g : game} (h : reachable g) : consistent g := by
  induction h with
  | start run width height g hw hh hnew => exact consistent_new hw hh hnew
  | place g g1 p ok _ hp hcall ih => exact consistent_place ih hp hcall
  | turned g g1 cw ok _ hcall ih => exact consistent_rotate ih hcall
  | lifted g g1 c ok _ hc hcall ih => exact consistent_uplift ih hc hcall

theorem mem_all_positions (b : board) (p : pos) : p ∈ all_positions b ↔ in_bounds b p := by
  simp only [all_positions, List.mem_flatMap, List.mem_range, List.mem_map, in_bounds]
  constructor
  · rintro ⟨r, hr, c, hc, rfl⟩
    exact ⟨hr, hc⟩
  · rintro ⟨hr, hc⟩
    exact ⟨p.r, hr, p.c, hc, rfl⟩

theorem all_positions_nodup (b : board) : (all_positions b).Nodup := by
  unfold all_positions
  rw [List.nodup_flatMap]
  refine ⟨?_, ?_⟩
  · intro r _
    refine List.Nodup.map_on ?_ (List.nodup_range _)
    intro x _ y _ hxy
    simp only [make_pos, pos.mk.injEq, true_and] at hxy
    exact hxy
  · refine List.Pairwise.imp_of_mem ?_ (List.nodup_range b.height)
    intro r1 r2 _ _ hne
    intro p h1 h2
    simp only [List.mem_map, List.mem_range] at h1 h2
    obtain ⟨c1, _, rfl⟩ := h1
    obtain ⟨c2, _, e⟩ := h2
    simp only [make_pos, pos.mk.injEq] at e
    exact hne e.1.symm

theorem mem_pieces (b : board) (col : cell) (p : pos) :
    p ∈ pieces b col ↔ in_bounds b p ∧ board_get b p = some col := by
  simp only [pieces, List.mem_filter, mem_all_positions, decide_eq_true_eq]

/-- A queue that tracks a colour holds the cells of the colour, each once: its length is the
number of these cells. -/
theorem tracks_length {q : posqueue} {b : board} {col : cell} (ht : tracks q b col) :
    q.entries.Perm (pieces b col) ∧ q.len = (pieces b col).length := by
  have hperm : q.entries.Perm (pieces b col) := by
    have hnd : (pieces b col).Nodup := (all_positions_nodup b).filter _
    rw [List.perm_ext_iff_of_nodup ht.1 hnd]
    intro p
    rw [ht.2 p, mem_pieces]
  exact ⟨hperm, hperm.length_eq⟩

/-- C27: in every state of a game on a matrix board reached from `new_game` by `place_piece` at
in-bounds positions, `rotate`, and `uplift` of `BLACK` or `WHITE`, the black queue holds no
position twice and its positions are the in-bounds positions whose cell is `BLACK`, and the
white queue likewise for `WHITE`; so the length of each queue is the number of cells of its
colour. -/
theorem queues_track_board (g : game) (h : reachable g) :
    g.black_queue.entries.Nodup ∧
    (∀ p, p ∈ g.black_queue.entries ↔ in_bounds g.b p ∧ board_get g.b p = some cell.BLACK) ∧
    g.white_queue.entries.Nodup ∧
    (∀ p, p ∈ g.white_queue.entries ↔ in_bounds g.b p ∧ board_get g.b p = some cell.WHITE) ∧
    g.black_queue.len = (pieces g.b cell.BLACK).length ∧
    g.white_queue.len = (pieces g.b cell.WHITE).length := by
  obtain ⟨_, _, _, _, hb, hw⟩ := reachable_consistent h
  exact ⟨hb.1, hb.2, hw.1, hw.2, (tracks_length hb).2, (tracks_length hw).2⟩

theorem queues_track_board_witness :
    reachable demo_square_game ∧
    (demo_square_game.black_queue.entries.Nodup ∧
      (∀ p, p ∈ demo_square_game.black_queue.entries ↔
        in_bounds demo_square_game.b p ∧ board_get demo_square_game.b p = some cell.BLACK) ∧
      demo_square_game.white_queue.entries.Nodup ∧
      (∀ p, p ∈ demo_square_game.white_queue.entries ↔
        in_bounds demo_square_game.b p ∧ board_get demo_square_game.b p = some cell.WHITE) ∧
      demo_square_game.black_queue.len = (pieces demo_square_game.b cell.BLACK).length ∧
      demo_square_game.white_queue.len = (pieces demo_square_game.b cell.WHITE).length) :=
  have hreach : reachable demo_square_game :=
    reachable.place _ _ (make_pos 0 1) true
      (reachable.place _ _ (make_pos 0 0) true
        (reachable.start 3 3 3 demo_new_game (by decide) (by decide) (by decide))
        (by decide) (by decide : place_piece demo_new_game (make_pos 0 0) = some (true,
          { run := 3,
            b := { width := 3, height := 3,
                   u := board_rep.matrix [[cell.BLACK, cell.EMPTY, cell.EMPTY],
                                          [cell.EMPTY, cell.EMPTY, cell.EMPTY],
                                          [cell.EMPTY, cell.EMPTY, cell.EMPTY]] },
            black_queue := { entries := [make_pos 0 0] },
            white_queue := { entries := [] },
            player := turn.WHITES_TURN, last_rotation := rotation.NO_ROTATION })))
      (by decide) (by decide)
  ⟨hreach, queues_track_board demo_square_game hreach⟩

/-! ## The first run in the order of the rows -/

theorem tall_matrix_wf (width : Nat) (first row : List cell) (h1 : first.length = width)
    (h2 : row.length = width) : (tall_matrix width first row).wf := by
  show storage_ok width 2147483648 (board_rep.matrix _)
  refine ⟨by rw [List.length_set, List.length_replicate], ?_⟩
  intro x hx
  rcases List.mem_or_eq_of_mem_set hx with h | h
  · rw [List.eq_of_mem_replicate h]
    exact h2
  · rw [h]
    exact h1

/-- The rotation in the other direction, on the rotated board, brings every cell back. -/
theorem rotate_pos_back {w h : Nat} (cw : Bool) (hw : w < UINT_SIZE) (hh : h < UINT_SIZE)
    {p : pos} (hr : p.r < h) (hc : p.c < w) :
    rotate_pos (!cw) h w (rotate_pos cw w h p) = p := by
  have hin := rotate_pos_in_bounds cw hw hh hr hc
  rw [rotate_pos_eq (!cw) hh hw hin.1 hin.2]
  rw [rotate_pos_eq cw hw hh hr hc] at hin ⊢
  obtain ⟨r, c⟩ := p
  cases cw
  · simp only [Bool.false_eq_true, if_false, make_pos, Bool.not_false, if_true,
      pos.mk.injEq, true_and, and_true] at hin hr hc ⊢
    omega
  · simp only [if_true, make_pos, Bool.not_true, Bool.false_eq_true, if_false,
      pos.mk.injEq, true_and, and_true] at hin hr hc ⊢
    omega

/-- The cells of the board are read on the rotated board by the rotation, and the cells of the
rotated board are read on the board by the rotation in the other direction. -/
theorem rotated_cells_back {b nb : board} {cw : Bool} (hw : b.width < UINT_SIZE)
    (hh : b.height < UINT_SIZE) (h1 : nb.width = b.height) (h2 : nb.height = b.width)
    (hcells : ∀ p, in_bounds b p →
      board_get nb (rotate_pos cw b.width b.height p) = board_get b p) :
    ∀ q, in_bounds nb q →
      board_get b (rotate_pos (!cw) nb.width nb.height q) = board_get nb q := by
  intro q hq
  obtain ⟨p, hpr, hpc, hp⟩ := rotate_pos_surj cw hw hh (q := q)
    (by have := hq.1; rw [h2] at this; exact this)
    (by have := hq.2; rw [h1] at this; exact this)
  rw [← hp, h1, h2, rotate_pos_back cw hw hh hpr hpc, hcells p ⟨hpr, hpc⟩]

/-- A run whose cells are the rotated cells of a run of the board, in some order. -/
theorem run_along_image {b nb : board} {cw : Bool} {n : Nat} {v : cell}
    (hw : b.width < UINT_SIZE) (hh : b.height < UINT_SIZE)
    (h1 : nb.width = b.height) (h2 : nb.height = b.width)
    (hcells : ∀ p, in_bounds b p →
      board_get nb (rotate_pos cw b.width b.height p) = board_get b p)
    (cells img : Nat → pos) (s : Nat → Nat) (hs : ∀ j, j < n → s j < n)
    (hrun : run_along b n v cells)
    (himg : ∀ j, j < n → img j = rotate_pos cw b.width b.height (cells (s j))) :
    run_along nb n v img := by
  intro j hj
  obtain ⟨hin, hget⟩ := hrun (s j) (hs j hj)
  rw [himg j hj]
  have := rotate_pos_in_bounds cw hw hh hin.1 hin.2
  refine ⟨?_, by rw [hcells _ hin]; exact hget⟩
  unfold in_bounds
  rw [h1, h2]
  exact this

/-- A run of the board is a run of the rotated board: a run to the right becomes a run
downwards or upwards, a run downwards a run to the left or to the right, and the two diagonals
are exchanged; a run that would go to the left or upwards is taken from its other end. -/
theorem starts_run_rotate {b nb : board} {cw : Bool} {n : Nat} {v : cell} {r c : Nat}
    (hw : b.width < UINT_SIZE) (hh : b.height < UINT_SIZE)
    (h1 : nb.width = b.height) (h2 : nb.height = b.width)
    (hcells : ∀ p, in_bounds b p →
      board_get nb (rotate_pos cw b.width b.height p) = board_get b p)
    (hn : 1 ≤ n) (hrun : starts_run b n v r c) : ∃ r1 c1, starts_run nb n v r1 c1 := by
  have hrev : ∀ j, j < n → n - 1 - j < n := fun j hj => by omega
  rcases hrun with h | h | h | ⟨hle, h⟩
  · -- to the right
    have hl := (h (n - 1) (by omega)).1
    simp only [in_bounds, make_pos] at hl
    cases cw
    · refine ⟨b.width - c - n, r, Or.inr (Or.inl
        (run_along_image hw hh h1 h2 hcells _ _ (fun j => n - 1 - j) hrev h ?_))⟩
      intro j hj
      have hin := (h (n - 1 - j) (hrev j hj)).1
      rw [rotate_pos_eq false hw hh hin.1 hin.2]
      simp only [in_bounds, make_pos] at hin
      simp only [Bool.false_eq_true, if_false, make_pos, pos.mk.injEq, and_true, true_and]
      omega
    · refine ⟨c, b.height - 1 - r, Or.inr (Or.inl
        (run_along_image hw hh h1 h2 hcells _ _ (fun j => j) (fun _ hj => hj) h ?_))⟩
      intro j hj
      have hin := (h j hj).1
      rw [rotate_pos_eq true hw hh hin.1 hin.2]
      simp only [if_true, make_pos]
  · -- downwards
    have hl := (h (n - 1) (by omega)).1
    simp only [in_bounds, make_pos] at hl
    cases cw
    · refine ⟨b.width - 1 - c, r, Or.inl
        (run_along_image hw hh h1 h2 hcells _ _ (fun j => j) (fun _ hj => hj) h ?_)⟩
      intro j hj
      have hin := (h j hj).1
      rw [rotate_pos_eq false hw hh hin.1 hin.2]
      simp only [Bool.false_eq_true, if_false, make_pos]
    · refine ⟨c, b.height - r - n, Or.inl
        (run_along_image hw hh h1 h2 hcells _ _ (fun j => n - 1 - j) hrev h ?_)⟩
      intro j hj
      have hin := (h (n - 1 - j) (hrev j hj)).1
      rw [rotate_pos_eq true hw hh hin.1 hin.2]
      simp only [in_bounds, make_pos] at hin
      simp only [if_true, make_pos, pos.mk.injEq, and_true, true_and]
      omega
  · -- down and to the right
    have hl := (h (n - 1) (by omega)).1
    simp only [in_bounds, make_pos] at hl
    cases cw
    · refine ⟨b.width - 1 - c, r, Or.inr (Or.inr (Or.inr ⟨by omega,
        run_along_image hw hh h1 h2 hcells _ _ (fun j => j) (fun _ hj => hj) h ?_⟩))⟩
      intro j hj
      have hin := (h j hj).1
      rw [rotate_pos_eq false hw hh hin.1 hin.2]
      simp only [in_bounds, make_pos] at hin
      simp only [Bool.false_eq_true, if_false, make_pos, pos.mk.injEq, and_true, true_and]
      omega
    · refine ⟨c + n - 1, b.height - r - n, Or.inr (Or.inr (Or.inr ⟨by omega,
        run_along_image hw hh h1 h2 hcells _ _ (fun j => n - 1 - j) hrev h ?_⟩))⟩
      intro j hj
      have hin := (h (n - 1 - j) (hrev j hj)).1
      rw [rotate_pos_eq true hw hh hin.1 hin.2]
      simp only [in_bounds, make_pos] at hin
      simp only [if_true, make_pos, pos.mk.injEq, and_true, true_and]
      omega
  · -- up and to the right
    have hl := (h (n - 1) (by omega)).1
    have hf := (h 0 (by omega)).1
    simp only [in_bounds, make_pos] at hl hf
    cases cw
    · refine ⟨b.width - c - n, r + 1 - n, Or.inr (Or.inr (Or.inl
        (run_along_image hw hh h1 h2 hcells _ _ (fun j => n - 1 - j) hrev h ?_)))⟩
      intro j hj
      have hin := (h (n - 1 - j) (hrev j hj)).1
      rw [rotate_pos_eq false hw hh hin.1 hin.2]
      simp only [in_bounds, make_pos] at hin
      simp only [Bool.false_eq_true, if_false, make_pos, pos.mk.injEq, and_true, true_and]
      omega
    · refine ⟨c, b.height - 1 - r, Or.inr (Or.inr (Or.inl
        (run_along_image hw hh h1 h2 hcells _ _ (fun j => j) (fun _ hj => hj) h ?_)))⟩
      intro j hj
      have hin := (h j hj).1
      rw [rotate_pos_eq true hw hh hin.1 hin.2]
      simp only [in_bounds, make_pos] at hin
      simp only [if_true, make_pos, pos.mk.injEq, and_true, true_and]
      omega

/-- Whether some colour has a run, and whether some cell is `EMPTY`, decide between
`IN_PROGRESS`, `DRAW` and a win, for run lengths, widths and heights in the range of `int`. -/
theorem game_outcome_progress (g : game) (hrun1 : 1 ≤ g.run)
    (hrun : g.run < 2147483648) (hw : g.b.width < 2147483648) (hh : g.b.height < 2147483648)
    (hread : board_readable g.b) :
    (∃ o, game_outcome g = some o) ∧
    (game_outcome g = some outcome.IN_PROGRESS ↔
      (¬ (∃ v, v ≠ cell.EMPTY ∧ has_run g.b g.run v) ∧ has_empty g.b)) ∧
    (game_outcome g = some outcome.DRAW ↔
      (¬ (∃ v, v ≠ cell.EMPTY ∧ has_run g.b g.run v) ∧ ¬ has_empty g.b)) := by
  obtain ⟨o, ho, hcases⟩ := game_outcome_spec g hrun hw hh hread
  refine ⟨⟨o, ho⟩, ?_⟩
  rcases hcases with ⟨r, c, v, _, _, _, hne, hstart, hwin, _⟩ | ⟨hno, hrest⟩
  · have hR : ∃ v, v ≠ cell.EMPTY ∧ has_run g.b g.run v := ⟨v, hne, r, c, hstart⟩
    have h1 : o ≠ outcome.IN_PROGRESS := by
      rw [hwin]; unfold win_of; split <;> decide
    have h2 : o ≠ outcome.DRAW := by
      rw [hwin]; unfold win_of; split <;> decide
    rw [ho]
    constructor
    · constructor
      · intro h
        exact absurd (Option.some.inj h) h1
      · intro h
        exact absurd hR h.1
    · constructor
      · intro h
        exact absurd (Option.some.inj h) h2
      · intro h
        exact absurd hR h.1
  · have hR : ¬ ∃ v, v ≠ cell.EMPTY ∧ has_run g.b g.run v := by
      rintro ⟨v, hne, r, c, hs⟩
      obtain ⟨hin, hget⟩ := starts_run_origin hrun1 hs
      exact hno r c v hin.1 hin.2 hget ⟨hne, hs⟩
    rw [ho]
    rcases hrest with ⟨he, hoe⟩ | ⟨he, hoe⟩
    · rw [hoe]
      constructor
      · exact ⟨fun _ => ⟨hR, he⟩, fun _ => rfl⟩
      · constructor
        · intro h
          cases h
        · intro h
          exact absurd he h.2
    · rw [hoe]
      constructor
      · constructor
        · intro h
          cases h
        · intro h
          exact absurd h.2 he
      · exact ⟨fun _ => ⟨hR, he⟩, fun _ => rfl⟩

/-- The runs and the `EMPTY` cells of a board are those of the rotated board. -/
theorem rotated_same_runs {b nb : board} {cw : Bool} {n : Nat}
    (hw : b.width < UINT_SIZE) (hh : b.height < UINT_SIZE)
    (h1 : nb.width = b.height) (h2 : nb.height = b.width)
    (hcells : ∀ p, in_bounds b p →
      board_get nb (rotate_pos cw b.width b.height p) = board_get b p)
    (hn : 1 ≤ n) :
    ((∃ v, v ≠ cell.EMPTY ∧ has_run nb n v) ↔ (∃ v, v ≠ cell.EMPTY ∧ has_run b n v)) ∧
    (has_empty nb ↔ has_empty b) := by
  have hback := rotated_cells_back hw hh h1 h2 hcells
  have hback1 : ∀ q, in_bounds nb q →
      board_get b (rotate_pos (!cw) nb.width nb.height q) = board_get nb q := hback
  have hnw : nb.width < UINT_SIZE := by rw [h1]; exact hh
  have hnh : nb.height < UINT_SIZE := by rw [h2]; exact hw
  refine ⟨⟨?_, ?_⟩, ⟨?_, ?_⟩⟩
  · rintro ⟨v, hne, r, c, hs⟩
    obtain ⟨r1, c1, hs1⟩ := starts_run_rotate hnw hnh h2.symm h1.symm hback1 hn hs
    exact ⟨v, hne, r1, c1, hs1⟩
  · rintro ⟨v, hne, r, c, hs⟩
    obtain ⟨r1, c1, hs1⟩ := starts_run_rotate hw hh h1 h2 hcells hn hs
    exact ⟨v, hne, r1, c1, hs1⟩
  · rintro ⟨q, hq, hget⟩
    have hin := rotate_pos_in_bounds (!cw) hnw hnh hq.1 hq.2
    refine ⟨_, ?_, (hback1 q hq).trans hget⟩
    unfold in_bounds
    rw [← h1, ← h2]
    exact hin
  · rintro ⟨p, hp, hget⟩
    have hin := rotate_pos_in_bounds cw hw hh hp.1 hp.2
    refine ⟨_, ?_, (hcells p hp).trans hget⟩
    unfold in_bounds
    rw [h1, h2]
    exact hin

/-- The game `wide_lone_game` is the one `new_game` and `place_piece` build. -/
theorem wide_lone_reached :
    (new_game 2147483648 2147483648 1 type.MATRIX).bind
      (fun g => place_piece g (make_pos 0 0)) = some (true, wide_lone_game) := by
  have hguard : ¬ ((2147483648 : Nat) > 2147483648 ∧ (2147483648 : Nat) > 1) := by omega
  have hnew : new_game 2147483648 2147483648 1 type.MATRIX =
      some ⟨2147483648, ⟨2147483648, 1,
        board_rep.matrix [List.replicate 2147483648 cell.EMPTY]⟩, posqueue_new, posqueue_new,
        turn.BLACKS_TURN, rotation.NO_ROTATION⟩ := by
    unfold new_game
    rw [if_neg hguard]
    rfl
  have hlen : (List.replicate 2147483648 cell.EMPTY).length = 2147483648 :=
    List.length_replicate _ _
  have hcell : (List.replicate 2147483648 cell.EMPTY)[(make_pos 0 0).c]? = some cell.EMPTY :=
    List.getElem?_replicate_of_lt (Nat.zero_lt_succ _)
  rw [hnew, Option.some_bind]
  exact place_piece_black ⟨2147483648, ⟨2147483648, 1,
      board_rep.matrix [List.replicate 2147483648 cell.EMPTY]⟩, posqueue_new, posqueue_new,
      turn.BLACKS_TURN, rotation.NO_ROTATION⟩ wide_lone_game.b
    (make_pos 0 0) rfl
    (get_on_matrix 2147483648 1 _ (List.replicate 2147483648 cell.EMPTY) (make_pos 0 0)
      cell.EMPTY rfl hcell)
    (place_on_matrix 2147483648 1 _ (List.replicate 2147483648 cell.EMPTY) (make_pos 0 0)
      cell.BLACK (by decide) rfl (by rw [hlen]; exact Nat.zero_lt_succ _))

/-- With the run length `2 ^ 31` on a board of width `2 ^ 31` whose cell `(0, 0)` is not
`EMPTY`, `game_outcome` returns the win of the colour of that cell: `run` is negative as an
`int`, the test `c + run <= width` holds at `(0, 0)`, and the loop of `check_run` does not
run. -/
theorem negative_run_at_left (g : game) (v : cell) (hrun : g.run = 2147483648)
    (hw : g.b.width = 2147483648) (hh : 0 < g.b.height)
    (hget : board_get g.b (make_pos 0 0) = some v) (hne : v ≠ cell.EMPTY) :
    game_outcome g = some (win_of v) := by
  have e1 : toInt32 2147483648 = -2147483648 := by decide
  have e2 : toUInt32 (wrapInt32 (toInt32 0 + -2147483648)) = 2147483648 := by decide
  have hcell : scan_cell g 0 0 = some (some (win_of v)) := by
    simp only [scan_cell, hget, Option.some_bind, hne, if_false, hrun, e1, e2, hw]
    simp only [try_run, check_run, check_run_loop, win_of, Option.some_bind]
    by_cases hbl : v = cell.BLACK <;> simp [hbl]
  obtain ⟨h1, hh1⟩ : ∃ h1, g.b.height = h1 + 1 := ⟨g.b.height - 1, by omega⟩
  have hrow := for_return_first (fun c => scan_cell g 0 c) 2147483647 0 _ hcell
  have hall := for_return_first
    (fun r => for_return (fun c => scan_cell g r c) (2147483647 + 1) 0) h1 0 _ hrow
  unfold game_outcome
  have hw1 : (2147483648 : Nat) = 2147483647 + 1 := rfl
  rw [hw, hh1, hw1, hall]
  rfl

/-- With the run length `2 ^ 31` on a board of width `1` and height `2 ^ 31` whose cell
`(0, 0)` is `EMPTY`, `game_outcome` returns `IN_PROGRESS`: `run` is negative as an `int`, and
at every other cell the tests `c + run <= width` and `r + run <= height` fail, so that no call
of `check_run` is made. -/
theorem tall_negative_run_outcome (g : game) (hrun : g.run = 2147483648)
    (hw : g.b.width = 1) (hh : g.b.height = 2147483648) (hread : board_readable g.b)
    (h0 : board_get g.b (make_pos 0 0) = some cell.EMPTY) :
    game_outcome g = some outcome.IN_PROGRESS := by
  have e1 : toInt32 2147483648 = -2147483648 := by decide
  have efw : toUInt32 (wrapInt32 (toInt32 0 + -2147483648)) = 2147483648 := by decide
  have hcell : ∀ r, r < 2147483648 → scan_cell g r 0 = some none := by
    intro r hr
    obtain ⟨v, hv⟩ := hread (make_pos r 0) ⟨by rw [hh]; exact hr, by rw [hw]; exact Nat.zero_lt_one⟩
    by_cases hve : v = cell.EMPTY
    · simp only [scan_cell, hv, Option.some_bind, hve, if_true]
    · have hr0 : r ≠ 0 := by
        intro h
        rw [h, h0] at hv
        exact hve (Option.some.inj hv).symm
      have efh : toUInt32 (wrapInt32 (toInt32 r + -2147483648)) = r + 2147483648 := by
        rw [toUInt32_wrapInt32, toInt32_of_lt hr]
        unfold toUInt32
        omega
      have hd1 : decide (r + 2147483648 ≤ 2147483648) = false := decide_eq_false (by omega)
      have hd2 : decide ((2147483648 : Nat) ≤ 1) = false := by decide
      simp only [scan_cell, hv, Option.some_bind, hve, if_false, hrun, e1, efw, efh, hw, hh,
        hd1, hd2, try_run, Bool.false_and, Bool.false_eq_true]
  have hscan : for_return (fun r => for_return (fun c => scan_cell g r c) g.b.width 0)
      g.b.height 0 = some none := by
    rcases for_return_nested (fun r c => scan_cell g r c) g.b.width g.b.height (by
      intro r c hr hc
      have hc0 : c = 0 := by omega
      rw [hc0]
      exact ⟨none, hcell r (by omega)⟩) with ⟨h1, _⟩ | ⟨r, c, a, hr, hc, hres, _, _⟩
    · exact h1
    · have hc0 : c = 0 := by omega
      rw [hc0, hcell r (by omega)] at hres
      cases hres
  have hempty : empty_cell g 0 0 = some (some outcome.IN_PROGRESS) := by
    rw [empty_cell_spec g 0 0 cell.EMPTY h0]
    rfl
  have hrow := for_return_first (fun c => empty_cell g 0 c) 0 0 _ hempty
  have hall := for_return_first
    (fun r => for_return (fun c => empty_cell g r c) (0 + 1) 0) 2147483647 0 _ hrow
  unfold game_outcome
  rw [hscan]
  have hh1 : (2147483648 : Nat) = 2147483647 + 1 := rfl
  have hw1 : (1 : Nat) = 0 + 1 := rfl
  simp only [Option.some_bind]
  rw [hw, hh, hw1, hh1, hall]
  rfl

/-- C28 (amended): for every game on a matrix board with its storage whose run length is at
least `1` and whose run length, width and height are at most `2 ^ 31 - 1`, the values of an
`int`, and for every call of `rotate` that succeeds, `game_outcome` returns an outcome before
and after the rotation, it is `IN_PROGRESS` after the rotation if and only if it was
`IN_PROGRESS` before, and `DRAW` after if and only if it was `DRAW` before. -/
theorem rotate_keeps_progress (g g1 : game) (clockwise : Bool)
    (hm : g.b.type = type.MATRIX) (hwf : g.b.wf) (hrun1 : 1 ≤ g.run)
    (hrun : g.run < 2147483648) (hw : g.b.width < 2147483648) (hh : g.b.height < 2147483648)
    (hrot : rotate g clockwise = some (true, g1)) :
    (game_outcome g1 = some outcome.IN_PROGRESS ↔
      game_outcome g = some outcome.IN_PROGRESS) ∧
    (game_outcome g1 = some outcome.DRAW ↔ game_outcome g = some outcome.DRAW) ∧
    (∃ o, game_outcome g = some o) ∧ (∃ o1, game_outcome g1 = some o1) := by
  have hw32 : g.b.width < UINT_SIZE := by unfold UINT_SIZE; omega
  have hh32 : g.b.height < UINT_SIZE := by unfold UINT_SIZE; omega
  have hrev : ¬ ((clockwise = true ∧ g.last_rotation = rotation.COUNTERCLOCKWISE) ∨
      (clockwise = false ∧ g.last_rotation = rotation.CLOCKWISE)) := by
    intro h
    unfold rotate at hrot
    rw [if_pos h] at hrot
    simp at hrot
  obtain ⟨g2, hrot2, m1, wf1, w1, h1, _, c1, _, _⟩ :=
    rotate_matrix_step clockwise hm hwf hw32 hh32 hrev
  rw [hrot] at hrot2
  simp only [Option.some.injEq, Prod.mk.injEq, true_and] at hrot2
  subst hrot2
  have hrun_eq : g1.run = g.run := by
    obtain ⟨nb, _, hg1⟩ := rotate_success hrot
    rw [hg1]
  obtain ⟨ho, hp, hd⟩ := game_outcome_progress g hrun1 hrun hw hh
    (board_readable_of_wf hwf (fits_of_matrix hm))
  obtain ⟨ho1, hp1, hd1⟩ := game_outcome_progress g1 (by rw [hrun_eq]; exact hrun1)
    (by rw [hrun_eq]; exact hrun) (by rw [w1]; exact hh) (by rw [h1]; exact hw)
    (board_readable_of_wf wf1 (fits_of_matrix m1))
  obtain ⟨hruns, hempty⟩ := rotated_same_runs (n := g.run) hw32 hh32 w1 h1 c1 hrun1
  rw [hrun_eq] at hp1 hd1
  refine ⟨?_, ?_, ho, ho1⟩
  · rw [hp1, hp, hruns, hempty]
  · rw [hd1, hd, hruns, hempty]

theorem rotate_keeps_progress_witness :
    demo_matrix_game.b.type = type.MATRIX ∧ demo_matrix_game.b.wf ∧ 1 ≤ demo_matrix_game.run ∧
    demo_matrix_game.run < 2147483648 ∧ demo_matrix_game.b.width < 2147483648 ∧
    demo_matrix_game.b.height < 2147483648 ∧
    rotate demo_matrix_game true = some (true, demo_matrix_game_cw) ∧
    ((game_outcome demo_matrix_game_cw = some outcome.IN_PROGRESS ↔
        game_outcome demo_matrix_game = some outcome.IN_PROGRESS) ∧
      (game_outcome demo_matrix_game_cw = some outcome.DRAW ↔
        game_outcome demo_matrix_game = some outcome.DRAW) ∧
      (∃ o, game_outcome demo_matrix_game = some o) ∧
      (∃ o1, game_outcome demo_matrix_game_cw = some o1)) :=
  ⟨by decide, by decide, by decide, by decide, by decide, by decide, by decide,
    rotate_keeps_progress demo_matrix_game demo_matrix_game_cw true (by decide) (by decide)
      (by decide) (by decide) (by decide) (by decide) (by decide)⟩

/-- C28 (as stated) fails for the run length `2 ^ 31`: in `wide_lone_game`, which `new_game`
and `place_piece` build, on a matrix board of width `2 ^ 31` and height `1` that the loops of
`board_new` allocate without a write outside the storage, with one black piece at `(0, 0)`,
`game_outcome` returns `BLACK_WIN`; the counterclockwise call of `rotate`, which
has one row to copy, returns `true`, and on the rotated board, of width `1` and height `2 ^ 31`
with the piece at `(2147483647, 0)`, `game_outcome` returns `IN_PROGRESS`. -/
theorem rotation_turns_win_to_progress :
    (new_game 2147483648 2147483648 1 type.MATRIX).bind
      (fun g => place_piece g (make_pos 0 0)) = some (true, wide_lone_game) ∧
    init_matrix 2147483648 1 =
      some (List.replicate 1 (some (List.replicate 2147483648 (some cell.EMPTY)))) ∧
    1 ≤ wide_lone_game.run ∧ wide_lone_game.b.type = type.MATRIX ∧
    wide_lone_game.b.height = 1 ∧
    game_outcome wide_lone_game = some outcome.BLACK_WIN ∧
    ∃ g1, rotate wide_lone_game false = some (true, g1) ∧
      board_get g1.b (make_pos 2147483647 0) = some cell.BLACK ∧
      game_outcome g1 = some outcome.IN_PROGRESS := by
  have hlen : (List.replicate 2147483648 cell.EMPTY).length = 2147483648 :=
    List.length_replicate _ _
  have h00 : board_get wide_lone_game.b (make_pos 0 0) = some cell.BLACK :=
    get_on_matrix _ _ _ ((List.replicate 2147483648 cell.EMPTY).set 0 cell.BLACK) (make_pos 0 0)
      cell.BLACK rfl (List.getElem?_set_self (by rw [hlen]; exact Nat.zero_lt_succ _))
  have hlast : board_get wide_lone_game.b (make_pos 0 2147483647) = some cell.EMPTY :=
    get_on_matrix _ _ _ ((List.replicate 2147483648 cell.EMPTY).set 0 cell.BLACK)
      (make_pos 0 2147483647) cell.EMPTY rfl (by
        rw [List.getElem?_set_ne (by decide)]
        exact List.getElem?_replicate_of_lt (by decide))
  have hwf : wide_lone_game.b.wf := by
    show storage_ok 2147483648 1 (board_rep.matrix _)
    refine ⟨rfl, ?_⟩
    intro x hx
    rw [List.mem_singleton] at hx
    rw [hx, List.length_set, hlen]
  obtain ⟨g1, hrot, m1, wf1, w1, h1, _, c1, _, _⟩ :=
    rotate_matrix_step (g := wide_lone_game) false rfl hwf (by decide) (by decide) (by decide)
  have hrun_eq : g1.run = wide_lone_game.run := by
    obtain ⟨nb, _, hg1⟩ := rotate_success hrot
    rw [hg1]
  refine ⟨wide_lone_reached, init_matrix_eq 2147483648 1 (Nat.le_refl _) (by decide),
    by decide, rfl, rfl, ?_, g1, hrot, ?_, ?_⟩
  · exact negative_run_at_left wide_lone_game cell.BLACK rfl rfl (by decide) h00 (by decide)
  · have := c1 (make_pos 0 0) ⟨by decide, by decide⟩
    rw [h00] at this
    have hp : rotate_pos false wide_lone_game.b.width wide_lone_game.b.height
        (make_pos 0 0) = make_pos 2147483647 0 := by decide
    rw [hp] at this
    exact this
  · refine tall_negative_run_outcome g1 (by rw [hrun_eq]; rfl) (by rw [w1]; rfl)
      (by rw [h1]; rfl) (board_readable_of_wf wf1 (fits_of_matrix m1)) ?_
    have := c1 (make_pos 0 2147483647) ⟨by decide, by decide⟩
    rw [hlast] at this
    have hp : rotate_pos false wide_lone_game.b.width wide_lone_game.b.height
        (make_pos 0 2147483647) = make_pos 0 0 := by decide
    rw [hp] at this
    exact this

end Connect4
